import Mathlib

/-! Verification of the B-tree insertion module (`src/lib/insert.c`) of the
Cranberry-Btree repository against its design specification.

The insertion module consists of `bt_split_child`, `split_full_root` and
`bt_insert_helper`; those three functions are translated statement by
statement from the C source.  The node primitives they call
(`bt_create_node`, `is_full_node`, `is_leaf`, `get_next_node_index`,
`node_insert_entry`) live outside the module and are modelled from the
specification's contracts (each such definition carries a doc comment
starting with "Modelled from the spec:").

C arrays of pointers are modelled as lists of `Option` values whose length
is the array's documented capacity (`n-1` entry slots and `n` child slots
per node); a `NULL` slot is `none`.  Reading a slot uses `List.getD _ none`
(an out-of-range read yields `none`) and writing uses `List.set` (an
out-of-range write is a no-op).  A separate bounds-checked variant of the
splitter uses `Option`-returning indexing and reports an out-of-range
access as a failure; it is used to settle the memory-safety claim. -/

namespace Cranberry

/-- An entry (C struct `cbt_entry_t`): an `int` key together with an opaque
object payload. -/
structure CbtEntry where
  key : Int
  object : Int
deriving DecidableEq

/-- A B-tree node (C struct `cbt_node_t`): a fixed-capacity array of entry
slots, a fixed-capacity array of child slots, and the `len` counter field.
Empty (`NULL`) slots are `none`. -/
inductive CbtNode : Type where
  | mk : List (Option CbtEntry) → List (Option CbtNode) → Nat → CbtNode

/-- The entry-slot array of a node. -/
def CbtNode.entry : CbtNode → List (Option CbtEntry)
  | .mk es _ _ => es

/-- The child-slot array of a node. -/
def CbtNode.children : CbtNode → List (Option CbtNode)
  | .mk _ cs _ => cs

/-- The `len` counter field of a node. -/
def CbtNode.len : CbtNode → Nat
  | .mk _ _ l => l

/-- The tree (C struct `cranbtree_t`): order `n`, an optional root reference,
and the cached minimum/maximum keys. -/
structure Cranbtree where
  root : Option CbtNode
  n : Nat
  max_key : Int
  min_key : Int

mutual
/-- Height of a node: one more than the maximum height of its non-absent
children (so a childless node has height 1). -/
def heightN : CbtNode → Nat
  | .mk _ cs _ => heightL cs + 1

/-- Maximum height of the non-absent children in a child-slot list. -/
def heightL : List (Option CbtNode) → Nat
  | [] => 0
  | none :: rest => heightL rest
  | some c :: rest => Nat.max (heightN c) (heightL rest)
end

mutual
/-- All keys stored in a node's subtree. -/
def keysN : CbtNode → List Int
  | .mk es cs _ => es.filterMap (fun o => o.map CbtEntry.key) ++ keysL cs

/-- All keys stored below a child-slot list. -/
def keysL : List (Option CbtNode) → List Int
  | [] => []
  | none :: rest => keysL rest
  | some c :: rest => keysN c ++ keysL rest
end

mutual
/-- All nodes of a subtree, the subtree's own root included. -/
def nodesN : CbtNode → List CbtNode
  | .mk es cs l => .mk es cs l :: nodesL cs

/-- All nodes reachable from a child-slot list. -/
def nodesL : List (Option CbtNode) → List CbtNode
  | [] => []
  | none :: rest => nodesL rest
  | some c :: rest => nodesN c ++ nodesL rest
end

/-- The populated entries of a node, in slot order. -/
def entriesOf (node : CbtNode) : List CbtEntry :=
  node.entry.filterMap id

/-! ## Node primitives, modelled from the specification (§4.1, §6) -/

/-- Modelled from the spec: `create_node(n)` (§4.1, §6; `bt_create_node` is
not part of the insertion module) returns a node with `count = 0` and all
of its `n-1` entry slots and `n` child slots empty. -/
def bt_create_node (n : Nat) : CbtNode :=
  .mk (List.replicate (n - 1) none) (List.replicate n none) 0

/-- Modelled from the spec: `is_full(node, n)` (§4.1; `is_full_node` is not
part of the insertion module) is true iff the node's count field equals
`n - 1`. -/
def is_full_node (node : CbtNode) (n : Nat) : Bool :=
  node.len == n - 1

/-- Modelled from the spec: `is_leaf_position(childRef)` (§4.1; `is_leaf` is
not part of the insertion module) is true iff the child reference is
absent. -/
def is_leaf (c : Option CbtNode) : Bool :=
  c.isNone

/-- Position scan over the entry-slot array: the first index whose slot is
empty or holds a key greater than `key`.  On a node whose populated entries
form a sorted prefix this is both the branch-selection index of
`locate_child_index` and the landing position of a sorted insertion. -/
def locateIdx (es : List (Option CbtEntry)) (key : Int) : Nat :=
  match es with
  | [] => 0
  | none :: _ => 0
  | some e :: rest => if key < e.key then 0 else locateIdx rest key + 1

/-- Modelled from the spec: `locate_child_index(node, key, n)` (§4.1, §6;
`get_next_node_index` is not part of the insertion module) returns the
index `i` such that `key` belongs before `entries[i]`, or the index one
past the populated entries when `key` is at least every stored key. -/
def get_next_node_index (node : CbtNode) (key : Int) (_n : Nat) : Nat :=
  locateIdx node.entry key

/-- Insert a value at position `j` of a fixed-capacity slot array, shifting
the subsequent slots right by one; the final slot falls off (the caller
guarantees it is empty because the node is not full). -/
def slotInsertAt (l : List α) (j : Nat) (a : α) : List α :=
  (l.take j ++ a :: l.drop j).take l.length

/-- Shift the slots of a fixed-capacity array right by one starting at
position `s`: slots before `s` are unchanged, slot `s` keeps its old value
(its new occupant is written by the caller), and for `k > s` the new slot
`k` holds the old slot `k-1`; the final slot falls off. -/
def slotShiftFrom (l : List α) (s : Nat) : List α :=
  (l.take (s + 1) ++ l.drop s).take l.length

/-- Modelled from the spec: `insert_sorted` / `node_insert_entry` (§4.1,
§6; not part of the insertion module).  It inserts `entry` at its sorted
position among the node's populated entries, shifting the subsequent
entries — and, when `shift` is set, their paired child slots, so that slot
`i+1` stays paired with the entry previously at index `i` — one position
down, and increments the count field.  The returned index is one past the
landing position: §4.3(d) requires the new right half of a split to be
placed "into the slot immediately after the promoted entry's landing
index", and the caller (insert.c line 91) stores that right half at
`children[r]` where `r` is the returned value, which forces
`r = landing position + 1`. -/
def node_insert_entry (node : CbtNode) (e : CbtEntry) (shift : Bool) (_n : Nat) :
    CbtNode × Nat :=
  let j := locateIdx node.entry e.key
  let es := slotInsertAt node.entry j (some e)
  let cs := if shift then slotShiftFrom node.children (j + 1) else node.children
  (⟨es, cs, node.len + 1⟩, j + 1)

/-- Modelled from the spec: the literal return-value sentence of the
`insert_sorted` contract (§4.1: "returns the index at which the entry
landed"), to be compared with `node_insert_entry`, whose return value is
pinned instead by §4.3(d) and the caller at insert.c line 91. -/
def insert_sorted_contract (node : CbtNode) (e : CbtEntry) (shift : Bool) (_n : Nat) :
    CbtNode × Nat :=
  let j := locateIdx node.entry e.key
  let es := slotInsertAt node.entry j (some e)
  let cs := if shift then slotShiftFrom node.children (j + 1) else node.children
  (⟨es, cs, node.len + 1⟩, j)

/-! ## The splitter: `bt_split_child` (insert.c lines 136-171) -/

/-- One iteration `i` of the copy loop of `bt_split_child` (insert.c lines
153-160): `new.entry[i-borrow] := node.entry[i]`,
`new.children[i-borrow+1] := node.children[i+1]`, then both source slots
are cleared. -/
def splitCopyStep (borrow i : Nat) (node newNode : CbtNode) : CbtNode × CbtNode :=
  let newNode' : CbtNode :=
    ⟨newNode.entry.set (i - borrow) (node.entry.getD i none),
     newNode.children.set (i - borrow + 1) (node.children.getD (i + 1) none),
     newNode.len⟩
  let node' : CbtNode := ⟨node.entry.set i none, node.children.set (i + 1) none, node.len⟩
  (node', newNode')

/-- The copy loop of `bt_split_child`: `for (int i = borrow_n; i < n; i++)`
(insert.c line 153).  The loop bound is `i < n`, so the final iteration
`i = n-1` reads `node.entry[n-1]` and `node.children[n]`. -/
def splitCopyLoop (borrow n : Nat) (node newNode : CbtNode) : CbtNode × CbtNode :=
  (List.range' borrow (n - borrow)).foldl
    (fun p i => splitCopyStep borrow i p.1 p.2) (node, newNode)

/-- `bt_split_child(node, &splitted_node, n)` (insert.c lines 136-171).
Returns `none` when the node is not full (the C function returns `NULL`
without touching the node).  Otherwise returns `some (median?, left,
right)`: `left` is the argument node after its in-place mutation, `right`
is the newly created node stored through `splitted_node`, and `median?` is
the entry pointer returned to the caller — it is `none` exactly when the
median slot `entry[borrow-1]` of the full-by-count node was empty (a
`NULL` return that the callers treat as "no split happened").
`borrow = ceil_fn(n / 2.0)` is `⌈n/2⌉`, written `(n+1)/2` over `Nat`. -/
def bt_split_child (node : CbtNode) (n : Nat) :
    Option (Option CbtEntry × CbtNode × CbtNode) :=
  if ¬ is_full_node node n then none
  else
    let borrow := (n + 1) / 2
    let newNode0 := bt_create_node n
    -- new_node->children[0] = node->children[borrow_n]; node->children[borrow_n] = NULL;
    let newNode1 : CbtNode :=
      ⟨newNode0.entry, newNode0.children.set 0 (node.children.getD borrow none), newNode0.len⟩
    let node1 : CbtNode := ⟨node.entry, node.children.set borrow none, node.len⟩
    let lp := splitCopyLoop borrow n node1 newNode1
    -- new_node->len = n / 2; node->len = n / 2;
    let newNode2 : CbtNode := ⟨lp.2.entry, lp.2.children, n / 2⟩
    let node2 : CbtNode := ⟨lp.1.entry, lp.1.children, n / 2⟩
    -- entry = node->entry[borrow_n - 1]; node->entry[borrow_n - 1] = NULL;
    let median := node2.entry.getD (borrow - 1) none
    let node3 : CbtNode := ⟨node2.entry.set (borrow - 1) none, node2.children, node2.len⟩
    some (median, node3, newNode2)

/-! ## Bounds-checked splitter

The same statements as `bt_split_child`, but every array access goes
through `Option`-returning indexing against the array's actual length, and
a write checks the index the same way; the function fails (returns `none`
from the inner computation) as soon as any access is out of range. -/

/-- Bounds-checked slot read. -/
def getChk (l : List α) (i : Nat) : Option α :=
  l.get? i

/-- Bounds-checked slot write. -/
def setChk (l : List α) (i : Nat) (a : α) : Option (List α) :=
  if i < l.length then some (l.set i a) else none

/-- Bounds-checked version of one copy-loop iteration of `bt_split_child`. -/
def splitCopyStepChk (borrow i : Nat) (node newNode : CbtNode) :
    Option (CbtNode × CbtNode) := do
  let srcE ← getChk node.entry i
  let newE ← setChk newNode.entry (i - borrow) srcE
  let srcC ← getChk node.children (i + 1)
  let newC ← setChk newNode.children (i - borrow + 1) srcC
  let oldE ← setChk node.entry i none
  let oldC ← setChk node.children (i + 1) none
  pure (⟨oldE, oldC, node.len⟩, ⟨newE, newC, newNode.len⟩)

/-- Bounds-checked version of the copy loop of `bt_split_child`. -/
def splitCopyLoopChk (borrow n : Nat) (node newNode : CbtNode) :
    Option (CbtNode × CbtNode) :=
  (List.range' borrow (n - borrow)).foldlM
    (fun p i => splitCopyStepChk borrow i p.1 p.2) (node, newNode)

/-- Bounds-checked version of `bt_split_child`: identical control flow, but
any array access outside the arrays' actual bounds aborts the computation
with `none` (the result is `some none` when the node is not full, and
`some (some _)` when the split completed without any out-of-range
access). -/
def bt_split_child_chk (node : CbtNode) (n : Nat) :
    Option (Option (Option CbtEntry × CbtNode × CbtNode)) :=
  if ¬ is_full_node node n then some none
  else do
    let borrow := (n + 1) / 2
    let newNode0 := bt_create_node n
    let c0 ← getChk node.children borrow
    let newC ← setChk newNode0.children 0 c0
    let oldC ← setChk node.children borrow none
    let newNode1 : CbtNode := ⟨newNode0.entry, newC, newNode0.len⟩
    let node1 : CbtNode := ⟨node.entry, oldC, node.len⟩
    let lp ← splitCopyLoopChk borrow n node1 newNode1
    let newNode2 : CbtNode := ⟨lp.2.entry, lp.2.children, n / 2⟩
    let node2 : CbtNode := ⟨lp.1.entry, lp.1.children, n / 2⟩
    let median ← getChk node2.entry (borrow - 1)
    let cleared ← setChk node2.entry (borrow - 1) none
    let node3 : CbtNode := ⟨cleared, node2.children, node2.len⟩
    pure (some (median, node3, newNode2))

/-! ## Root growth and the recursive driver (insert.c lines 42-128) -/

/-- `split_full_root(old_root, n)` (insert.c lines 107-128).  The returned
flag models the pointer comparison `bt->root != root` performed by the
caller at line 63: it is `true` exactly when a new root node was created
and returned.  When `bt_split_child` returns a `NULL` entry the old node
is returned — mutated in place if it was full by count (its median slot
being empty), untouched otherwise. -/
def split_full_root (old_root : CbtNode) (n : Nat) : CbtNode × Bool :=
  match bt_split_child old_root n with
  | none => (old_root, false)
  | some (none, left, _right) => (left, false)
  | some (some e, left, right) =>
      let new1 := (node_insert_entry (bt_create_node n) e true n).1
      -- new_root->children[0] = old_root; new_root->children[1] = splitted_node;
      (⟨new1.entry, (new1.children.set 0 (some left)).set 1 (some right), new1.len⟩, true)

/-- Result of one `bt_insert_helper` call.  `updated x` means the call
mutated the given subtree in place (its new value is `x`) and did not
touch the tree struct; `newRoot x b` means the call assigned `bt->root`
(the final root is `x`), with `b` recording whether it also assigned
`min_key`/`max_key` (which happens only in the `root == NULL` branch,
insert.c lines 48-57). -/
inductive HelperRes : Type where
  | updated : CbtNode → HelperRes
  | newRoot : CbtNode → Bool → HelperRes

/-- `bt_insert_helper(bt, root, entry)` (insert.c lines 42-97), with the C
recursion replaced by an explicit fuel parameter (`none` = fuel ran out;
the fuel bound is settled by the termination theorems).  The pointer
comparison `is_root(bt, root)` is true in C exactly on the calls whose
`root` argument is `bt->root` — the initial call and the restart at line
67 — and is modelled by the `atRoot` flag.  In-place node mutations become
rebuilding of the current node around the updated child; an assignment to
`bt->root` deep in the recursion (only possible in the `root == NULL`
branch) discards the surrounding rebuilds, exactly as the C assignment
makes the mutated ancestors unreachable from the tree. -/
def bt_insert_helper (fuel : Nat) (n : Nat) (node : Option CbtNode) (atRoot : Bool)
    (e : CbtEntry) : Option HelperRes :=
  match fuel with
  | 0 => none
  | fuel + 1 =>
    match node with
    | none =>
        -- lines 48-57: the first insertion; also reached through line 95 with a
        -- NULL child, in which case it replaces the tree's root all the same
        some (.newRoot (node_insert_entry (bt_create_node n) e true n).1 true)
    | some root0 =>
        let rs := if atRoot then split_full_root root0 n else (root0, false)
        if atRoot ∧ rs.2 then
          -- lines 63-69: bt->root = root; restart on the new root
          match bt_insert_helper fuel n (some rs.1) true e with
          | none => none
          | some (.updated x) => some (.newRoot x false)
          | some (.newRoot x b) => some (.newRoot x b)
        else
          let root := rs.1
          let ci := get_next_node_index root e.key n
          match root.children.getD ci none with
          | none =>
              -- line 75-78: this is a leaf position; insert here
              some (.updated (node_insert_entry root e true n).1)
          | some child =>
              match bt_split_child child n with
              | none =>
                  -- child not full: no mutation, descend into it (line 95)
                  match bt_insert_helper fuel n (some child) false e with
                  | none => none
                  | some (.updated c') =>
                      some (.updated ⟨root.entry, root.children.set ci (some c'), root.len⟩)
                  | some (.newRoot x b) => some (.newRoot x b)
              | some (none, left, _right) =>
                  -- full-by-count child with an empty median slot: the C call
                  -- returned NULL after mutating the child in place; the new
                  -- node leaks, nothing is attached, the index is not
                  -- recomputed, and the descent re-reads children[ci] = left
                  let root1 : CbtNode :=
                    ⟨root.entry, root.children.set ci (some left), root.len⟩
                  match bt_insert_helper fuel n (some left) false e with
                  | none => none
                  | some (.updated c') =>
                      some (.updated ⟨root1.entry, root1.children.set ci (some c'), root1.len⟩)
                  | some (.newRoot x b) => some (.newRoot x b)
              | some (some m, left, right) =>
                  -- lines 87-93: reattach the halves around the promoted entry,
                  -- then recompute the path
                  let root1 : CbtNode :=
                    ⟨root.entry, root.children.set ci (some left), root.len⟩
                  let ins := node_insert_entry root1 m true n
                  let root3 : CbtNode :=
                    ⟨ins.1.entry, ins.1.children.set ins.2 (some right), ins.1.len⟩
                  let ci' := get_next_node_index root3 e.key n
                  match root3.children.getD ci' none with
                  | none =>
                      -- line 95 recursing on a NULL child reaches lines 48-57
                      bt_insert_helper fuel n none false e
                  | some tgt =>
                      match bt_insert_helper fuel n (some tgt) false e with
                      | none => none
                      | some (.updated c') =>
                          some (.updated
                            ⟨root3.entry, root3.children.set ci' (some c'), root3.len⟩)
                      | some (.newRoot x b) => some (.newRoot x b)

/-- The tail of the full-child branch of `bt_insert_helper` (insert.c lines
94-96, after the reattachment of lines 87-93): re-read the child at the
recomputed index from the updated node and recurse into it. -/
def helperAfterSplit (fuel n : Nat) (e : CbtEntry) (root3 : CbtNode) : Option HelperRes :=
  match root3.children.getD (get_next_node_index root3 e.key n) none with
  | none => bt_insert_helper fuel n none false e
  | some tgt =>
      match bt_insert_helper fuel n (some tgt) false e with
      | none => none
      | some (.updated c') =>
          some (.updated ⟨root3.entry,
            root3.children.set (get_next_node_index root3 e.key n) (some c'), root3.len⟩)
      | some (.newRoot x b) => some (.newRoot x b)

/-- Height of a tree: the height of its root, `0` when empty. -/
def treeHeight (t : Cranbtree) : Nat :=
  match t.root with
  | none => 0
  | some r => heightN r

/-- Fuel budget handed to the helper; shown sufficient by the termination
theorems. -/
def insertFuel (t : Cranbtree) : Nat :=
  treeHeight t + 3

/-- `cbt_insert(bt, entry)`: runs `bt_insert_helper(bt, bt->root, entry)`
and applies the tree-level effects the call performed (root replacement
and, in the first-insertion branch, the `min_key`/`max_key`
assignments). -/
def cbt_insert (t : Cranbtree) (e : CbtEntry) : Cranbtree :=
  match bt_insert_helper (insertFuel t) t.n t.root true e with
  | none => t
  | some (.updated x) => { t with root := some x }
  | some (.newRoot x b) =>
      { t with
        root := some x
        max_key := if b then e.key else t.max_key
        min_key := if b then e.key else t.min_key }

/-- An empty tree of order `n` (`cbt_create`): no root; the cached keys
start at `0`. -/
def cbt_create (n : Nat) : Cranbtree :=
  { root := none, n := n, max_key := 0, min_key := 0 }

/-- Folding `cbt_insert` over a list of entries, first entry first. -/
def insertList (t : Cranbtree) (es : List CbtEntry) : Cranbtree :=
  es.foldl cbt_insert t


/-! ## Specification predicates -/

/-- Branch-selection index over a list of keys: the first position holding
a key greater than `key`, or the list length when `key` is at least every
listed key. -/
def locateK (ks : List Int) (key : Int) : Nat :=
  match ks with
  | [] => 0
  | k0 :: rest => if key < k0 then 0 else locateK rest key + 1

/-- `k` lies strictly inside the open interval described by the optional
bounds `lo` and `hi`. -/
def Btwn (lo hi : Option Int) (k : Int) : Prop :=
  (∀ a, lo = some a → a < k) ∧ (∀ b, hi = some b → k < b)

/-- Lower bound handed to child `i`: the parent's lower bound for the
leftmost child, otherwise the key of the entry to the child's left. -/
def childLo (lo : Option Int) (ks : List Int) (i : Nat) : Option Int :=
  if i = 0 then lo else some (ks.getD (i - 1) 0)

/-- Upper bound handed to child `i`: the key of the entry to the child's
right, or the parent's upper bound for the rightmost child. -/
def childHi (hi : Option Int) (ks : List Int) (i : Nat) : Option Int :=
  if i < ks.length then some (ks.getD i 0) else hi

/-- Structural and ordering invariant of a subtree, relative to strict key
bounds.  The populated entries form a prefix `ps` of the entry array
(capacity `n-1`), the count field dominates the populated count and stays
below `n`, keys are strictly ascending and strictly inside the bounds, and
the children — absent for a leaf position, a prefix of exactly
`ps.length + 1` nodes otherwise — satisfy the invariant between the
neighbouring keys. -/
inductive NodeInv (n : Nat) : Option Int → Option Int → CbtNode → Prop where
  | leaf (lo hi : Option Int) (ps : List CbtEntry) (len : Nat)
      (hp : ps.length ≤ len) (hlen : len ≤ n - 1)
      (hsort : List.Sorted (· < ·) (ps.map CbtEntry.key))
      (hbtwn : ∀ k ∈ ps.map CbtEntry.key, Btwn lo hi k) :
      NodeInv n lo hi (.mk (ps.map some ++ List.replicate (n - 1 - ps.length) none)
        (List.replicate n none) len)
  | internal (lo hi : Option Int) (ps : List CbtEntry) (cs : List CbtNode) (len : Nat)
      (hp : ps.length ≤ len) (hlen : len ≤ n - 1)
      (hcs : cs.length = ps.length + 1)
      (hsort : List.Sorted (· < ·) (ps.map CbtEntry.key))
      (hbtwn : ∀ k ∈ ps.map CbtEntry.key, Btwn lo hi k)
      (hkids : ∀ i (h : i < cs.length),
        NodeInv n (childLo lo (ps.map CbtEntry.key) i)
          (childHi hi (ps.map CbtEntry.key) i) (cs.get ⟨i, h⟩)) :
      NodeInv n lo hi (.mk (ps.map some ++ List.replicate (n - 1 - ps.length) none)
        (cs.map some ++ List.replicate (n - (ps.length + 1)) none) len)

/-- The keys stored in the subtree hanging off child slot `i` (empty when
the slot is absent). -/
def keysUnder (x : CbtNode) (i : Nat) : List Int :=
  match x.children.getD i none with
  | none => []
  | some c => keysN c

/-- The four per-node conditions of the testable-properties claim: entry
count within `[0, n-1]`; an internal node (one with a non-absent child
slot) has exactly `count + 1` non-absent child slots; entries strictly
ascending by key; and for every entry index `i`, all keys under
`children[i]` are smaller than the entry's key and all keys under
`children[i+1]` at least it. -/
def nodeClaimOk (n : Nat) (x : CbtNode) : Prop :=
  (entriesOf x).length ≤ n - 1 ∧
  ((x.children.filterMap id).length ≠ 0 →
    (x.children.filterMap id).length = (entriesOf x).length + 1) ∧
  List.Sorted (· < ·) ((entriesOf x).map CbtEntry.key) ∧
  ∀ i, i < (entriesOf x).length →
    (∀ k ∈ keysUnder x i, k < ((entriesOf x).map CbtEntry.key).getD i 0) ∧
    (∀ k ∈ keysUnder x (i + 1), ((entriesOf x).map CbtEntry.key).getD i 0 ≤ k)

/-- All nodes of a tree. -/
def allNodesT (t : Cranbtree) : List CbtNode :=
  match t.root with
  | none => []
  | some r => nodesN r

/-- Tree-level invariant: an absent root, or a root satisfying the node
invariant with open bounds. -/
def treeInvariant (t : Cranbtree) : Prop :=
  match t.root with
  | none => True
  | some r => NodeInv t.n none none r

/-- All keys stored in a tree. -/
def treeKeys (t : Cranbtree) : List Int :=
  match t.root with
  | none => []
  | some r => keysN r

/-! ## Theorems -/

/-! ### Equation lemmas for the mutual recursions -/

theorem heightN_mk (es cs l) : heightN (.mk es cs l) = heightL cs + 1 := rfl

theorem heightL_nil : heightL [] = 0 := rfl

theorem heightL_cons_none (rest) : heightL (none :: rest) = heightL rest := rfl

theorem heightL_cons_some (c rest) :
    heightL (some c :: rest) = Nat.max (heightN c) (heightL rest) := rfl

theorem keysN_mk (es cs l) :
    keysN (.mk es cs l) = es.filterMap (fun o => o.map CbtEntry.key) ++ keysL cs := rfl

theorem keysL_nil : keysL [] = [] := rfl

theorem keysL_cons_none (rest) : keysL (none :: rest) = keysL rest := rfl

theorem keysL_cons_some (c rest) : keysL (some c :: rest) = keysN c ++ keysL rest := rfl

theorem nodesN_mk (es cs l) : nodesN (.mk es cs l) = .mk es cs l :: nodesL cs := rfl

theorem nodesL_nil : nodesL [] = [] := rfl

theorem nodesL_cons_none (rest) : nodesL (none :: rest) = nodesL rest := rfl

theorem nodesL_cons_some (c rest) : nodesL (some c :: rest) = nodesN c ++ nodesL rest := rfl

theorem locateIdx_nil (key : Int) : locateIdx [] key = 0 := rfl

theorem locateIdx_cons_none (rest) (key : Int) : locateIdx (none :: rest) key = 0 := rfl

theorem locateIdx_cons_some (e rest) (key : Int) :
    locateIdx (some e :: rest) key =
      if key < e.key then 0 else locateIdx rest key + 1 := rfl

theorem locateK_nil (key : Int) : locateK [] key = 0 := rfl

theorem locateK_cons (k0 : Int) (rest) (key : Int) :
    locateK (k0 :: rest) key = if key < k0 then 0 else locateK rest key + 1 := rfl


@[simp] theorem CbtNode.entry_mk (es cs l) : (CbtNode.mk es cs l).entry = es := rfl

@[simp] theorem CbtNode.children_mk (es cs l) : (CbtNode.mk es cs l).children = cs := rfl

@[simp] theorem CbtNode.len_mk (es cs l) : (CbtNode.mk es cs l).len = l := rfl

/-! ### Characterization of the splitter -/

/-- Slot write described pointwise: an out-of-range write is a no-op. -/
theorem getElem?_set' (l : List α) (i j : Nat) (a : α) :
    (l.set i a)[j]? = if i = j ∧ j < l.length then some a else l[j]? := by
  rcases Decidable.em (i = j) with rfl | hne
  · rcases Nat.lt_or_ge i l.length with h | h
    · rw [List.getElem?_set_self h, if_pos ⟨rfl, h⟩]
    · rw [List.set_eq_of_length_le h, if_neg (by omega)]
  · rw [List.getElem?_set_ne hne, if_neg (fun hh => hne hh.1)]

@[simp] theorem splitCopyStep_fst (borrow i : Nat) (node newNode : CbtNode) :
    (splitCopyStep borrow i node newNode).1 =
      ⟨node.entry.set i none, node.children.set (i + 1) none, node.len⟩ := rfl

@[simp] theorem splitCopyStep_snd (borrow i : Nat) (node newNode : CbtNode) :
    (splitCopyStep borrow i node newNode).2 =
      ⟨newNode.entry.set (i - borrow) (node.entry.getD i none),
       newNode.children.set (i - borrow + 1) (node.children.getD (i + 1) none),
       newNode.len⟩ := rfl

/-- Pointwise description of the copy loop of `bt_split_child` after `k`
iterations: the source node's entry slots `[borrow, borrow+k)` and child
slots `[borrow+1, borrow+k+1)` are cleared, the new node's entry slots
`[0, k)` receive the source entries `[borrow, borrow+k)` and its child
slots `[1, k+1)` receive the source children `[borrow+1, borrow+k+1)`. -/
theorem splitCopyLoop_spec (borrow k : Nat) (E : List (Option CbtEntry))
    (F : List (Option CbtEntry)) (C G : List (Option CbtNode)) (le lf : Nat) :
    ∃ a b, (List.range' borrow k).foldl (fun p i => splitCopyStep borrow i p.1 p.2)
        (⟨E, C, le⟩, ⟨F, G, lf⟩) = (a, b) ∧
      a.len = le ∧ b.len = lf ∧
      a.entry.length = E.length ∧ a.children.length = C.length ∧
      b.entry.length = F.length ∧ b.children.length = G.length ∧
      (∀ t : Nat, a.entry[t]? =
        if borrow ≤ t ∧ t < borrow + k ∧ t < E.length then some none else E[t]?) ∧
      (∀ t : Nat, a.children[t]? =
        if borrow + 1 ≤ t ∧ t < borrow + k + 1 ∧ t < C.length then some none else C[t]?) ∧
      (∀ t : Nat, b.entry[t]? =
        if t < k ∧ t < F.length then some (E.getD (borrow + t) none) else F[t]?) ∧
      (∀ t : Nat, b.children[t]? =
        if 1 ≤ t ∧ t < k + 1 ∧ t < G.length then some (C.getD (borrow + t) none) else G[t]?) := by
  induction k with
  | zero =>
      refine ⟨⟨E, C, le⟩, ⟨F, G, lf⟩, rfl, rfl, rfl, rfl, rfl, rfl, rfl, ?_, ?_, ?_, ?_⟩ <;>
        intro t <;> simp only [CbtNode.entry_mk, CbtNode.children_mk] <;>
        rw [if_neg (by omega)]
  | succ k ih =>
      obtain ⟨a, b, hfold, hal, hbl, hae, hac, hbe, hbc, hA, hB, hC, hD⟩ := ih
      have hvE : a.entry.getD (borrow + k) none = E.getD (borrow + k) none := by
        rw [List.getD_eq_getElem?_getD, List.getD_eq_getElem?_getD, hA, if_neg (by omega)]
      have hvC : a.children.getD (borrow + k + 1) none = C.getD (borrow + k + 1) none := by
        rw [List.getD_eq_getElem?_getD, List.getD_eq_getElem?_getD, hB, if_neg (by omega)]
      refine ⟨(splitCopyStep borrow (borrow + k) a b).1,
               (splitCopyStep borrow (borrow + k) a b).2, ?_, ?_, ?_, ?_, ?_, ?_, ?_,
               ?_, ?_, ?_, ?_⟩
      · rw [List.range'_1_concat, List.foldl_append, hfold]
        rfl
      · simp [hal]
      · simp [hbl]
      · simp [hae]
      · simp [hac]
      · simp [hbe]
      · simp [hbc]
      · intro t
        simp only [splitCopyStep_fst, CbtNode.entry_mk]
        rw [getElem?_set', hA t, hae]
        rcases Decidable.em (borrow + k = t ∧ t < E.length) with hyes | hno
        · rw [if_pos hyes, if_pos (by omega)]
        · rw [if_neg hno]
          by_cases h1 : borrow ≤ t ∧ t < borrow + k ∧ t < E.length
          · rw [if_pos h1, if_pos (by omega)]
          · rw [if_neg h1, if_neg (by omega)]
      · intro t
        simp only [splitCopyStep_fst, CbtNode.children_mk]
        rw [getElem?_set', hB t, hac]
        rcases Decidable.em (borrow + k + 1 = t ∧ t < C.length) with hyes | hno
        · rw [if_pos hyes, if_pos (by omega)]
        · rw [if_neg hno]
          by_cases h1 : borrow + 1 ≤ t ∧ t < borrow + k + 1 ∧ t < C.length
          · rw [if_pos h1, if_pos (by omega)]
          · rw [if_neg h1, if_neg (by omega)]
      · intro t
        simp only [splitCopyStep_snd, CbtNode.entry_mk]
        rw [Nat.add_sub_cancel_left, hvE, getElem?_set', hC t, hbe]
        rcases Decidable.em (k = t) with rfl | hne
        · by_cases hF : k < F.length
          · rw [if_pos ⟨rfl, hF⟩, if_pos (by omega)]
          · rw [if_neg (by omega), if_neg (by omega), if_neg (by omega)]
        · rw [if_neg (fun h => hne h.1)]
          by_cases h1 : t < k ∧ t < F.length
          · rw [if_pos h1, if_pos (by omega)]
          · rw [if_neg h1, if_neg (by omega)]
      · intro t
        simp only [splitCopyStep_snd, CbtNode.children_mk]
        rw [Nat.add_sub_cancel_left, hvC, getElem?_set', hD t, hbc]
        rcases Decidable.em (k + 1 = t) with rfl | hne
        · by_cases hG : k + 1 < G.length
          · rw [if_pos ⟨rfl, hG⟩, if_pos (by omega)]
            rfl
          · rw [if_neg (by omega), if_neg (by omega), if_neg (by omega)]
        · rw [if_neg (fun h => hne h.1)]
          by_cases h1 : 1 ≤ t ∧ t < k + 1 ∧ t < G.length
          · rw [if_pos h1, if_pos (by omega)]
          · rw [if_neg h1, if_neg (by omega)]

/-- Reading a populated position as an optional value. -/
theorem getElem?_eq_some_getD (l : List (Option α)) (i : Nat) (h : i < l.length) :
    l[i]? = some (l.getD i none) := by
  rw [List.getD_eq_getElem?_getD, List.getElem?_eq_getElem h]
  rfl

/-- Pointwise description of a kept prefix padded with empty slots. -/
theorem take_append_replicate_getElem? (l : List (Option α)) (j p t : Nat)
    (hj : j ≤ l.length) :
    (l.take j ++ List.replicate p (none : Option α))[t]? =
      if t < j then l[t]? else if t < j + p then some none else none := by
  rw [List.getElem?_append, List.length_take, Nat.min_eq_left hj]
  by_cases h1 : t < j
  · rw [if_pos h1, if_pos h1, List.getElem?_take_of_lt h1]
  · rw [if_neg h1, if_neg h1, List.getElem?_replicate]
    by_cases h2 : t < j + p
    · rw [if_pos (by omega), if_pos h2]
    · rw [if_neg (by omega), if_neg h2]

/-- Pointwise description of a moved suffix padded with empty slots. -/
theorem drop_append_replicate_getElem? (l : List (Option α)) (j p t : Nat) :
    (l.drop j ++ List.replicate p (none : Option α))[t]? =
      if t < l.length - j then l[j + t]?
      else if t < l.length - j + p then some none else none := by
  rw [List.getElem?_append, List.length_drop]
  by_cases h1 : t < l.length - j
  · rw [if_pos h1, if_pos h1, List.getElem?_drop]
  · rw [if_neg h1, if_neg h1, List.getElem?_replicate]
    by_cases h2 : t < l.length - j + p
    · rw [if_pos (by omega), if_pos h2]
    · rw [if_neg (by omega), if_neg h2]

/-- Closed form of `bt_split_child` on a node with the documented array
capacities whose count field says "full".  With `borrow = ⌈n/2⌉`: the
returned entry is whatever sits in slot `borrow - 1`; the mutated node
keeps its first `borrow - 1` entry slots and first `borrow` child slots;
the new node receives the entry slots from `borrow` on and the child slots
from `borrow` on (the final copied entry and child slot come from the
out-of-range reads `entry[n-1]` and `children[n]`, which the embedding
evaluates to `none`); both count fields become `⌊n/2⌋`. -/
theorem bt_split_child_char (node : CbtNode) (n : Nat) (hn : 3 ≤ n)
    (hfull : node.len = n - 1) (he : node.entry.length = n - 1)
    (hc : node.children.length = n) :
    bt_split_child node n =
      some (node.entry.getD ((n + 1) / 2 - 1) none,
        ⟨node.entry.take ((n + 1) / 2 - 1) ++ List.replicate (n - (n + 1) / 2) none,
         node.children.take ((n + 1) / 2) ++ List.replicate (n - (n + 1) / 2) none,
         n / 2⟩,
        ⟨node.entry.drop ((n + 1) / 2) ++ List.replicate ((n + 1) / 2) none,
         node.children.drop ((n + 1) / 2) ++ List.replicate ((n + 1) / 2) none,
         n / 2⟩) := by
  have hfull' : is_full_node node n = true := by simp [is_full_node, hfull]
  obtain ⟨a, b, hfold, hal, hbl, hae, hac, hbe, hbc, hA, hB, hC, hD⟩ :=
    splitCopyLoop_spec ((n + 1) / 2) (n - (n + 1) / 2) node.entry
      (List.replicate (n - 1) none)
      (node.children.set ((n + 1) / 2) none)
      ((List.replicate n none).set 0 (node.children.getD ((n + 1) / 2) none))
      node.len 0
  have hlenC : (node.children.set ((n + 1) / 2) none).length = n := by
    rw [List.length_set, hc]
  have hlenG : ((List.replicate n (none : Option CbtNode)).set 0
      (node.children.getD ((n + 1) / 2) none)).length = n := by
    rw [List.length_set, List.length_replicate]
  have hmed : a.entry.getD ((n + 1) / 2 - 1) none =
      node.entry.getD ((n + 1) / 2 - 1) none := by
    rw [List.getD_eq_getElem?_getD, List.getD_eq_getElem?_getD, hA, if_neg (by omega)]
  have hLE : a.entry.set ((n + 1) / 2 - 1) none =
      node.entry.take ((n + 1) / 2 - 1) ++ List.replicate (n - (n + 1) / 2) none := by
    apply List.ext_getElem?
    intro t
    rw [getElem?_set', hA t, hae, he,
      take_append_replicate_getElem? _ _ _ _ (by omega)]
    by_cases h1 : t < (n + 1) / 2 - 1
    · rw [if_neg (by omega), if_neg (by omega), if_pos h1]
    · rw [if_neg h1]
      by_cases h2 : t < n - 1
      · by_cases h3 : (n + 1) / 2 - 1 = t
        · rw [if_pos ⟨h3, h2⟩, if_pos (by omega)]
        · rw [if_neg (fun hh => h3 hh.1), if_pos (by omega), if_pos (by omega)]
      · rw [if_neg (by omega), if_neg (by omega), if_neg (by omega),
          List.getElem?_eq_none_iff.mpr (by omega)]
  have hLC : a.children =
      node.children.take ((n + 1) / 2) ++ List.replicate (n - (n + 1) / 2) none := by
    apply List.ext_getElem?
    intro t
    rw [hB t, hlenC, take_append_replicate_getElem? _ _ _ _ (by omega)]
    by_cases h1 : t < (n + 1) / 2
    · rw [if_neg (by omega), getElem?_set', if_neg (by omega), if_pos h1]
    · by_cases h2 : t < n
      · by_cases h3 : (n + 1) / 2 = t
        · rw [if_neg (by omega), getElem?_set', if_pos ⟨h3, by omega⟩,
            if_neg h1, if_pos (by omega)]
        · rw [if_pos (by omega), if_neg h1, if_pos (by omega)]
      · rw [if_neg (by omega), getElem?_set', if_neg (by omega), if_neg h1,
          if_neg (by omega), List.getElem?_eq_none_iff.mpr (by omega)]
  have hRE : b.entry =
      node.entry.drop ((n + 1) / 2) ++ List.replicate ((n + 1) / 2) none := by
    apply List.ext_getElem?
    intro t
    rw [hC t, drop_append_replicate_getElem?, List.length_replicate, he]
    by_cases h1 : t < n - 1 - (n + 1) / 2
    · rw [if_pos (by omega), if_pos h1,
        getElem?_eq_some_getD _ _ (by rw [he]; omega)]
    · by_cases h2 : t < n - (n + 1) / 2
      · rw [if_pos (by omega), if_neg h1, if_pos (by omega),
          List.getD_eq_default _ _ (by rw [he]; omega)]
      · by_cases h3 : t < n - 1
        · rw [if_neg (by omega), List.getElem?_replicate, if_pos (by omega),
            if_neg h1, if_pos (by omega)]
        · rw [if_neg (by omega), List.getElem?_replicate, if_neg (by omega),
            if_neg h1, if_neg (by omega)]
  have hRC : b.children =
      node.children.drop ((n + 1) / 2) ++ List.replicate ((n + 1) / 2) none := by
    apply List.ext_getElem?
    intro t
    rw [hD t, hlenG, drop_append_replicate_getElem?, hc]
    by_cases h0 : t = 0
    · subst h0
      rw [if_neg (by omega), getElem?_set', List.length_replicate,
        if_pos ⟨rfl, by omega⟩, if_pos (by omega),
        getElem?_eq_some_getD _ _ (by rw [hc]; omega)]
      norm_num
    · by_cases h1 : t < n - (n + 1) / 2
      · rw [if_pos (by omega), if_pos h1, getElem?_eq_some_getD _ _ (by rw [hc]; omega)]
        have : (node.children.set ((n + 1) / 2) none).getD ((n + 1) / 2 + t) none =
            node.children.getD ((n + 1) / 2 + t) none := by
          rw [List.getD_eq_getElem?_getD, List.getD_eq_getElem?_getD,
            getElem?_set', if_neg (by omega)]
        rw [this]
      · by_cases h2 : t = n - (n + 1) / 2
        · rw [if_pos (by omega), if_neg h1, if_pos (by omega),
            List.getD_eq_default _ _ (by rw [hlenC]; omega)]
        · by_cases h3 : t < n
          · rw [if_neg (by omega), getElem?_set', if_neg (by omega),
              List.getElem?_replicate, if_pos h3, if_neg h1, if_pos (by omega)]
          · rw [if_neg (by omega), getElem?_set', if_neg (by omega),
              List.getElem?_replicate, if_neg h3, if_neg h1, if_neg (by omega)]
  simp only [bt_split_child, splitCopyLoop, bt_create_node, hfull', eq_self_iff_true,
    not_true, if_false, CbtNode.entry_mk, CbtNode.children_mk, CbtNode.len_mk]
  rw [hfold]
  simp only [CbtNode.entry_mk, CbtNode.children_mk, CbtNode.len_mk]
  rw [hmed, hLE, hLC, hRE, hRC]



/-! ### The splitter on a fully populated full node -/

/-- Populated-prefix arrays lose their padding under `entriesOf`. -/
theorem filterMap_map_some_append_replicate (xs : List CbtEntry) (k : Nat) :
    ((xs.map some ++ List.replicate k none).filterMap id) = xs := by
  simp [List.filterMap_append, List.filterMap_replicate]

/-- `bt_split_child` on a full node whose `n-1` entry slots are all
populated, with the entry sequence decomposed around the median position
`borrow - 1`: the median is returned, the left half keeps the entries
below it and the first `borrow` child slots, the right half receives the
entries above it and the child slots from `borrow` on. -/
theorem split_full_eq (n : Nat) (hn : 3 ≤ n) (l r : List CbtEntry) (m : CbtEntry)
    (cs : List (Option CbtNode)) (hl : l.length = (n + 1) / 2 - 1)
    (hr : r.length = n - 1 - (n + 1) / 2) (hc : cs.length = n) :
    bt_split_child (.mk ((l ++ m :: r).map some) cs (n - 1)) n =
      some (some m,
        .mk (l.map some ++ List.replicate (n - (n + 1) / 2) none)
            (cs.take ((n + 1) / 2) ++ List.replicate (n - (n + 1) / 2) none) (n / 2),
        .mk (r.map some ++ List.replicate ((n + 1) / 2) none)
            (cs.drop ((n + 1) / 2) ++ List.replicate ((n + 1) / 2) none) (n / 2)) := by
  have hlen : ((l ++ m :: r).map some : List (Option CbtEntry)).length = n - 1 := by
    simp only [List.length_map, List.length_append, List.length_cons]
    omega
  have hmap : ((l ++ m :: r).map some : List (Option CbtEntry)) =
      l.map some ++ some m :: r.map some := by
    simp
  have hmed : ((l ++ m :: r).map some : List (Option CbtEntry)).getD
      ((n + 1) / 2 - 1) none = some m := by
    rw [hmap, List.getD_eq_getElem?_getD, List.getElem?_append,
      if_neg (by simp [hl]), List.length_map, hl, Nat.sub_self]
    simp
  have htake : ((l ++ m :: r).map some : List (Option CbtEntry)).take ((n + 1) / 2 - 1) =
      l.map some := by
    rw [hmap]
    exact List.take_left' (by simp [hl])
  have hdrop : ((l ++ m :: r).map some : List (Option CbtEntry)).drop ((n + 1) / 2) =
      r.map some := by
    have : ((l ++ m :: r).map some : List (Option CbtEntry)) =
        (l.map some ++ [some m]) ++ r.map some := by
      simp
    rw [this]
    exact List.drop_left' (by simp [hl]; omega)
  have hchar := bt_split_child_char (.mk ((l ++ m :: r).map some) cs (n - 1)) n hn rfl
    hlen hc
  rw [hchar]
  simp only [CbtNode.entry_mk, CbtNode.children_mk]
  rw [hmed, htake, hdrop]

/-- C3: For every full node (count = n-1), split removes and returns as the
promoted entry exactly the entry originally at index `borrow - 1` where
`borrow = ⌈n/2⌉`, never duplicating it into either half, and builds the
right half as a new node taking exactly the entries originally at indices
`[borrow, n-2]` (in order, removed from the old node) and exactly the
children originally at indices `[borrow, n-1]` (in order, removed from the
old node), with the child originally at index `borrow` becoming the new
node's child at index 0.  Stated as an exact decomposition: the original
entry sequence is `l ++ m :: r` with `|l| = borrow - 1`, so `m` is the
entry at index `borrow - 1` and `r` holds the entries at `[borrow, n-2]`;
the left half keeps exactly `l` and the children below `borrow`, and the
right half consists exactly of `r` and the children from index `borrow`
on, the one from index `borrow` landing in slot 0. -/
theorem split_full_node_decomposition (n : Nat) (hn : 3 ≤ n) (l r : List CbtEntry)
    (m : CbtEntry) (cs : List (Option CbtNode)) (hl : l.length = (n + 1) / 2 - 1)
    (hr : r.length = n - 1 - (n + 1) / 2) (hc : cs.length = n) :
    bt_split_child (.mk ((l ++ m :: r).map some) cs (n - 1)) n =
      some (some m,
        .mk (l.map some ++ List.replicate (n - (n + 1) / 2) none)
            (cs.take ((n + 1) / 2) ++ List.replicate (n - (n + 1) / 2) none) (n / 2),
        .mk (r.map some ++ List.replicate ((n + 1) / 2) none)
            (cs.drop ((n + 1) / 2) ++ List.replicate ((n + 1) / 2) none) (n / 2)) :=
  split_full_eq n hn l r m cs hl hr hc

/-- Closed instance of the C3 theorem at order 3 with entries `1, 2`. -/
theorem split_full_node_decomposition_witness :
    3 ≤ 3 ∧ ([(⟨1, 0⟩ : CbtEntry)].length = (3 + 1) / 2 - 1) ∧
      (([] : List CbtEntry).length = 3 - 1 - (3 + 1) / 2) ∧
      ((List.replicate 3 (none : Option CbtNode)).length = 3) ∧
      bt_split_child (.mk (([(⟨1, 0⟩ : CbtEntry)] ++ (⟨2, 0⟩ : CbtEntry) :: []).map some)
          (List.replicate 3 none) (3 - 1)) 3 =
        some (some ⟨2, 0⟩,
          .mk ([(⟨1, 0⟩ : CbtEntry)].map some ++ List.replicate (3 - (3 + 1) / 2) none)
              ((List.replicate 3 none).take ((3 + 1) / 2) ++
                List.replicate (3 - (3 + 1) / 2) none) (3 / 2),
          .mk (([] : List CbtEntry).map some ++ List.replicate ((3 + 1) / 2) none)
              ((List.replicate 3 none).drop ((3 + 1) / 2) ++
                List.replicate ((3 + 1) / 2) none) (3 / 2)) :=
  ⟨by decide, by decide, by decide, by decide,
    split_full_node_decomposition 3 (by decide) [⟨1, 0⟩] [] ⟨2, 0⟩
      (List.replicate 3 none) (by decide) (by decide) (by decide)⟩

/-- C4: For every full node, splitting is order-preserving: concatenating
the left half's entries, then the promoted entry, then the right half's
entries reproduces exactly the node's original sorted entry sequence. -/
theorem split_order_preserving (n : Nat) (hn : 3 ≤ n) (es : List CbtEntry)
    (cs : List (Option CbtNode)) (he : es.length = n - 1) (hc : cs.length = n)
    (m? : Option CbtEntry) (left right : CbtNode)
    (hsplit : bt_split_child (.mk (es.map some) cs (n - 1)) n = some (m?, left, right)) :
    entriesOf left ++ m?.toList ++ entriesOf right = es := by
  have hb : (n + 1) / 2 - 1 < es.length := by omega
  have hdecomp : es = es.take ((n + 1) / 2 - 1) ++
      es.getD ((n + 1) / 2 - 1) ⟨0, 0⟩ :: es.drop ((n + 1) / 2) := by
    have h1 : es.drop ((n + 1) / 2 - 1) =
        es.getD ((n + 1) / 2 - 1) ⟨0, 0⟩ :: es.drop ((n + 1) / 2 - 1 + 1) := by
      rw [List.getD_eq_getElem?_getD, List.getElem?_eq_getElem hb]
      exact List.drop_eq_getElem_cons hb
    have h2 : (n + 1) / 2 - 1 + 1 = (n + 1) / 2 := by omega
    rw [h2] at h1
    conv_lhs => rw [← List.take_append_drop ((n + 1) / 2 - 1) es, h1]
  rw [hdecomp, split_full_eq n hn _ _ _ cs (by simp [List.length_take]; omega)
    (by simp [List.length_drop]; omega) hc] at hsplit
  obtain ⟨rfl, rfl, rfl⟩ : m? = some (es.getD ((n + 1) / 2 - 1) ⟨0, 0⟩) ∧
      left = _ ∧ right = _ := by
    injection hsplit with h
    injection h with h1 h23
    injection h23 with h2 h3
    exact ⟨h1.symm, h2.symm, h3.symm⟩
  simp only [entriesOf, CbtNode.entry_mk, filterMap_map_some_append_replicate,
    Option.toList_some]
  conv_rhs => rw [hdecomp]
  simp

/-- Closed instance of the C4 theorem at order 3 with entries `1, 2`. -/
theorem split_order_preserving_witness :
    3 ≤ 3 ∧
      entriesOf (.mk [some ⟨1, 0⟩, none] ((List.replicate 3 none).take 2 ++ [none]) 1) ++
        (some (⟨2, 0⟩ : CbtEntry)).toList ++
        entriesOf (.mk [none, none] ((List.replicate 3 none).drop 2 ++ [none, none]) 1) =
        [⟨1, 0⟩, ⟨2, 0⟩] :=
  ⟨by decide,
    split_order_preserving 3 (by decide) [⟨1, 0⟩, ⟨2, 0⟩] (List.replicate 3 none)
      (by decide) (by decide) _ _ _ (by rfl)⟩


/-- C5 counterexample: at order 3 the claim "every split of a full node
produces two non-empty halves" fails — splitting the full node holding
entries `1, 2` yields a right half with zero populated entries (even
though its count field reads 1). -/
theorem split_min_order_cex :
    is_full_node (CbtNode.mk [some ⟨1, 0⟩, some ⟨2, 0⟩] (List.replicate 3 none) 2) 3
        = true ∧
      (bt_split_child (CbtNode.mk [some ⟨1, 0⟩, some ⟨2, 0⟩]
          (List.replicate 3 none) 2) 3).map (fun p => entriesOf p.2.2) = some [] :=
  ⟨rfl, rfl⟩

/-- C5 (amended): at the minimum order `n = 3`, a split of a fully
populated full node returns the entry at index 1 as a valid promoted entry
and leaves a non-empty left half holding one entry, but the right half
holds zero entries — its count field is nonetheless set to `⌊3/2⌋ = 1`. -/
theorem split_min_order_amended (e1 e2 : CbtEntry) (cs : List (Option CbtNode))
    (hc : cs.length = 3) :
    bt_split_child (.mk [some e1, some e2] cs 2) 3 =
      some (some e2,
        .mk [some e1, none] (cs.take 2 ++ [none]) 1,
        .mk [none, none] (cs.drop 2 ++ [none, none]) 1) := by
  have h := split_full_eq 3 (by decide) [e1] [] e2 cs rfl rfl hc
  simpa using h

/-- Closed instance of the amended C5 theorem. -/
theorem split_min_order_amended_witness :
    (List.replicate 3 (none : Option CbtNode)).length = 3 ∧
      bt_split_child (.mk [some ⟨1, 0⟩, some ⟨2, 0⟩] (List.replicate 3 none) 2) 3 =
        some (some ⟨2, 0⟩,
          .mk [some ⟨1, 0⟩, none] ((List.replicate 3 none).take 2 ++ [none]) 1,
          .mk [none, none] ((List.replicate 3 none).drop 2 ++ [none, none]) 1) :=
  ⟨by decide, split_min_order_amended ⟨1, 0⟩ ⟨2, 0⟩ (List.replicate 3 none) (by decide)⟩

/-- C6: After splitting a full node, both the old node (left half) and the
new right node have their count field set to `⌊n/2⌋`, for every order
`n ≥ 3` (insert.c lines 161-163 assign `n / 2` to both `len` fields). -/
theorem split_count_fields (n : Nat) (hn : 3 ≤ n) (node : CbtNode)
    (hfull : node.len = n - 1) (he : node.entry.length = n - 1)
    (hc : node.children.length = n) (m? : Option CbtEntry) (left right : CbtNode)
    (hsplit : bt_split_child node n = some (m?, left, right)) :
    left.len = n / 2 ∧ right.len = n / 2 := by
  rw [bt_split_child_char node n hn hfull he hc] at hsplit
  injection hsplit with h
  injection h with h1 h23
  injection h23 with h2 h3
  constructor
  · rw [← h2, CbtNode.len_mk]
  · rw [← h3, CbtNode.len_mk]

/-- Closed instance of the C6 theorem at order 3. -/
theorem split_count_fields_witness :
    3 ≤ 3 ∧
      (CbtNode.mk [some ⟨1, 0⟩, none] [none, none, none] 1).len = 3 / 2 ∧
      (CbtNode.mk [none, none] [none, none, none] 1).len = 3 / 2 := by
  refine ⟨by decide, ?_⟩
  exact split_count_fields 3 (by decide)
    (CbtNode.mk [some ⟨1, 0⟩, some ⟨2, 0⟩] [none, none, none] 2) rfl rfl rfl
    (some ⟨2, 0⟩) (CbtNode.mk [some ⟨1, 0⟩, none] [none, none, none] 1)
    (CbtNode.mk [none, none] [none, none, none] 1) (by rfl)

/-! ### The bounds-checked splitter always fails on a full node -/

/-- A bounds-checked copy-loop iteration succeeds when all four accessed
indices are within the arrays, and preserves the array lengths. -/
theorem splitCopyStepChk_ok (borrow i : Nat) (node newNode : CbtNode)
    (h1 : i < node.entry.length) (h2 : i + 1 < node.children.length)
    (h3 : i - borrow < newNode.entry.length)
    (h4 : i - borrow + 1 < newNode.children.length) :
    ∃ a b, splitCopyStepChk borrow i node newNode = some (a, b) ∧
      a.entry.length = node.entry.length ∧ a.children.length = node.children.length ∧
      b.entry.length = newNode.entry.length ∧
      b.children.length = newNode.children.length := by
  refine ⟨⟨node.entry.set i none, node.children.set (i + 1) none, node.len⟩,
    ⟨newNode.entry.set (i - borrow) (node.entry[i]),
     newNode.children.set (i - borrow + 1) (node.children[i + 1]),
     newNode.len⟩, ?_, by simp, by simp, by simp, by simp⟩
  simp [splitCopyStepChk, getChk, setChk, List.get?_eq_getElem?,
    List.getElem?_eq_getElem h1, List.getElem?_eq_getElem h2, h1, h2, h3, h4]

/-- The bounds-checked copy loop succeeds over any index range that stays
below `n - 1`, preserving the documented array lengths. -/
theorem splitLoopChk_ok (borrow0 n : Nat) : ∀ (k s : Nat) (node newNode : CbtNode),
    s + k ≤ n - 1 →
    node.entry.length = n - 1 → node.children.length = n →
    newNode.entry.length = n - 1 → newNode.children.length = n →
    ∃ a b, (List.range' s k).foldlM
        (fun p i => splitCopyStepChk borrow0 i p.1 p.2) (node, newNode) = some (a, b) ∧
      a.entry.length = n - 1 ∧ a.children.length = n ∧
      b.entry.length = n - 1 ∧ b.children.length = n := by
  intro k
  induction k with
  | zero =>
      intro s node newNode _ h1 h2 h3 h4
      exact ⟨node, newNode, rfl, h1, h2, h3, h4⟩
  | succ k ih =>
      intro s node newNode hs h1 h2 h3 h4
      obtain ⟨a, b, hstep, l1, l2, l3, l4⟩ :=
        splitCopyStepChk_ok borrow0 s node newNode (by omega) (by omega) (by omega)
          (by omega)
      obtain ⟨a', b', hrest, m1, m2, m3, m4⟩ :=
        ih (s + 1) a b (by omega) (by omega) (by omega) (by omega) (by omega)
      refine ⟨a', b', ?_, m1, m2, m3, m4⟩
      show (splitCopyStepChk borrow0 s node newNode >>=
        (List.range' (s + 1) k).foldlM (fun p i => splitCopyStepChk borrow0 i p.1 p.2))
          = some (a', b')
      rw [hstep]
      simpa using hrest

/-- C10: the claim says every array access performed by the split of a full
node stays within the documented capacities (entry indices in `[0, n-2]`,
child indices in `[0, n-1]`), so that the out-of-range branch of
`Option`-returning indexing is unreachable.  The code refutes it: the copy
loop bound is `i < n` (insert.c line 153), so the final iteration reads
`entry[n-1]` and `children[n]`, both outside the capacities; consequently
the bounds-checked split FAILS on every fully populated full node of every
order `n ≥ 3`. -/
theorem split_chk_out_of_range (n : Nat) (hn : 3 ≤ n) (node : CbtNode)
    (hfull : node.len = n - 1) (he : node.entry.length = n - 1)
    (hc : node.children.length = n) :
    bt_split_child_chk node n = none := by
  have hfull' : is_full_node node n = true := by simp [is_full_node, hfull]
  obtain ⟨c0, hc0⟩ : ∃ x, node.children[(n + 1) / 2]? = some x :=
    ⟨_, List.getElem?_eq_getElem (by omega)⟩
  obtain ⟨a, b, hloop, k1, k2, k3, k4⟩ :=
    splitLoopChk_ok ((n + 1) / 2) n (n - 1 - (n + 1) / 2) ((n + 1) / 2)
      ⟨node.entry, node.children.set ((n + 1) / 2) none, node.len⟩
      ⟨List.replicate (n - 1) none, (List.replicate n none).set 0 c0, 0⟩
      (by omega) (by simpa using he) (by simp [hc]) (by simp) (by simp)
  have hrange : List.range' ((n + 1) / 2) (n - (n + 1) / 2) =
      List.range' ((n + 1) / 2) (n - 1 - (n + 1) / 2) ++ [n - 1] := by
    have h1 : n - (n + 1) / 2 = (n - 1 - (n + 1) / 2) + 1 := by omega
    have h2 : (n + 1) / 2 + (n - 1 - (n + 1) / 2) = n - 1 := by omega
    rw [h1, List.range'_1_concat, h2]
  simp only [bt_split_child_chk, hfull', eq_self_iff_true, not_true, if_false,
    getChk, setChk, bt_create_node, CbtNode.entry_mk, CbtNode.children_mk,
    CbtNode.len_mk, List.get?_eq_getElem?, hc0, Option.bind_some,
    List.length_replicate, if_pos (show (0 : Nat) < n by omega),
    if_pos (show (n + 1) / 2 < node.children.length by omega)]
  show (splitCopyLoopChk ((n + 1) / 2) n _ _).bind _ = none
  have : splitCopyLoopChk ((n + 1) / 2) n
      ⟨node.entry, node.children.set ((n + 1) / 2) none, node.len⟩
      ⟨List.replicate (n - 1) none, (List.replicate n none).set 0 c0, 0⟩ = none := by
    rw [splitCopyLoopChk, hrange, List.foldlM_append, hloop]
    have hfail : splitCopyStepChk ((n + 1) / 2) (n - 1) a b = none := by
      have hnone : a.entry[n - 1]? = none := List.getElem?_eq_none_iff.mpr (by omega)
      unfold splitCopyStepChk getChk
      rw [List.get?_eq_getElem?, hnone]
      rfl
    show (List.foldlM (fun p i => splitCopyStepChk ((n + 1) / 2) i p.1 p.2)
      (a, b) [n - 1]) = none
    show (splitCopyStepChk ((n + 1) / 2) (n - 1) a b >>= fun x =>
      List.foldlM (fun p i => splitCopyStepChk ((n + 1) / 2) i p.1 p.2) x []) = none
    rw [hfail]
    rfl
  rw [this]
  rfl

/-- Closed instance of the C10 theorem: the bounds-checked split fails at
order 3 on the full node holding entries `1, 2`. -/
theorem split_chk_out_of_range_witness :
    3 ≤ 3 ∧
      bt_split_child_chk
        (CbtNode.mk [some ⟨1, 0⟩, some ⟨2, 0⟩] [none, none, none] 2) 3 = none :=
  ⟨by decide, split_chk_out_of_range 3 (by decide) _ rfl rfl rfl⟩

/-! ### Populated-prefix arrays -/

/-- Reading any slot of a populated-prefix array. -/
theorem prefix_getD (ps : List α) (k j : Nat) :
    (ps.map some ++ List.replicate k (none : Option α)).getD j none = ps[j]? := by
  rw [List.getD_eq_getElem?_getD, List.getElem?_append, List.length_map]
  by_cases h1 : j < ps.length
  · rw [if_pos h1, List.getElem?_map, List.getElem?_eq_getElem h1]
    rfl
  · rw [if_neg h1, List.getElem?_replicate, List.getElem?_eq_none_iff.mpr (by omega)]
    by_cases h2 : j - ps.length < k
    · rw [if_pos h2]
      rfl
    · rw [if_neg h2]
      rfl

/-- Taking an initial segment of the populated prefix. -/
theorem prefix_take_le (ps : List α) (k j : Nat) (hj : j ≤ ps.length) :
    (ps.map some ++ List.replicate k (none : Option α)).take j = (ps.take j).map some := by
  rw [List.take_append_eq_append_take, List.length_map,
    Nat.sub_eq_zero_of_le (by omega), List.take_zero, List.append_nil, List.map_take]

/-- Taking beyond the populated prefix. -/
theorem prefix_take_ge (ps : List α) (k j : Nat) (hj : ps.length ≤ j) :
    (ps.map some ++ List.replicate k (none : Option α)).take j =
      ps.map some ++ List.replicate (min (j - ps.length) k) none := by
  rw [List.take_append_eq_append_take, List.length_map,
    List.take_of_length_le (by simpa using hj), List.take_replicate]

/-- Dropping within the populated prefix. -/
theorem prefix_drop_le (ps : List α) (k j : Nat) (hj : j ≤ ps.length) :
    (ps.map some ++ List.replicate k (none : Option α)).drop j =
      (ps.drop j).map some ++ List.replicate k none := by
  rw [List.drop_append_eq_append_drop, List.length_map,
    Nat.sub_eq_zero_of_le (by omega), List.drop_zero, List.map_drop]

/-- Dropping beyond the populated prefix. -/
theorem prefix_drop_ge (ps : List α) (k j : Nat) (hj : ps.length ≤ j) :
    (ps.map some ++ List.replicate k (none : Option α)).drop j =
      List.replicate (k - (j - ps.length)) none := by
  rw [List.drop_append_eq_append_drop, List.length_map,
    List.drop_of_length_le (by simpa using hj), List.drop_replicate, List.nil_append]

/-- The populated entries of a prefix-form node. -/
theorem entriesOf_pref (ps : List CbtEntry) (k : Nat) (C : List (Option CbtNode))
    (len : Nat) :
    entriesOf (.mk (ps.map some ++ List.replicate k none) C len) = ps := by
  simp [entriesOf, List.filterMap_append, List.filterMap_replicate]

/-- The node's own keys in `keysN`, prefix form. -/
theorem keys_entry_pref (ps : List CbtEntry) (k : Nat) :
    (ps.map some ++ List.replicate k (none : Option CbtEntry)).filterMap
      (fun o => o.map CbtEntry.key) = ps.map CbtEntry.key := by
  simp [List.filterMap_append, List.filterMap_replicate]

/-- No keys hang below absent child slots. -/
theorem keysL_replicate (k : Nat) : keysL (List.replicate k none) = [] := by
  induction k with
  | zero => rfl
  | succ k ih => rw [List.replicate_succ, keysL_cons_none, ih]

/-- Membership in the keys below a prefix-form child array. -/
theorem keysL_prefix_mem (cs : List CbtNode) (r : Nat) (k : Int) :
    k ∈ keysL (cs.map some ++ List.replicate r none) ↔ ∃ c ∈ cs, k ∈ keysN c := by
  induction cs with
  | nil => simp [keysL_replicate]
  | cons c rest ih =>
      simp only [List.map_cons, List.cons_append, keysL_cons_some, List.mem_append, ih]
      simp

/-- Height of absent child slots. -/
theorem heightL_replicate (k : Nat) : heightL (List.replicate k none) = 0 := by
  induction k with
  | zero => rfl
  | succ k ih => rw [List.replicate_succ, heightL_cons_none, ih]

/-- Each populated child bounds the slot-array height from below. -/
theorem heightL_prefix_ge (cs : List CbtNode) (r : Nat) (c : CbtNode) (hc : c ∈ cs) :
    heightN c ≤ heightL (cs.map some ++ List.replicate r none) := by
  induction cs with
  | nil => cases hc
  | cons c0 rest ih =>
      simp only [List.map_cons, List.cons_append, heightL_cons_some]
      rcases List.mem_cons.mp hc with rfl | hmem
      · exact Nat.le_max_left _ _
      · exact (ih hmem).trans (Nat.le_max_right _ _)

/-- The slot-array height is attained by some populated child. -/
theorem heightL_prefix_le (cs : List CbtNode) (r : Nat) (X : Nat)
    (h : ∀ c ∈ cs, heightN c ≤ X) :
    heightL (cs.map some ++ List.replicate r none) ≤ X := by
  induction cs with
  | nil => simp [heightL_replicate]
  | cons c0 rest ih =>
      simp only [List.map_cons, List.cons_append, heightL_cons_some]
      have h1 := h c0 (by simp)
      have h2 := ih (fun c hc => h c (by simp [hc]))
      exact Nat.max_le.mpr ⟨h1, h2⟩

/-! ### The branch-selection index -/

/-- `locateIdx` on a populated-prefix entry array is `locateK` on its key
sequence. -/
theorem locateIdx_pref (ps : List CbtEntry) (k : Nat) (key : Int) :
    locateIdx (ps.map some ++ List.replicate k none) key =
      locateK (ps.map CbtEntry.key) key := by
  induction ps with
  | nil =>
      cases k with
      | zero => rfl
      | succ k => rfl
  | cons e rest ih =>
      rw [List.map_cons, List.cons_append, locateIdx_cons_some, List.map_cons,
        locateK_cons, ih]

/-- The branch index never exceeds the number of keys. -/
theorem locateK_le (ks : List Int) (key : Int) : locateK ks key ≤ ks.length := by
  induction ks with
  | nil => simp [locateK_nil]
  | cons k0 rest ih =>
      rw [locateK_cons]
      by_cases h : key < k0
      · simp [h]
      · simp only [if_neg h, List.length_cons]
        omega

/-- Keys before the branch index are not larger than the key sought. -/
theorem locateK_before (ks : List Int) (key : Int) :
    ∀ i, i < locateK ks key → ks.getD i 0 ≤ key := by
  induction ks with
  | nil => simp [locateK_nil]
  | cons k0 rest ih =>
      intro i hi
      rw [locateK_cons] at hi
      by_cases h : key < k0
      · rw [if_pos h] at hi
        omega
      · rw [if_neg h] at hi
        cases i with
        | zero => simpa using not_lt.mp h
        | succ i => simpa using ih i (by omega)

/-- The key at the branch index, when there is one, exceeds the key
sought. -/
theorem locateK_after (ks : List Int) (key : Int)
    (h : locateK ks key < ks.length) : key < ks.getD (locateK ks key) 0 := by
  induction ks with
  | nil => simp [locateK_nil] at h
  | cons k0 rest ih =>
      rw [locateK_cons] at h ⊢
      by_cases hlt : key < k0
      · simpa [if_pos hlt] using hlt
      · rw [if_neg hlt] at h ⊢
        simpa using ih (by simpa using h)

/-- The branch index is pinned by any position whose neighbours straddle
the key. -/
theorem locateK_eq (ks : List Int) (key : Int) (j : Nat) (hj : j ≤ ks.length)
    (hbefore : ∀ i, i < j → ks.getD i 0 ≤ key)
    (hafter : j < ks.length → key < ks.getD j 0) :
    locateK ks key = j := by
  induction ks generalizing j with
  | nil =>
      rw [locateK_nil]
      simp at hj
      omega
  | cons k0 rest ih =>
      rw [locateK_cons]
      cases j with
      | zero =>
          have h0 : key < k0 := by simpa using hafter (by simp)
          rw [if_pos h0]
      | succ j =>
          have h0 : k0 ≤ key := by simpa using hbefore 0 (by omega)
          rw [if_neg (by omega)]
          have := ih j (by simpa using hj)
            (fun i hi => by simpa using hbefore (i + 1) (by omega))
            (fun hlt => by simpa using hafter (by simpa using hlt))
          omega

/-! ### Characterization of the sorted-insert primitive -/

/-- Length is preserved by the child-slot shift. -/
theorem slotShiftFrom_length (l : List α) (s : Nat) :
    (slotShiftFrom l s).length = l.length := by
  simp only [slotShiftFrom, List.length_take, List.length_append, List.length_drop]
  omega

/-- Pointwise description of the child-slot shift. -/
theorem slotShiftFrom_getElem? (l : List α) (s t : Nat) :
    (slotShiftFrom l s)[t]? =
      if t ≤ s then l[t]? else if t < l.length then l[t - 1]? else none := by
  simp only [slotShiftFrom]
  by_cases ht : t < l.length
  · rw [List.getElem?_take_of_lt ht, List.getElem?_append, List.length_take]
    by_cases hts : t ≤ s
    · rw [if_pos (by omega), if_pos hts, List.getElem?_take_of_lt (by omega)]
    · by_cases hsl : s + 1 ≤ l.length
      · rw [if_neg (by omega), List.getElem?_drop, if_neg hts, if_pos ht]
        congr 1
        omega
      · exact absurd (by omega : t ≤ s) hts
  · have hL : ((l.take (s + 1) ++ l.drop s).take l.length).length ≤ t := by
      simp only [List.length_take, List.length_append, List.length_drop]
      omega
    rw [List.getElem?_eq_none_iff.mpr hL]
    by_cases hts : t ≤ s
    · rw [if_pos hts, List.getElem?_eq_none_iff.mpr (by omega)]
    · rw [if_neg hts, if_neg ht]

/-- Two slot arrays of one length agree when every slot read agrees. -/
theorem eq_of_getD (l₁ l₂ : List (Option α)) (hlen : l₁.length = l₂.length)
    (h : ∀ t, l₁.getD t none = l₂.getD t none) : l₁ = l₂ := by
  apply List.ext_getElem?
  intro t
  by_cases ht : t < l₁.length
  · have h1 := h t
    rw [List.getD_eq_getElem?_getD, List.getD_eq_getElem?_getD,
      List.getElem?_eq_getElem ht, List.getElem?_eq_getElem (hlen ▸ ht)] at h1
    rw [List.getElem?_eq_getElem ht, List.getElem?_eq_getElem (hlen ▸ ht)]
    simpa using h1
  · rw [List.getElem?_eq_none_iff.mpr (by omega),
      List.getElem?_eq_none_iff.mpr (by omega)]

/-- Slot-read form of the pointwise write description. -/
theorem getD_set' (l : List (Option α)) (i j : Nat) (a : Option α) :
    (l.set i a).getD j none = if i = j ∧ j < l.length then a else l.getD j none := by
  rw [List.getD_eq_getElem?_getD, getElem?_set']
  by_cases h : i = j ∧ j < l.length
  · rw [if_pos h, if_pos h]
    rfl
  · rw [if_neg h, if_neg h, List.getD_eq_getElem?_getD]

/-- Slot-read form of the child-slot shift description. -/
theorem slotShiftFrom_getD (l : List (Option α)) (s t : Nat) :
    (slotShiftFrom l s).getD t none =
      if t ≤ s then l.getD t none
      else if t < l.length then l.getD (t - 1) none else none := by
  rw [List.getD_eq_getElem?_getD, slotShiftFrom_getElem?]
  by_cases h1 : t ≤ s
  · rw [if_pos h1, if_pos h1, List.getD_eq_getElem?_getD]
  · rw [if_neg h1, if_neg h1]
    by_cases h2 : t < l.length
    · rw [if_pos h2, if_pos h2, List.getD_eq_getElem?_getD]
    · rw [if_neg h2, if_neg h2]
      rfl

/-- Shifting an all-empty child array changes nothing. -/
theorem slotShiftFrom_replicate (n s : Nat) (a : α) :
    slotShiftFrom (List.replicate n a) s = List.replicate n a := by
  apply List.ext_getElem?
  intro t
  rw [slotShiftFrom_getElem?, List.length_replicate]
  by_cases h1 : t ≤ s
  · rw [if_pos h1]
  · rw [if_neg h1]
    by_cases h2 : t < n
    · rw [if_pos h2, List.getElem?_replicate, List.getElem?_replicate,
        if_pos (by omega), if_pos h2]
    · rw [if_neg h2, List.getElem?_replicate, if_neg h2]

/-- Shifting the child slots up from position `j+1` and then storing `x`
there turns a populated prefix `cs` into the prefix with `x` inserted at
position `j+1`. -/
theorem slotShiftFrom_set_pref (cs : List CbtNode) (r j : Nat) (x : CbtNode)
    (hj : j + 1 ≤ cs.length) (hr : 1 ≤ r) :
    (slotShiftFrom (cs.map some ++ List.replicate r none) (j + 1)).set (j + 1) (some x) =
      (cs.take (j + 1) ++ x :: cs.drop (j + 1)).map some ++
        List.replicate (r - 1) none := by
  have hlen : (cs.map some ++ List.replicate r (none : Option CbtNode)).length =
      cs.length + r := by simp
  have hmidlen : (cs.take (j + 1) ++ x :: cs.drop (j + 1)).length = cs.length + 1 := by
    simp [List.length_take]
    omega
  apply eq_of_getD
  · rw [List.length_set, slotShiftFrom_length, hlen]
    simp only [List.length_append, List.length_map, List.length_replicate, hmidlen]
    omega
  intro t
  have hmid : ((cs.take (j + 1) ++ x :: cs.drop (j + 1)).map some ++
      List.replicate (r - 1) (none : Option CbtNode)).getD t none =
      (cs.take (j + 1) ++ x :: cs.drop (j + 1))[t]? := prefix_getD _ _ _
  have hmid2 : (cs.take (j + 1) ++ x :: cs.drop (j + 1))[t]? =
      if t < j + 1 then cs[t]? else if t = j + 1 then some x else cs[t - 1]? := by
    rw [List.getElem?_append, List.length_take, Nat.min_eq_left hj]
    by_cases h1 : t < j + 1
    · rw [if_pos h1, if_pos h1, List.getElem?_take_of_lt h1]
    · rw [if_neg h1, if_neg h1]
      by_cases h2 : t = j + 1
      · rw [if_pos h2, h2, Nat.sub_self, List.getElem?_cons_zero]
      · rw [if_neg h2]
        have h3 : t - (j + 1) = (t - (j + 2)) + 1 := by omega
        rw [h3, List.getElem?_cons_succ, List.getElem?_drop]
        congr 1
        omega
  rw [hmid, hmid2, getD_set', slotShiftFrom_length, hlen, slotShiftFrom_getD, hlen]
  have hg1 : (cs.map some ++ List.replicate r (none : Option CbtNode)).getD t none
      = cs[t]? := prefix_getD _ _ _
  have hg2 : (cs.map some ++ List.replicate r (none : Option CbtNode)).getD (t - 1) none
      = cs[t - 1]? := prefix_getD _ _ _
  by_cases h1 : t = j + 1
  · subst h1
    rw [if_pos ⟨rfl, by omega⟩, if_neg (by omega), if_pos rfl]
  · rw [if_neg (fun hh => h1 hh.1.symm)]
    by_cases h2 : t < j + 1
    · rw [if_pos (by omega), if_pos h2, hg1]
    · rw [if_neg (by omega), if_neg h2, if_neg h1]
      by_cases h3 : t < cs.length + r
      · rw [if_pos h3, hg2]
      · rw [if_neg h3, List.getElem?_eq_none_iff.mpr (by omega)]

/-- Sorted insertion into a non-full populated-prefix entry array. -/
theorem slotInsertAt_pref (ps : List α) (j k : Nat) (e : α)
    (hj : j ≤ ps.length) (hk : 1 ≤ k) :
    slotInsertAt (ps.map some ++ List.replicate k (none : Option α)) j (some e) =
      (ps.take j ++ e :: ps.drop j).map some ++ List.replicate (k - 1) none := by
  simp only [slotInsertAt]
  rw [prefix_take_le ps k j hj, prefix_drop_le ps k j hj]
  have hshape : (ps.take j).map some ++ some e :: ((ps.drop j).map some ++
      List.replicate k (none : Option α)) =
      ((ps.take j ++ e :: ps.drop j).map some) ++ List.replicate k none := by
    simp
  rw [hshape, List.take_append_eq_append_take]
  have hlen1 : ((ps.take j ++ e :: ps.drop j).map some : List (Option α)).length =
      ps.length + 1 := by
    simp [List.length_take]
    omega
  have hlen2 : (ps.map some ++ List.replicate k (none : Option α)).length =
      ps.length + k := by simp
  rw [hlen2, List.take_of_length_le (by omega), List.take_replicate, hlen1]
  congr 2
  omega

/-- `node_insert_entry` on a node whose populated entries form a sorted
prefix with spare capacity: the entry lands at the branch index `j`, the
child slots shift up from `j + 1`, the count field increments, and `j + 1`
is returned. -/
theorem nie_eq (n : Nat) (hn : 3 ≤ n) (ps : List CbtEntry) (C : List (Option CbtNode))
    (len : Nat) (e : CbtEntry) (hp : ps.length ≤ n - 2) :
    node_insert_entry (.mk (ps.map some ++ List.replicate (n - 1 - ps.length) none) C len)
        e true n =
      (.mk ((ps.take (locateK (ps.map CbtEntry.key) e.key) ++
              e :: ps.drop (locateK (ps.map CbtEntry.key) e.key)).map some ++
            List.replicate (n - 2 - ps.length) none)
         (slotShiftFrom C (locateK (ps.map CbtEntry.key) e.key + 1)) (len + 1),
       locateK (ps.map CbtEntry.key) e.key + 1) := by
  have hloc : locateIdx (ps.map some ++ List.replicate (n - 1 - ps.length) none) e.key =
      locateK (ps.map CbtEntry.key) e.key := locateIdx_pref ps _ e.key
  have hle : locateK (ps.map CbtEntry.key) e.key ≤ ps.length := by
    have := locateK_le (ps.map CbtEntry.key) e.key
    simpa using this
  simp only [node_insert_entry, CbtNode.entry_mk, CbtNode.children_mk, CbtNode.len_mk,
    hloc, if_pos]
  rw [slotInsertAt_pref ps (locateK (ps.map CbtEntry.key) e.key)
    (n - 1 - ps.length) e hle (by omega)]
  have : n - 1 - ps.length - 1 = n - 2 - ps.length := by omega
  rw [this]

/-! ### Sorted insertion at the branch index -/

/-- Keys before the branch index are strictly below a fresh key. -/
theorem mem_take_locateK_lt (ks : List Int) (key : Int) (hfresh : key ∉ ks) :
    ∀ x ∈ ks.take (locateK ks key), x < key := by
  intro x hx
  obtain ⟨i, hi, hgx⟩ := List.mem_iff_getElem.mp hx
  have hi' : i < locateK ks key := by
    simp only [List.length_take] at hi
    omega
  have hik : i < ks.length := by
    have := locateK_le ks key
    omega
  have hx_eq : x = ks[i] := by
    rw [← hgx, List.getElem_take]
  have hle : ks[i] ≤ key := by
    have := locateK_before ks key i hi'
    rwa [List.getD_eq_getElem?_getD, List.getElem?_eq_getElem hik] at this
  have hne : ks[i] ≠ key := fun hh => hfresh (hh ▸ List.getElem_mem hik)
  omega

/-- Keys from the branch index on are strictly above a fresh key. -/
theorem mem_drop_locateK_gt (ks : List Int) (key : Int)
    (hs : List.Sorted (· < ·) ks) (hfresh : key ∉ ks) :
    ∀ y ∈ ks.drop (locateK ks key), key < y := by
  intro y hy
  obtain ⟨t, ht, hgy⟩ := List.mem_iff_getElem.mp hy
  have hjt : locateK ks key + t < ks.length := by
    simp only [List.length_drop] at ht
    omega
  have hj : locateK ks key < ks.length := by omega
  have h1 : key < ks[locateK ks key] := by
    have := locateK_after ks key hj
    rwa [List.getD_eq_getElem?_getD, List.getElem?_eq_getElem hj] at this
  have hy_eq : y = ks[locateK ks key + t] := by
    rw [← hgy, List.getElem_drop]
  rcases Nat.eq_zero_or_pos t with rfl | hpos
  · rw [hy_eq]
    simpa using h1
  · have h2 : ks[locateK ks key] < ks[locateK ks key + t] :=
      List.pairwise_iff_getElem.mp hs _ _ hj hjt (by omega)
    omega

/-- Inserting a fresh key at its branch index keeps the key sequence
strictly sorted. -/
theorem sorted_insert_locateK (ks : List Int) (key : Int)
    (hs : List.Sorted (· < ·) ks) (hfresh : key ∉ ks) :
    List.Sorted (· < ·)
      (ks.take (locateK ks key) ++ key :: ks.drop (locateK ks key)) := by
  rw [List.Sorted] at hs ⊢
  rw [List.pairwise_append]
  refine ⟨List.Pairwise.take hs, ?_, ?_⟩
  · rw [List.pairwise_cons]
    exact ⟨mem_drop_locateK_gt ks key hs hfresh, List.Pairwise.drop hs⟩
  · intro x hx y hy
    have hxk : x < key := mem_take_locateK_lt ks key hfresh x hx
    rcases List.mem_cons.mp hy with rfl | hy'
    · exact hxk
    · exact hxk.trans (mem_drop_locateK_gt ks key hs hfresh y hy')

/-- A position whose strict neighbours straddle the key pins the branch
index and makes the key fresh. -/
theorem locateK_eq_of_bounds (ks : List Int) (key : Int) (j : Nat)
    (hs : List.Sorted (· < ·) ks) (hj : j ≤ ks.length)
    (hlow : j = 0 ∨ ks.getD (j - 1) 0 < key)
    (hhigh : j < ks.length → key < ks.getD j 0) :
    locateK ks key = j ∧ key ∉ ks := by
  have hsorted : ∀ a b : Nat, a < b → b < ks.length → ks.getD a 0 ≤ ks.getD b 0 := by
    intro a b hab hb
    have := List.pairwise_iff_getElem.mp hs a b (by omega) hb hab
    rw [List.getD_eq_getElem?_getD, List.getD_eq_getElem?_getD,
      List.getElem?_eq_getElem (by omega : a < ks.length), List.getElem?_eq_getElem hb]
    exact le_of_lt this
  have hbefore : ∀ i, i < j → ks.getD i 0 < key := by
    intro i hi
    rcases hlow with rfl | hlow
    · omega
    · rcases Nat.lt_or_ge i (j - 1) with hlt | hge
      · exact lt_of_le_of_lt (hsorted i (j - 1) hlt (by omega)) hlow
      · have : i = j - 1 := by omega
        rw [this]
        exact hlow
  have hafterall : ∀ i, j ≤ i → i < ks.length → key < ks.getD i 0 := by
    intro i hji hi
    rcases Nat.lt_or_ge j i with hlt | hge
    · exact lt_of_lt_of_le (hhigh (by omega)) (hsorted j i hlt hi)
    · have : i = j := by omega
      rw [this]
      exact hhigh (by omega)
  constructor
  · exact locateK_eq ks key j hj (fun i hi => le_of_lt (hbefore i hi)) hhigh
  · intro hmem
    obtain ⟨i, hi, hgi⟩ := List.mem_iff_getElem.mp hmem
    have hgd : ks.getD i 0 = key := by
      rw [List.getD_eq_getElem?_getD, List.getElem?_eq_getElem hi, hgi]
      rfl
    rcases Nat.lt_or_ge i j with hlt | hge
    · have := hbefore i hlt
      omega
    · have := hafterall i hge hi
      omega

/-! ### Key bounds over the node invariant -/

/-- Transfer of the strict bounds from a child interval to the parent
interval. -/
theorem btwn_child (lo hi : Option Int) (ks : List Int) (i : Nat) (k : Int)
    (hks : ∀ x ∈ ks, Btwn lo hi x) (hile : i ≤ ks.length)
    (h : Btwn (childLo lo ks i) (childHi hi ks i) k) : Btwn lo hi k := by
  constructor
  · intro a ha
    by_cases h0 : i = 0
    · exact h.1 a (by simp [childLo, h0, ha])
    · have hidx : i - 1 < ks.length := by omega
      have helem : ks.getD (i - 1) 0 ∈ ks := by
        rw [List.getD_eq_getElem?_getD, List.getElem?_eq_getElem hidx]
        exact List.getElem_mem hidx
      have h1 : ks.getD (i - 1) 0 < k := h.1 _ (by simp [childLo, h0])
      have h2 := (hks _ helem).1 a ha
      omega
  · intro b hb
    by_cases h0 : i < ks.length
    · have helem : ks.getD i 0 ∈ ks := by
        rw [List.getD_eq_getElem?_getD, List.getElem?_eq_getElem h0]
        exact List.getElem_mem h0
      have h1 : k < ks.getD i 0 := h.2 _ (by simp [childHi, h0])
      have h2 := (hks _ helem).2 b hb
      omega
    · exact h.2 b (by simpa [childHi, h0] using hb)

/-- Every key of an invariant-satisfying subtree lies strictly inside the
subtree's bounds. -/
theorem keys_btwn {n : Nat} {lo hi : Option Int} {node : CbtNode}
    (hinv : NodeInv n lo hi node) : ∀ k ∈ keysN node, Btwn lo hi k := by
  induction hinv with
  | leaf lo hi ps len hp hlen hsort hbtwn =>
      intro k hk
      rw [keysN_mk, keys_entry_pref, keysL_replicate, List.append_nil] at hk
      exact hbtwn k hk
  | internal lo hi ps cs len hp hlen hcs hsort hbtwn hkids ih =>
      intro k hk
      rw [keysN_mk, keys_entry_pref] at hk
      rcases List.mem_append.mp hk with hk1 | hk2
      · exact hbtwn k hk1
      · obtain ⟨c, hc, hkc⟩ := (keysL_prefix_mem cs _ k).mp hk2
        obtain ⟨⟨i, hi'⟩, rfl⟩ := List.mem_iff_get.mp hc
        exact btwn_child lo hi (ps.map CbtEntry.key) i k hbtwn
          (by simp only [List.length_map]; omega) (ih i hi' k hkc)

/-! ### Splitting preserves the node invariant -/

/-- Key reads inside a taken prefix. -/
theorem getD_take (ks : List Int) (j i : Nat) (h : i < j) :
    (ks.take j).getD i 0 = ks.getD i 0 := by
  rw [List.getD_eq_getElem?_getD, List.getD_eq_getElem?_getD,
    List.getElem?_take_of_lt h]

/-- Key reads inside a dropped suffix. -/
theorem getD_drop (ks : List Int) (j i : Nat) :
    (ks.drop j).getD i 0 = ks.getD (j + i) 0 := by
  rw [List.getD_eq_getElem?_getD, List.getD_eq_getElem?_getD, List.getElem?_drop]

/-- Keys indexed inside the populated range, as members. -/
theorem getD_mem (ks : List Int) (i : Nat) (h : i < ks.length) : ks.getD i 0 ∈ ks := by
  rw [List.getD_eq_getElem?_getD, List.getElem?_eq_getElem h]
  exact List.getElem_mem h

/-- Sorted keys compare along indices. -/
theorem sorted_getD_lt (ks : List Int) (hs : List.Sorted (· < ·) ks) (a b : Nat)
    (hab : a < b) (hb : b < ks.length) : ks.getD a 0 < ks.getD b 0 := by
  have := List.pairwise_iff_getElem.mp hs a b (by omega) hb hab
  rwa [List.getD_eq_getElem?_getD, List.getD_eq_getElem?_getD,
    List.getElem?_eq_getElem (by omega : a < ks.length), List.getElem?_eq_getElem hb]

/-- Splitting a full leaf with a populated median slot: the promoted entry
sits at `borrow - 1`, both halves are leaves holding the keys on their
side of it. -/
theorem split_leaf_real (n : Nat) (hn : 3 ≤ n) (lo hi : Option Int)
    (ps : List CbtEntry) (hp : ps.length ≤ n - 1)
    (hsort : List.Sorted (· < ·) (ps.map CbtEntry.key))
    (hbtwn : ∀ k ∈ ps.map CbtEntry.key, Btwn lo hi k)
    (hmed : (n + 1) / 2 - 1 < ps.length) :
    ∃ m left right,
      bt_split_child (.mk (ps.map some ++ List.replicate (n - 1 - ps.length) none)
        (List.replicate n none) (n - 1)) n = some (some m, left, right) ∧
      m = ps.getD ((n + 1) / 2 - 1) ⟨0, 0⟩ ∧
      NodeInv n lo (some m.key) left ∧ NodeInv n (some m.key) hi right ∧
      Btwn lo hi m.key ∧ left.len = n / 2 ∧ right.len = n / 2 ∧
      heightN left = 1 ∧ heightN right = 1 ∧
      keysN left = (ps.take ((n + 1) / 2 - 1)).map CbtEntry.key ∧
      keysN right = (ps.drop ((n + 1) / 2)).map CbtEntry.key ∧
      m.key ∈ ps.map CbtEntry.key := by
  have he : (ps.map (some : CbtEntry → Option CbtEntry) ++
      List.replicate (n - 1 - ps.length) none).length = n - 1 := by
    simp
    omega
  have hchar := bt_split_child_char
    (.mk (ps.map some ++ List.replicate (n - 1 - ps.length) none)
      (List.replicate n none) (n - 1)) n hn rfl (by simpa using he) (by simp)
  simp only [CbtNode.entry_mk, CbtNode.children_mk] at hchar
  have hmedv : (ps.map (some : CbtEntry → Option CbtEntry) ++
      List.replicate (n - 1 - ps.length) none).getD ((n + 1) / 2 - 1) none =
      some (ps.getD ((n + 1) / 2 - 1) ⟨0, 0⟩) := by
    rw [prefix_getD, List.getElem?_eq_getElem hmed]
    rw [List.getD_eq_getElem?_getD, List.getElem?_eq_getElem hmed]
    rfl
  have hLE : (ps.map (some : CbtEntry → Option CbtEntry) ++
        List.replicate (n - 1 - ps.length) none).take ((n + 1) / 2 - 1) ++
        List.replicate (n - (n + 1) / 2) none =
      (ps.take ((n + 1) / 2 - 1)).map some ++
        List.replicate (n - 1 - (ps.take ((n + 1) / 2 - 1)).length) none := by
    rw [prefix_take_le ps _ _ (by omega), List.length_take]
    congr 2
    omega
  have hLC : (List.replicate n (none : Option CbtNode)).take ((n + 1) / 2) ++
      List.replicate (n - (n + 1) / 2) none = List.replicate n none := by
    rw [List.take_replicate, List.append_replicate_replicate]
    congr 1
    omega
  have hRE : (ps.map (some : CbtEntry → Option CbtEntry) ++
        List.replicate (n - 1 - ps.length) none).drop ((n + 1) / 2) ++
        List.replicate ((n + 1) / 2) none =
      (ps.drop ((n + 1) / 2)).map some ++
        List.replicate (n - 1 - (ps.drop ((n + 1) / 2)).length) none := by
    rw [prefix_drop_le ps _ _ (by omega), List.append_assoc,
      List.append_replicate_replicate, List.length_drop]
    congr 2
    omega
  have hRC : (List.replicate n (none : Option CbtNode)).drop ((n + 1) / 2) ++
      List.replicate ((n + 1) / 2) none = List.replicate n none := by
    rw [List.drop_replicate, List.append_replicate_replicate]
    congr 1
    omega
  rw [hmedv, hLE, hLC, hRE, hRC] at hchar
  set m := ps.getD ((n + 1) / 2 - 1) ⟨0, 0⟩ with hm
  have hmkey : m.key = (ps.map CbtEntry.key).getD ((n + 1) / 2 - 1) 0 := by
    rw [hm, List.getD_eq_getElem?_getD, List.getD_eq_getElem?_getD,
      List.getElem?_eq_getElem hmed, List.getElem?_eq_getElem (by simpa using hmed),
      List.getElem_map]
    rfl
  have hmmem : m.key ∈ ps.map CbtEntry.key := by
    rw [hmkey]
    exact getD_mem _ _ (by simpa using hmed)
  refine ⟨m, _, _, hchar, rfl, ?_, ?_, hbtwn _ hmmem, rfl, rfl, ?_, ?_, ?_, ?_, hmmem⟩
  · exact NodeInv.leaf lo (some m.key) (ps.take ((n + 1) / 2 - 1)) (n / 2)
      (by rw [List.length_take]; omega) (by omega)
      (by rw [List.map_take]; exact List.Pairwise.take hsort)
      (by
        intro k hk
        rw [List.map_take] at hk
        obtain ⟨i, hi, hgi⟩ := List.mem_iff_getElem.mp hk
        have hi2 : i < (n + 1) / 2 - 1 := by
          simp only [List.length_take] at hi
          omega
        have hilen : i < (ps.map CbtEntry.key).length := by
          simp only [List.length_map]
          omega
        have hki : k = (ps.map CbtEntry.key).getD i 0 := by
          rw [← hgi, List.getD_eq_getElem?_getD, ← List.getElem?_take_of_lt hi2,
            List.getElem?_eq_getElem hi]
          rfl
        have hkmem : k ∈ ps.map CbtEntry.key := by
          rw [hki]
          exact getD_mem _ _ hilen
        refine ⟨(hbtwn k hkmem).1, ?_⟩
        intro b hb
        injection hb with hb
        rw [← hb, hmkey, hki]
        exact sorted_getD_lt _ hsort i _ hi2 (by simpa using hmed))
  · exact NodeInv.leaf (some m.key) hi (ps.drop ((n + 1) / 2)) (n / 2)
      (by rw [List.length_drop]; omega) (by omega)
      (by rw [List.map_drop]; exact List.Pairwise.drop hsort)
      (by
        intro k hk
        rw [List.map_drop] at hk
        obtain ⟨i, hi, hgi⟩ := List.mem_iff_getElem.mp hk
        have hi2 : i < ps.length - (n + 1) / 2 := by
          simp only [List.length_drop, List.length_map] at hi
          omega
        have hki : k = (ps.map CbtEntry.key).getD ((n + 1) / 2 + i) 0 := by
          rw [← hgi, ← getD_drop, List.getD_eq_getElem?_getD,
            List.getElem?_eq_getElem hi]
          rfl
        have hkmem : k ∈ ps.map CbtEntry.key := by
          rw [hki]
          exact getD_mem _ _ (by simp only [List.length_map]; omega)
        refine ⟨?_, (hbtwn k hkmem).2⟩
        intro a ha
        injection ha with ha
        rw [← ha, hmkey, hki]
        exact sorted_getD_lt _ hsort ((n + 1) / 2 - 1) ((n + 1) / 2 + i)
          (by omega) (by simp only [List.length_map]; omega))
  · rw [heightN_mk, heightL_replicate]
  · rw [heightN_mk, heightL_replicate]
  · rw [keysN_mk, keys_entry_pref, keysL_replicate, List.append_nil]
  · rw [keysN_mk, keys_entry_pref, keysL_replicate, List.append_nil]

/-- Splitting a full-by-count leaf whose median slot is empty: a `NULL`
entry is returned, the node keeps its contents with the count field
halved, and the discarded new node is empty. -/
theorem split_leaf_phantom (n : Nat) (hn : 3 ≤ n) (ps : List CbtEntry)
    (hp : ps.length ≤ (n + 1) / 2 - 1) :
    bt_split_child (.mk (ps.map some ++ List.replicate (n - 1 - ps.length) none)
        (List.replicate n none) (n - 1)) n =
      some (none,
        .mk (ps.map some ++ List.replicate (n - 1 - ps.length) none)
            (List.replicate n none) (n / 2),
        .mk (List.replicate (n - 1) none) (List.replicate n none) (n / 2)) := by
  have he : (ps.map (some : CbtEntry → Option CbtEntry) ++
      List.replicate (n - 1 - ps.length) none).length = n - 1 := by
    simp
    omega
  have hchar := bt_split_child_char
    (.mk (ps.map some ++ List.replicate (n - 1 - ps.length) none)
      (List.replicate n none) (n - 1)) n hn rfl (by simpa using he) (by simp)
  simp only [CbtNode.entry_mk, CbtNode.children_mk] at hchar
  have hmedv : (ps.map (some : CbtEntry → Option CbtEntry) ++
      List.replicate (n - 1 - ps.length) none).getD ((n + 1) / 2 - 1) none = none := by
    rw [prefix_getD, List.getElem?_eq_none_iff.mpr (by omega)]
  have hLE : (ps.map (some : CbtEntry → Option CbtEntry) ++
        List.replicate (n - 1 - ps.length) none).take ((n + 1) / 2 - 1) ++
        List.replicate (n - (n + 1) / 2) none =
      ps.map some ++ List.replicate (n - 1 - ps.length) none := by
    rw [prefix_take_ge ps _ _ (by omega), List.append_assoc,
      List.append_replicate_replicate]
    congr 2
    omega
  have hLC : (List.replicate n (none : Option CbtNode)).take ((n + 1) / 2) ++
      List.replicate (n - (n + 1) / 2) none = List.replicate n none := by
    rw [List.take_replicate, List.append_replicate_replicate]
    congr 1
    omega
  have hRE : (ps.map (some : CbtEntry → Option CbtEntry) ++
        List.replicate (n - 1 - ps.length) none).drop ((n + 1) / 2) ++
        List.replicate ((n + 1) / 2) none = List.replicate (n - 1) none := by
    rw [prefix_drop_ge ps _ _ (by omega), List.append_replicate_replicate]
    congr 1
    omega
  have hRC : (List.replicate n (none : Option CbtNode)).drop ((n + 1) / 2) ++
      List.replicate ((n + 1) / 2) none = List.replicate n none := by
    rw [List.drop_replicate, List.append_replicate_replicate]
    congr 1
    omega
  rw [hmedv, hLE, hLC, hRE, hRC] at hchar
  exact hchar

/-- Splitting a full-by-count internal node whose median slot is empty:
a `NULL` entry is returned and the node keeps its contents with the count
field halved. -/
theorem split_internal_phantom (n : Nat) (hn : 3 ≤ n) (ps : List CbtEntry)
    (cs : List CbtNode) (hp : ps.length ≤ (n + 1) / 2 - 1)
    (hcs : cs.length = ps.length + 1) :
    bt_split_child (.mk (ps.map some ++ List.replicate (n - 1 - ps.length) none)
        (cs.map some ++ List.replicate (n - (ps.length + 1)) none) (n - 1)) n =
      some (none,
        .mk (ps.map some ++ List.replicate (n - 1 - ps.length) none)
            (cs.map some ++ List.replicate (n - (ps.length + 1)) none) (n / 2),
        .mk (List.replicate (n - 1) none) (List.replicate n none) (n / 2)) := by
  have he : (ps.map (some : CbtEntry → Option CbtEntry) ++
      List.replicate (n - 1 - ps.length) none).length = n - 1 := by
    simp
    omega
  have hc : (cs.map (some : CbtNode → Option CbtNode) ++
      List.replicate (n - (ps.length + 1)) none).length = n := by
    simp [hcs]
    omega
  have hchar := bt_split_child_char
    (.mk (ps.map some ++ List.replicate (n - 1 - ps.length) none)
      (cs.map some ++ List.replicate (n - (ps.length + 1)) none) (n - 1)) n hn rfl
    (by simpa using he) (by simpa using hc)
  simp only [CbtNode.entry_mk, CbtNode.children_mk] at hchar
  have hmedv : (ps.map (some : CbtEntry → Option CbtEntry) ++
      List.replicate (n - 1 - ps.length) none).getD ((n + 1) / 2 - 1) none = none := by
    rw [prefix_getD, List.getElem?_eq_none_iff.mpr (by omega)]
  have hLE : (ps.map (some : CbtEntry → Option CbtEntry) ++
        List.replicate (n - 1 - ps.length) none).take ((n + 1) / 2 - 1) ++
        List.replicate (n - (n + 1) / 2) none =
      ps.map some ++ List.replicate (n - 1 - ps.length) none := by
    rw [prefix_take_ge ps _ _ (by omega), List.append_assoc,
      List.append_replicate_replicate]
    congr 2
    omega
  have hLC : (cs.map (some : CbtNode → Option CbtNode) ++
        List.replicate (n - (ps.length + 1)) none).take ((n + 1) / 2) ++
        List.replicate (n - (n + 1) / 2) none =
      cs.map some ++ List.replicate (n - (ps.length + 1)) none := by
    rw [prefix_take_ge cs _ _ (by omega), List.append_assoc,
      List.append_replicate_replicate]
    congr 2
    omega
  have hRE : (ps.map (some : CbtEntry → Option CbtEntry) ++
        List.replicate (n - 1 - ps.length) none).drop ((n + 1) / 2) ++
        List.replicate ((n + 1) / 2) none = List.replicate (n - 1) none := by
    rw [prefix_drop_ge ps _ _ (by omega), List.append_replicate_replicate]
    congr 1
    omega
  have hRC : (cs.map (some : CbtNode → Option CbtNode) ++
        List.replicate (n - (ps.length + 1)) none).drop ((n + 1) / 2) ++
        List.replicate ((n + 1) / 2) none = List.replicate n none := by
    rw [prefix_drop_ge cs _ _ (by omega), List.append_replicate_replicate]
    congr 1
    omega
  rw [hmedv, hLE, hLC, hRE, hRC] at hchar
  exact hchar

/-- Splitting a full internal node with a populated median slot: the
promoted entry sits at `borrow - 1`, both halves are internal nodes
keeping the entries and children on their side of it, with the child
bounds re-indexed accordingly. -/
theorem split_internal_real (n : Nat) (hn : 3 ≤ n) (lo hi : Option Int)
    (ps : List CbtEntry) (cs : List CbtNode) (hp : ps.length ≤ n - 1)
    (hcs : cs.length = ps.length + 1)
    (hsort : List.Sorted (· < ·) (ps.map CbtEntry.key))
    (hbtwn : ∀ k ∈ ps.map CbtEntry.key, Btwn lo hi k)
    (hkids : ∀ i (h : i < cs.length),
      NodeInv n (childLo lo (ps.map CbtEntry.key) i)
        (childHi hi (ps.map CbtEntry.key) i) (cs.get ⟨i, h⟩))
    (hmed : (n + 1) / 2 - 1 < ps.length) :
    ∃ m left right,
      bt_split_child (.mk (ps.map some ++ List.replicate (n - 1 - ps.length) none)
        (cs.map some ++ List.replicate (n - (ps.length + 1)) none) (n - 1)) n =
        some (some m, left, right) ∧
      m = ps.getD ((n + 1) / 2 - 1) ⟨0, 0⟩ ∧
      NodeInv n lo (some m.key) left ∧ NodeInv n (some m.key) hi right ∧
      Btwn lo hi m.key ∧ left.len = n / 2 ∧ right.len = n / 2 ∧
      heightN left ≤
        heightL (cs.map some ++ List.replicate (n - (ps.length + 1)) none) + 1 ∧
      heightN right ≤
        heightL (cs.map some ++ List.replicate (n - (ps.length + 1)) none) + 1 ∧
      (∀ k ∈ keysN left, k ∈ (ps.map CbtEntry.key) ++
        keysL (cs.map some ++ List.replicate (n - (ps.length + 1)) none)) ∧
      (∀ k ∈ keysN right, k ∈ (ps.map CbtEntry.key) ++
        keysL (cs.map some ++ List.replicate (n - (ps.length + 1)) none)) ∧
      m.key ∈ ps.map CbtEntry.key := by
  have he : (ps.map (some : CbtEntry → Option CbtEntry) ++
      List.replicate (n - 1 - ps.length) none).length = n - 1 := by
    simp
    omega
  have hclen : (cs.map (some : CbtNode → Option CbtNode) ++
      List.replicate (n - (ps.length + 1)) none).length = n := by
    simp [hcs]
    omega
  have hborrow_le_p : (n + 1) / 2 ≤ ps.length := by omega
  have hchar := bt_split_child_char
    (.mk (ps.map some ++ List.replicate (n - 1 - ps.length) none)
      (cs.map some ++ List.replicate (n - (ps.length + 1)) none) (n - 1)) n hn rfl
    (by simpa using he) (by simpa using hclen)
  simp only [CbtNode.entry_mk, CbtNode.children_mk] at hchar
  have hmedv : (ps.map (some : CbtEntry → Option CbtEntry) ++
      List.replicate (n - 1 - ps.length) none).getD ((n + 1) / 2 - 1) none =
      some (ps.getD ((n + 1) / 2 - 1) ⟨0, 0⟩) := by
    rw [prefix_getD, List.getElem?_eq_getElem hmed]
    rw [List.getD_eq_getElem?_getD, List.getElem?_eq_getElem hmed]
    rfl
  have hLE : (ps.map (some : CbtEntry → Option CbtEntry) ++
        List.replicate (n - 1 - ps.length) none).take ((n + 1) / 2 - 1) ++
        List.replicate (n - (n + 1) / 2) none =
      (ps.take ((n + 1) / 2 - 1)).map some ++
        List.replicate (n - 1 - (ps.take ((n + 1) / 2 - 1)).length) none := by
    rw [prefix_take_le ps _ _ (by omega), List.length_take]
    congr 2
    omega
  have hLC : (cs.map (some : CbtNode → Option CbtNode) ++
        List.replicate (n - (ps.length + 1)) none).take ((n + 1) / 2) ++
        List.replicate (n - (n + 1) / 2) none =
      (cs.take ((n + 1) / 2)).map some ++
        List.replicate (n - ((cs.take ((n + 1) / 2)).length)) none := by
    rw [prefix_take_le cs _ _ (by omega), List.length_take]
    congr 2
    omega
  have hRE : (ps.map (some : CbtEntry → Option CbtEntry) ++
        List.replicate (n - 1 - ps.length) none).drop ((n + 1) / 2) ++
        List.replicate ((n + 1) / 2) none =
      (ps.drop ((n + 1) / 2)).map some ++
        List.replicate (n - 1 - (ps.drop ((n + 1) / 2)).length) none := by
    rw [prefix_drop_le ps _ _ (by omega), List.append_assoc,
      List.append_replicate_replicate, List.length_drop]
    congr 2
    omega
  have hRC : (cs.map (some : CbtNode → Option CbtNode) ++
        List.replicate (n - (ps.length + 1)) none).drop ((n + 1) / 2) ++
        List.replicate ((n + 1) / 2) none =
      (cs.drop ((n + 1) / 2)).map some ++
        List.replicate (n - ((cs.drop ((n + 1) / 2)).length)) none := by
    rw [prefix_drop_le cs _ _ (by omega), List.append_assoc,
      List.append_replicate_replicate, List.length_drop]
    congr 2
    omega
  rw [hmedv, hLE, hLC, hRE, hRC] at hchar
  set m := ps.getD ((n + 1) / 2 - 1) ⟨0, 0⟩ with hm
  have hmkey : m.key = (ps.map CbtEntry.key).getD ((n + 1) / 2 - 1) 0 := by
    rw [hm, List.getD_eq_getElem?_getD, List.getD_eq_getElem?_getD,
      List.getElem?_eq_getElem hmed, List.getElem?_eq_getElem (by simpa using hmed),
      List.getElem_map]
    rfl
  have hmmem : m.key ∈ ps.map CbtEntry.key := by
    rw [hmkey]
    exact getD_mem _ _ (by simpa using hmed)
  have hkslen : (ps.map CbtEntry.key).length = ps.length := by simp
  refine ⟨m, _, _, hchar, rfl, ?_, ?_, hbtwn _ hmmem, rfl, rfl, ?_, ?_, ?_, ?_, hmmem⟩
  · -- left half invariant
    have hlen_take : (ps.take ((n + 1) / 2 - 1)).length = (n + 1) / 2 - 1 := by
      rw [List.length_take]
      omega
    have hcs_take : (cs.take ((n + 1) / 2)).length = (n + 1) / 2 := by
      rw [List.length_take]
      omega
    have := NodeInv.internal (n := n) lo (some m.key) (ps.take ((n + 1) / 2 - 1))
      (cs.take ((n + 1) / 2)) (n / 2)
      (by omega) (by omega) (by omega)
      (by rw [List.map_take]; exact List.Pairwise.take hsort)
      ?_ ?_
    · have hcount : n - ((ps.take ((n + 1) / 2 - 1)).length + 1) =
          n - (cs.take ((n + 1) / 2)).length := by
        rw [hcs_take, hlen_take]
        omega
      rw [hcount] at this
      exact this
    · intro k hk
      rw [List.map_take] at hk
      obtain ⟨i, hi, hgi⟩ := List.mem_iff_getElem.mp hk
      have hi2 : i < (n + 1) / 2 - 1 := by
        simp only [List.length_take] at hi
        omega
      have hki : k = (ps.map CbtEntry.key).getD i 0 := by
        rw [← hgi, List.getD_eq_getElem?_getD, ← List.getElem?_take_of_lt hi2,
          List.getElem?_eq_getElem hi]
        rfl
      have hkmem : k ∈ ps.map CbtEntry.key := by
        rw [hki]
        exact getD_mem _ _ (by omega)
      refine ⟨(hbtwn k hkmem).1, ?_⟩
      intro b hb
      injection hb with hb
      rw [← hb, hmkey, hki]
      exact sorted_getD_lt _ hsort i _ hi2 (by omega)
    · intro i hilt
      have hi_b : i < (n + 1) / 2 := by
        rw [hcs_take] at hilt
        exact hilt
      have hi_cs : i < cs.length := by omega
      have hget : (cs.take ((n + 1) / 2)).get ⟨i, hilt⟩ = cs.get ⟨i, hi_cs⟩ := by
        simp [List.get_eq_getElem, List.getElem_take]
      have hlo_eq : childLo lo ((ps.take ((n + 1) / 2 - 1)).map CbtEntry.key) i =
          childLo lo (ps.map CbtEntry.key) i := by
        by_cases h0 : i = 0
        · simp [childLo, h0]
        · simp only [childLo, if_neg h0, List.map_take]
          rw [getD_take _ _ _ (by omega)]
      have hhi_eq : childHi (some m.key) ((ps.take ((n + 1) / 2 - 1)).map CbtEntry.key) i =
          childHi hi (ps.map CbtEntry.key) i := by
        by_cases h0 : i < (n + 1) / 2 - 1
        · simp only [childHi, List.map_take, List.length_take]
          rw [if_pos (by omega), if_pos (by omega), getD_take _ _ _ (by omega)]
        · have hieq : i = (n + 1) / 2 - 1 := by omega
          simp only [childHi, List.map_take, List.length_take]
          rw [if_neg (by omega), if_pos (by omega), hieq, hmkey]
      rw [hget, hlo_eq, hhi_eq]
      exact hkids i hi_cs
  · -- right half invariant
    have hlen_drop : (ps.drop ((n + 1) / 2)).length = ps.length - (n + 1) / 2 := by
      rw [List.length_drop]
    have hcs_drop : (cs.drop ((n + 1) / 2)).length = ps.length + 1 - (n + 1) / 2 := by
      rw [List.length_drop, hcs]
    have := NodeInv.internal (n := n) (some m.key) hi (ps.drop ((n + 1) / 2))
      (cs.drop ((n + 1) / 2)) (n / 2)
      (by omega) (by omega) (by omega)
      (by rw [List.map_drop]; exact List.Pairwise.drop hsort)
      ?_ ?_
    · have hcount : n - ((ps.drop ((n + 1) / 2)).length + 1) =
          n - (cs.drop ((n + 1) / 2)).length := by
        rw [hcs_drop, hlen_drop]
        omega
      rw [hcount] at this
      exact this
    · intro k hk
      rw [List.map_drop] at hk
      obtain ⟨i, hi, hgi⟩ := List.mem_iff_getElem.mp hk
      have hi2 : i < ps.length - (n + 1) / 2 := by
        simp only [List.length_drop, List.length_map] at hi
        omega
      have hki : k = (ps.map CbtEntry.key).getD ((n + 1) / 2 + i) 0 := by
        rw [← hgi, ← getD_drop, List.getD_eq_getElem?_getD,
          List.getElem?_eq_getElem hi]
        rfl
      have hkmem : k ∈ ps.map CbtEntry.key := by
        rw [hki]
        exact getD_mem _ _ (by omega)
      refine ⟨?_, (hbtwn k hkmem).2⟩
      intro a ha
      injection ha with ha
      rw [← ha, hmkey, hki]
      exact sorted_getD_lt _ hsort ((n + 1) / 2 - 1) ((n + 1) / 2 + i)
        (by omega) (by omega)
    · intro i hilt
      have hi_b : i < ps.length + 1 - (n + 1) / 2 := by
        rw [hcs_drop] at hilt
        exact hilt
      have hi_cs : (n + 1) / 2 + i < cs.length := by omega
      have hget : (cs.drop ((n + 1) / 2)).get ⟨i, hilt⟩ =
          cs.get ⟨(n + 1) / 2 + i, hi_cs⟩ := by
        simp [List.get_eq_getElem, List.getElem_drop]
      have hlo_eq : childLo (some m.key) ((ps.drop ((n + 1) / 2)).map CbtEntry.key) i =
          childLo lo (ps.map CbtEntry.key) ((n + 1) / 2 + i) := by
        by_cases h0 : i = 0
        · simp only [childLo, h0, if_pos rfl, if_neg (by omega : ¬ (n + 1) / 2 + 0 = 0)]
          rw [hmkey]
          simp
        · simp only [childLo, if_neg h0, if_neg (by omega : ¬ (n + 1) / 2 + i = 0),
            List.map_drop]
          rw [getD_drop]
          congr 2
          omega
      have hhi_eq : childHi hi ((ps.drop ((n + 1) / 2)).map CbtEntry.key) i =
          childHi hi (ps.map CbtEntry.key) ((n + 1) / 2 + i) := by
        by_cases h0 : i < ps.length - (n + 1) / 2
        · simp only [childHi, List.map_drop, List.length_drop, List.length_map]
          rw [if_pos (by omega), if_pos (by omega), getD_drop]
        · simp only [childHi, List.map_drop, List.length_drop, List.length_map]
          rw [if_neg (by omega), if_neg (by omega)]
      rw [hget, hlo_eq, hhi_eq]
      exact hkids ((n + 1) / 2 + i) hi_cs
  · -- left height
    rw [heightN_mk]
    have : heightL ((cs.take ((n + 1) / 2)).map some ++
        List.replicate (n - (cs.take ((n + 1) / 2)).length) none) ≤
        heightL (cs.map some ++ List.replicate (n - (ps.length + 1)) none) := by
      apply heightL_prefix_le
      intro c hc
      exact heightL_prefix_ge cs _ c (List.mem_of_mem_take hc)
    omega
  · -- right height
    rw [heightN_mk]
    have : heightL ((cs.drop ((n + 1) / 2)).map some ++
        List.replicate (n - (cs.drop ((n + 1) / 2)).length) none) ≤
        heightL (cs.map some ++ List.replicate (n - (ps.length + 1)) none) := by
      apply heightL_prefix_le
      intro c hc
      exact heightL_prefix_ge cs _ c (List.mem_of_mem_drop hc)
    omega
  · -- left keys
    intro k hk
    rw [keysN_mk, keys_entry_pref] at hk
    rcases List.mem_append.mp hk with hk1 | hk2
    · rw [List.map_take] at hk1
      exact List.mem_append.mpr (Or.inl (List.mem_of_mem_take hk1))
    · obtain ⟨c, hc, hkc⟩ := (keysL_prefix_mem _ _ k).mp hk2
      refine List.mem_append.mpr (Or.inr ?_)
      exact (keysL_prefix_mem cs _ k).mpr ⟨c, List.mem_of_mem_take hc, hkc⟩
  · -- right keys
    intro k hk
    rw [keysN_mk, keys_entry_pref] at hk
    rcases List.mem_append.mp hk with hk1 | hk2
    · rw [List.map_drop] at hk1
      exact List.mem_append.mpr (Or.inl (List.mem_of_mem_drop hk1))
    · obtain ⟨c, hc, hkc⟩ := (keysL_prefix_mem _ _ k).mp hk2
      refine List.mem_append.mpr (Or.inr ?_)
      exact (keysL_prefix_mem cs _ k).mpr ⟨c, List.mem_of_mem_drop hc, hkc⟩

/-- A non-full node is not split and not touched. -/
theorem split_not_full (node : CbtNode) (n : Nat) (h : ¬ node.len = n - 1) :
    bt_split_child node n = none := by
  rw [bt_split_child, if_pos]
  simp [is_full_node, h]

/-- Splitting any full-by-count node that satisfies the invariant: either
a real split — the promoted entry separates two invariant halves — or a
`NULL`-median split that only halves the count field. -/
theorem split_inv (n : Nat) (hn : 3 ≤ n) (lo hi : Option Int) (node : CbtNode)
    (hinv : NodeInv n lo hi node) (hfull : node.len = n - 1) :
    (∃ m left right, bt_split_child node n = some (some m, left, right) ∧
        NodeInv n lo (some m.key) left ∧ NodeInv n (some m.key) hi right ∧
        Btwn lo hi m.key ∧ left.len = n / 2 ∧ right.len = n / 2 ∧
        heightN left ≤ heightN node ∧ heightN right ≤ heightN node ∧
        (∀ k ∈ keysN left, k ∈ keysN node) ∧ (∀ k ∈ keysN right, k ∈ keysN node) ∧
        m.key ∈ keysN node) ∨
      (∃ left right, bt_split_child node n = some (none, left, right) ∧
        NodeInv n lo hi left ∧ left.len = n / 2 ∧
        keysN left = keysN node ∧ heightN left = heightN node) := by
  cases hinv with
  | leaf lo hi ps len hp hlen hsort hbtwn =>
      rw [CbtNode.len_mk] at hfull
      subst hfull
      by_cases hmedp : (n + 1) / 2 - 1 < ps.length
      · obtain ⟨m, left, right, hsplit, hmval, hlinv, hrinv, hmb, hll, hrl, hlh, hrh,
          hlk, hrk, hmk⟩ :=
          split_leaf_real n hn lo hi ps (by omega) hsort hbtwn hmedp
        left
        refine ⟨m, left, right, hsplit, hlinv, hrinv, hmb, hll, hrl, ?_, ?_, ?_, ?_, ?_⟩
        · rw [hlh, heightN_mk, heightL_replicate]
        · rw [hrh, heightN_mk, heightL_replicate]
        · intro k hk
          rw [hlk, List.map_take] at hk
          rw [keysN_mk, keys_entry_pref, keysL_replicate, List.append_nil]
          exact List.mem_of_mem_take hk
        · intro k hk
          rw [hrk, List.map_drop] at hk
          rw [keysN_mk, keys_entry_pref, keysL_replicate, List.append_nil]
          exact List.mem_of_mem_drop hk
        · rw [keysN_mk, keys_entry_pref, keysL_replicate, List.append_nil]
          exact hmk
      · right
        refine ⟨_, _, split_leaf_phantom n hn ps (by omega), ?_, rfl, rfl, rfl⟩
        exact NodeInv.leaf lo hi ps (n / 2) (by omega) (by omega) hsort hbtwn
  | internal lo hi ps cs len hp hlen hcs hsort hbtwn hkids =>
      rw [CbtNode.len_mk] at hfull
      subst hfull
      by_cases hmedp : (n + 1) / 2 - 1 < ps.length
      · obtain ⟨m, left, right, hsplit, hmval, hlinv, hrinv, hmb, hll, hrl, hlh, hrh,
          hlk, hrk, hmk⟩ :=
          split_internal_real n hn lo hi ps cs (by omega) hcs hsort hbtwn hkids hmedp
        left
        refine ⟨m, left, right, hsplit, hlinv, hrinv, hmb, hll, hrl, ?_, ?_, ?_, ?_, ?_⟩
        · rw [heightN_mk]
          exact hlh
        · rw [heightN_mk]
          exact hrh
        · intro k hk
          rw [keysN_mk, keys_entry_pref]
          exact hlk k hk
        · intro k hk
          rw [keysN_mk, keys_entry_pref]
          exact hrk k hk
        · rw [keysN_mk, keys_entry_pref]
          exact List.mem_append.mpr (Or.inl hmk)
      · right
        refine ⟨_, _, split_internal_phantom n hn ps cs (by omega) hcs, ?_, rfl, rfl, rfl⟩
        exact NodeInv.internal lo hi ps cs (n / 2) (by omega) (by omega) hcs hsort
          hbtwn hkids

/-! ### Helpers for the main preservation argument -/

/-- Every node has positive height. -/
theorem heightN_pos (node : CbtNode) : 1 ≤ heightN node := by
  cases node with
  | mk es cs l =>
      rw [heightN_mk]
      omega

/-- Reading any slot of an all-empty array. -/
theorem getD_replicate {α} (n i : Nat) :
    (List.replicate n (none : Option α)).getD i none = none := by
  rw [List.getD_eq_getElem?_getD, List.getElem?_replicate]
  by_cases h : i < n
  · rw [if_pos h]
    rfl
  · rw [if_neg h]
    rfl

/-- The count field of an invariant node stays below the order. -/
theorem nodeinv_len {n : Nat} {lo hi : Option Int} {x : CbtNode}
    (h : NodeInv n lo hi x) : x.len ≤ n - 1 := by
  cases h with
  | leaf lo hi ps len hp hlen => exact hlen
  | internal lo hi ps cs len hp hlen => exact hlen

/-- Replacing a populated child slot in prefix form. -/
theorem set_pref (cs : List CbtNode) (r ci : Nat) (c' : CbtNode)
    (h : ci < cs.length) :
    (cs.map some ++ List.replicate r none).set ci (some c') =
      (cs.set ci c').map some ++ List.replicate r none := by
  rw [List.set_append_left _ _ (by simpa using h), List.map_set]

/-- Membership in a key list with one key inserted. -/
theorem mem_insert_list (l : List Int) (x : Int) (j : Nat) (k : Int) :
    k ∈ l.take j ++ x :: l.drop j ↔ k = x ∨ k ∈ l := by
  constructor
  · intro h
    rcases List.mem_append.mp h with h1 | h2
    · exact Or.inr (List.mem_of_mem_take h1)
    · rcases List.mem_cons.mp h2 with rfl | h3
      · exact Or.inl rfl
      · exact Or.inr (List.mem_of_mem_drop h3)
  · intro h
    rcases h with rfl | h1
    · exact List.mem_append.mpr (Or.inr (List.mem_cons_self _ _))
    · conv at h1 => rw [← List.take_append_drop j l]
      rcases List.mem_append.mp h1 with h2 | h3
      · exact List.mem_append.mpr (Or.inl h2)
      · exact List.mem_append.mpr (Or.inr (List.mem_cons_of_mem _ h3))

/-- Length of a key list with one key inserted inside it. -/
theorem insert_list_length (l : List Int) (x : Int) (j : Nat) (hj : j ≤ l.length) :
    (l.take j ++ x :: l.drop j).length = l.length + 1 := by
  simp [List.length_take]
  omega

/-- Key reads below the insertion point. -/
theorem getD_insert_lt (l : List Int) (x : Int) (j t : Nat) (h : t < j)
    (hj : j ≤ l.length) :
    (l.take j ++ x :: l.drop j).getD t 0 = l.getD t 0 := by
  rw [List.getD_eq_getElem?_getD, List.getElem?_append,
    List.length_take, Nat.min_eq_left hj, if_pos h, List.getElem?_take_of_lt h,
    ← List.getD_eq_getElem?_getD]

/-- The key read at the insertion point. -/
theorem getD_insert_self (l : List Int) (x : Int) (j : Nat) (hj : j ≤ l.length) :
    (l.take j ++ x :: l.drop j).getD j 0 = x := by
  rw [List.getD_eq_getElem?_getD, List.getElem?_append,
    List.length_take, Nat.min_eq_left hj, if_neg (by omega), Nat.sub_self,
    List.getElem?_cons_zero]
  rfl

/-- Key reads above the insertion point. -/
theorem getD_insert_gt (l : List Int) (x : Int) (j t : Nat) (h : j < t)
    (hj : j ≤ l.length) :
    (l.take j ++ x :: l.drop j).getD t 0 = l.getD (t - 1) 0 := by
  rw [List.getD_eq_getElem?_getD, List.getElem?_append,
    List.length_take, Nat.min_eq_left hj, if_neg (by omega)]
  have h3 : t - j = (t - (j + 1)) + 1 := by omega
  rw [h3, List.getElem?_cons_succ, List.getElem?_drop,
    ← List.getD_eq_getElem?_getD]
  congr 1
  omega

/-- One unfolding of `bt_insert_helper` on a descent call (below the
root): the root-split block is skipped and the four descend branches
remain. -/
theorem helper_descend_eq (fuel n : Nat) (node : CbtNode) (e : CbtEntry) :
    bt_insert_helper (fuel + 1) n (some node) false e =
      (match node.children.getD (get_next_node_index node e.key n) none with
       | none => some (.updated (node_insert_entry node e true n).1)
       | some child =>
         match bt_split_child child n with
         | none =>
             match bt_insert_helper fuel n (some child) false e with
             | none => none
             | some (.updated c') =>
                 some (.updated ⟨node.entry,
                   node.children.set (get_next_node_index node e.key n) (some c'),
                   node.len⟩)
             | some (.newRoot x b) => some (.newRoot x b)
         | some (none, left, _right) =>
             match bt_insert_helper fuel n (some left) false e with
             | none => none
             | some (.updated c') =>
                 some (.updated ⟨node.entry,
                   (node.children.set (get_next_node_index node e.key n)
                       (some left)).set (get_next_node_index node e.key n) (some c'),
                   node.len⟩)
             | some (.newRoot x b) => some (.newRoot x b)
         | some (some m, left, right) =>
             let root1 : CbtNode := ⟨node.entry,
               node.children.set (get_next_node_index node e.key n) (some left),
               node.len⟩
             let ins := node_insert_entry root1 m true n
             let root3 : CbtNode := ⟨ins.1.entry,
               ins.1.children.set ins.2 (some right), ins.1.len⟩
             match root3.children.getD (get_next_node_index root3 e.key n) none with
             | none => bt_insert_helper fuel n none false e
             | some tgt =>
                 match bt_insert_helper fuel n (some tgt) false e with
                 | none => none
                 | some (.updated c') =>
                     some (.updated ⟨root3.entry,
                       root3.children.set (get_next_node_index root3 e.key n)
                         (some c'),
                       root3.len⟩)
                 | some (.newRoot x b) => some (.newRoot x b)) := rfl

/-! ### Branch equations for the descent -/

theorem helper_leaf_eq (fuel n : Nat) (node : CbtNode) (e : CbtEntry) (ci : Nat)
    (hci : get_next_node_index node e.key n = ci)
    (h : node.children.getD ci none = none) :
    bt_insert_helper (fuel + 1) n (some node) false e =
      some (.updated (node_insert_entry node e true n).1) := by
  rw [helper_descend_eq, hci, h]

theorem helper_notfull_eq (fuel n : Nat) (node : CbtNode) (e : CbtEntry) (ci : Nat)
    (child c' : CbtNode)
    (hci : get_next_node_index node e.key n = ci)
    (h : node.children.getD ci none = some child)
    (hs : bt_split_child child n = none)
    (hrec : bt_insert_helper fuel n (some child) false e = some (.updated c')) :
    bt_insert_helper (fuel + 1) n (some node) false e =
      some (.updated ⟨node.entry, node.children.set ci (some c'), node.len⟩) := by
  rw [helper_descend_eq, hci, h]
  simp only [hs, hrec]

theorem helper_phantom_eq (fuel n : Nat) (node : CbtNode) (e : CbtEntry) (ci : Nat)
    (child left right c' : CbtNode)
    (hci : get_next_node_index node e.key n = ci)
    (h : node.children.getD ci none = some child)
    (hs : bt_split_child child n = some (none, left, right))
    (hrec : bt_insert_helper fuel n (some left) false e = some (.updated c')) :
    bt_insert_helper (fuel + 1) n (some node) false e =
      some (.updated ⟨node.entry, node.children.set ci (some c'), node.len⟩) := by
  rw [helper_descend_eq, hci, h]
  simp only [hs, hrec, List.set_set]

theorem helper_split_eq (fuel n : Nat) (node : CbtNode) (e : CbtEntry) (ci : Nat)
    (child left right : CbtNode) (m : CbtEntry)
    (hci : get_next_node_index node e.key n = ci)
    (h : node.children.getD ci none = some child)
    (hs : bt_split_child child n = some (some m, left, right)) :
    bt_insert_helper (fuel + 1) n (some node) false e =
      helperAfterSplit fuel n e
        ⟨(node_insert_entry ⟨node.entry, node.children.set ci (some left), node.len⟩
            m true n).1.entry,
         (node_insert_entry ⟨node.entry, node.children.set ci (some left), node.len⟩
            m true n).1.children.set
           (node_insert_entry ⟨node.entry, node.children.set ci (some left), node.len⟩
              m true n).2 (some right),
         (node_insert_entry ⟨node.entry, node.children.set ci (some left), node.len⟩
            m true n).1.len⟩ := by
  rw [helper_descend_eq, hci, h]
  simp only [hs, helperAfterSplit]

theorem helperAfterSplit_updated (fuel n : Nat) (e : CbtEntry) (root3 tgt c' : CbtNode)
    (ci' : Nat)
    (hci' : get_next_node_index root3 e.key n = ci')
    (hread : root3.children.getD ci' none = some tgt)
    (hrec : bt_insert_helper fuel n (some tgt) false e = some (.updated c')) :
    helperAfterSplit fuel n e root3 =
      some (.updated ⟨root3.entry, root3.children.set ci' (some c'), root3.len⟩) := by
  rw [helperAfterSplit, hci', hread]
  simp only [hrec]

theorem nodeinv_set_child (n : Nat) (lo hi : Option Int) (ps : List CbtEntry)
    (cs : List CbtNode) (len ci : Nat) (c' : CbtNode)
    (hp : ps.length ≤ len) (hlen : len ≤ n - 1) (hcs : cs.length = ps.length + 1)
    (hsort : List.Sorted (· < ·) (ps.map CbtEntry.key))
    (hbtwn : ∀ k ∈ ps.map CbtEntry.key, Btwn lo hi k)
    (hkids : ∀ i (h : i < cs.length),
      NodeInv n (childLo lo (ps.map CbtEntry.key) i)
        (childHi hi (ps.map CbtEntry.key) i) (cs.get ⟨i, h⟩))
    (hci : ci < cs.length)
    (hc' : NodeInv n (childLo lo (ps.map CbtEntry.key) ci)
      (childHi hi (ps.map CbtEntry.key) ci) c') :
    NodeInv n lo hi (.mk (ps.map some ++ List.replicate (n - 1 - ps.length) none)
      ((cs.set ci c').map some ++ List.replicate (n - (ps.length + 1)) none) len) := by
  refine NodeInv.internal lo hi ps (cs.set ci c') len hp hlen (by simpa using hcs)
    hsort hbtwn ?_
  intro i h
  rw [List.length_set] at h
  by_cases hie : ci = i
  · subst hie
    have hg : (cs.set ci c').get ⟨ci, by simpa using h⟩ = c' := by
      rw [List.get_eq_getElem, List.getElem_set, if_pos rfl]
    rw [hg]
    exact hc'
  · have hg : (cs.set ci c').get ⟨i, by simpa using h⟩ = cs.get ⟨i, h⟩ := by
      rw [List.get_eq_getElem, List.get_eq_getElem, List.getElem_set, if_neg hie]
    rw [hg]
    exact hkids i h

theorem heightL_set_le (cs : List CbtNode) (r ci : Nat) (c' : CbtNode) (X : Nat)
    (hall : ∀ c ∈ cs, heightN c ≤ X) (hc' : heightN c' ≤ X) :
    heightL ((cs.set ci c').map some ++ List.replicate r none) ≤ X := by
  apply heightL_prefix_le
  intro c hc
  rcases List.mem_or_eq_of_mem_set hc with h1 | h1
  · exact hall c h1
  · exact h1 ▸ hc'

theorem btwn_at_branch (lo hi : Option Int) (ks : List Int) (key : Int)
    (hb : Btwn lo hi key) (hfresh : key ∉ ks) :
    Btwn (childLo lo ks (locateK ks key)) (childHi hi ks (locateK ks key)) key := by
  constructor
  · intro a ha
    rw [childLo] at ha
    by_cases h0 : locateK ks key = 0
    · rw [if_pos h0] at ha
      exact hb.1 a ha
    · rw [if_neg h0] at ha
      have hlt : locateK ks key - 1 < locateK ks key := by omega
      have hle := locateK_before ks key _ hlt
      have hmem : ks.getD (locateK ks key - 1) 0 ∈ ks := by
        apply getD_mem
        have := locateK_le ks key
        omega
      have hne : ks.getD (locateK ks key - 1) 0 ≠ key := fun hh => hfresh (hh ▸ hmem)
      cases ha
      omega
  · intro b hbm
    rw [childHi] at hbm
    by_cases h0 : locateK ks key < ks.length
    · rw [if_pos h0] at hbm
      have := locateK_after ks key h0
      cases hbm
      omega
    · rw [if_neg h0] at hbm
      exact hb.2 b hbm

theorem mem_insert_any {α : Type} (l : List α) (x : α) (j : Nat) (k : α) :
    k ∈ l.take j ++ x :: l.drop j ↔ k = x ∨ k ∈ l := by
  constructor
  · intro h
    rcases List.mem_append.mp h with h1 | h2
    · exact Or.inr (List.mem_of_mem_take h1)
    · rcases List.mem_cons.mp h2 with rfl | h3
      · exact Or.inl rfl
      · exact Or.inr (List.mem_of_mem_drop h3)
  · intro h
    rcases h with rfl | h1
    · exact List.mem_append.mpr (Or.inr (List.mem_cons_self _ _))
    · conv at h1 => rw [← List.take_append_drop j l]
      rcases List.mem_append.mp h1 with h2 | h3
      · exact List.mem_append.mpr (Or.inl h2)
      · exact List.mem_append.mpr (Or.inr (List.mem_cons_of_mem _ h3))

theorem insert_getElem? {α : Type} (l : List α) (j : Nat) (x : α)
    (hj : j ≤ l.length) (t : Nat) :
    (l.take j ++ x :: l.drop j)[t]? =
      if t < j then l[t]? else if t = j then some x else l[t - 1]? := by
  rw [List.getElem?_append, List.length_take, Nat.min_eq_left hj]
  by_cases h1 : t < j
  · rw [if_pos h1, if_pos h1, List.getElem?_take_of_lt h1]
  · rw [if_neg h1, if_neg h1]
    by_cases h2 : t = j
    · rw [if_pos h2, h2, Nat.sub_self, List.getElem?_cons_zero]
    · rw [if_neg h2]
      have h3 : t - j = (t - (j + 1)) + 1 := by omega
      rw [h3, List.getElem?_cons_succ, List.getElem?_drop]
      congr 1
      omega

theorem insert_length {α : Type} (l : List α) (x : α) (j : Nat) (hj : j ≤ l.length) :
    (l.take j ++ x :: l.drop j).length = l.length + 1 := by
  simp [List.length_take]
  omega

theorem get_of_getElem? {α : Type} (l : List α) (i : Nat) (h : i < l.length) (a : α)
    (hg : l[i]? = some a) : l.get ⟨i, h⟩ = a := by
  rw [List.get_eq_getElem]
  rw [List.getElem?_eq_getElem h] at hg
  exact Option.some_injective α hg

theorem rebuild_facts (n : Nat) (lo hi : Option Int) (ps : List CbtEntry)
    (cs : List CbtNode) (len j : Nat) (c' : CbtNode)
    (hp : ps.length ≤ len) (hlen : len ≤ n - 1) (hcs : cs.length = ps.length + 1)
    (hsort : List.Sorted (· < ·) (ps.map CbtEntry.key))
    (hbtwn : ∀ k ∈ ps.map CbtEntry.key, Btwn lo hi k)
    (hkids : ∀ i (h : i < cs.length),
      NodeInv n (childLo lo (ps.map CbtEntry.key) i)
        (childHi hi (ps.map CbtEntry.key) i) (cs.get ⟨i, h⟩))
    (hj : j < cs.length)
    (hc' : NodeInv n (childLo lo (ps.map CbtEntry.key) j)
      (childHi hi (ps.map CbtEntry.key) j) c')
    (X : Nat) (hX : ∀ c ∈ cs, heightN c ≤ X) (hcX : heightN c' ≤ X)
    (K : Int → Prop) (hKs : ∀ k ∈ ps.map CbtEntry.key, K k)
    (hKc : ∀ c ∈ cs, ∀ k ∈ keysN c, K k) (hKc' : ∀ k ∈ keysN c', K k) :
    NodeInv n lo hi (.mk (ps.map some ++ List.replicate (n - 1 - ps.length) none)
        ((cs.set j c').map some ++ List.replicate (n - (ps.length + 1)) none) len) ∧
    heightN (.mk (ps.map some ++ List.replicate (n - 1 - ps.length) none)
        ((cs.set j c').map some ++ List.replicate (n - (ps.length + 1)) none) len) ≤
      X + 1 ∧
    (∀ k ∈ keysN (.mk (ps.map some ++ List.replicate (n - 1 - ps.length) none)
        ((cs.set j c').map some ++ List.replicate (n - (ps.length + 1)) none) len),
      K k) := by
  refine ⟨nodeinv_set_child n lo hi ps cs len j c' hp hlen hcs hsort hbtwn hkids hj hc',
    ?_, ?_⟩
  · rw [heightN_mk]
    have := heightL_set_le cs (n - (ps.length + 1)) j c' X hX hcX
    omega
  · intro k hk
    rw [keysN_mk, keys_entry_pref] at hk
    rcases List.mem_append.mp hk with h1 | h2
    · exact hKs k h1
    · obtain ⟨c, hc, hkc⟩ := (keysL_prefix_mem _ _ k).mp h2
      rcases List.mem_or_eq_of_mem_set hc with h3 | h3
      · exact hKc c h3 k hkc
      · exact hKc' k (h3 ▸ hkc)

theorem inserted_cs_length (cs : List CbtNode) (j : Nat) (left right : CbtNode)
    (hj : j < cs.length) :
    ((cs.set j left).take (j + 1) ++ right :: (cs.set j left).drop (j + 1)).length =
      cs.length + 1 := by
  rw [insert_length _ right (j + 1) (by rw [List.length_set]; omega), List.length_set]

theorem inserted_cs_getElem? (cs : List CbtNode) (j : Nat) (left right : CbtNode)
    (hj : j < cs.length) (t : Nat) :
    ((cs.set j left).take (j + 1) ++ right :: (cs.set j left).drop (j + 1))[t]? =
      if t < j then cs[t]? else if t = j then some left
      else if t = j + 1 then some right else cs[t - 1]? := by
  rw [insert_getElem? (cs.set j left) (j + 1) right (by rw [List.length_set]; omega) t]
  by_cases h1 : t < j + 1
  · rw [if_pos h1]
    by_cases h2 : t < j
    · rw [if_pos h2, getElem?_set',
        if_neg (show ¬ (j = t ∧ t < cs.length) by omega)]
    · have ht : t = j := by omega
      rw [if_neg h2, if_pos ht, ht, getElem?_set', if_pos ⟨rfl, hj⟩]
  · rw [if_neg h1, if_neg (show ¬ t < j by omega), if_neg (show ¬ t = j by omega)]
    by_cases h2 : t = j + 1
    · rw [if_pos h2, if_pos h2]
    · rw [if_neg h2, if_neg h2, getElem?_set',
        if_neg (show ¬ (j = t - 1 ∧ t - 1 < cs.length) by omega)]

theorem inserted_cs_mem (cs : List CbtNode) (j : Nat) (left right c : CbtNode)
    (hc : c ∈ (cs.set j left).take (j + 1) ++ right :: (cs.set j left).drop (j + 1)) :
    c ∈ cs ∨ c = left ∨ c = right := by
  rcases (mem_insert_any _ right (j + 1) c).mp hc with rfl | h1
  · exact Or.inr (Or.inr rfl)
  · rcases List.mem_or_eq_of_mem_set h1 with h2 | h2
    · exact Or.inl h2
    · exact Or.inr (Or.inl h2)

theorem childLo_insert_lt (lo : Option Int) (ks : List Int) (x : Int) (j i : Nat)
    (hij : i ≤ j) (hj : j ≤ ks.length) :
    childLo lo (ks.take j ++ x :: ks.drop j) i = childLo lo ks i := by
  rw [childLo, childLo]
  by_cases h0 : i = 0
  · rw [if_pos h0, if_pos h0]
  · rw [if_neg h0, if_neg h0, getD_insert_lt ks x j (i - 1) (by omega) hj]

theorem childHi_insert_lt (hi : Option Int) (ks : List Int) (x : Int) (j i : Nat)
    (hij : i < j) (hj : j ≤ ks.length) :
    childHi hi (ks.take j ++ x :: ks.drop j) i = childHi hi ks i := by
  rw [childHi, childHi, insert_length ks x j hj, if_pos (by omega), if_pos (by omega),
    getD_insert_lt ks x j i hij hj]

theorem childHi_insert_self (hi : Option Int) (ks : List Int) (x : Int) (j : Nat)
    (hj : j ≤ ks.length) :
    childHi hi (ks.take j ++ x :: ks.drop j) j = some x := by
  rw [childHi, insert_length ks x j hj, if_pos (by omega), getD_insert_self ks x j hj]

theorem childLo_insert_succ (lo : Option Int) (ks : List Int) (x : Int) (j : Nat)
    (hj : j ≤ ks.length) :
    childLo lo (ks.take j ++ x :: ks.drop j) (j + 1) = some x := by
  rw [childLo, if_neg (by omega)]
  simp only [Nat.add_sub_cancel]
  rw [getD_insert_self ks x j hj]

theorem childHi_insert_succ (hi : Option Int) (ks : List Int) (x : Int) (j : Nat)
    (hj : j ≤ ks.length) :
    childHi hi (ks.take j ++ x :: ks.drop j) (j + 1) = childHi hi ks j := by
  rw [childHi, childHi, insert_length ks x j hj]
  by_cases h0 : j < ks.length
  · rw [if_pos (by omega), if_pos h0, getD_insert_gt ks x j (j + 1) (by omega) hj]
    simp only [Nat.add_sub_cancel]
  · rw [if_neg (by omega), if_neg h0]

theorem childLo_insert_gt (lo : Option Int) (ks : List Int) (x : Int) (j i : Nat)
    (hij : j + 2 ≤ i) (hj : j ≤ ks.length) :
    childLo lo (ks.take j ++ x :: ks.drop j) i = childLo lo ks (i - 1) := by
  rw [childLo, childLo, if_neg (by omega), if_neg (by omega),
    getD_insert_gt ks x j (i - 1) (by omega) hj]

theorem childHi_insert_gt (hi : Option Int) (ks : List Int) (x : Int) (j i : Nat)
    (hij : j + 2 ≤ i) (hj : j ≤ ks.length) :
    childHi hi (ks.take j ++ x :: ks.drop j) i = childHi hi ks (i - 1) := by
  rw [childHi, childHi, insert_length ks x j hj]
  by_cases h0 : i < ks.length + 1
  · rw [if_pos h0, if_pos (by omega), getD_insert_gt ks x j i (by omega) hj]
  · rw [if_neg h0, if_neg (by omega)]

theorem inserted_kids (n : Nat) (lo hi : Option Int) (ps : List CbtEntry)
    (cs : List CbtNode) (j : Nat) (m : CbtEntry) (left right : CbtNode)
    (hcs : cs.length = ps.length + 1) (hj : j ≤ ps.length)
    (hkids : ∀ i (h : i < cs.length),
      NodeInv n (childLo lo (ps.map CbtEntry.key) i)
        (childHi hi (ps.map CbtEntry.key) i) (cs.get ⟨i, h⟩))
    (hlinv : NodeInv n (childLo lo (ps.map CbtEntry.key) j) (some m.key) left)
    (hrinv : NodeInv n (some m.key) (childHi hi (ps.map CbtEntry.key) j) right) :
    ∀ i (h : i < ((cs.set j left).take (j + 1) ++
        right :: (cs.set j left).drop (j + 1)).length),
      NodeInv n
        (childLo lo ((ps.take j ++ m :: ps.drop j).map CbtEntry.key) i)
        (childHi hi ((ps.take j ++ m :: ps.drop j).map CbtEntry.key) i)
        (((cs.set j left).take (j + 1) ++
          right :: (cs.set j left).drop (j + 1)).get ⟨i, h⟩) := by
  intro i h
  have hjc : j < cs.length := by omega
  have hmap : (ps.take j ++ m :: ps.drop j).map CbtEntry.key =
      (ps.map CbtEntry.key).take j ++ m.key :: (ps.map CbtEntry.key).drop j := by
    simp [List.map_take, List.map_drop]
  have hkl : (ps.map CbtEntry.key).length = ps.length := List.length_map _ _
  have hlen' := inserted_cs_length cs j left right hjc
  have hg := inserted_cs_getElem? cs j left right hjc i
  rw [hmap]
  by_cases h1 : i < j
  · have hic : i < cs.length := by omega
    have hgi : ((cs.set j left).take (j + 1) ++
        right :: (cs.set j left).drop (j + 1)).get ⟨i, h⟩ = cs.get ⟨i, hic⟩ := by
      apply get_of_getElem? _ i h
      rw [hg, if_pos h1, List.getElem?_eq_getElem hic, List.get_eq_getElem]
    rw [hgi, childLo_insert_lt lo _ m.key j i (by omega) (by omega),
      childHi_insert_lt hi _ m.key j i h1 (by omega)]
    exact hkids i hic
  · by_cases h2 : i = j
    · subst h2
      have hgi : ((cs.set i left).take (i + 1) ++
          right :: (cs.set i left).drop (i + 1)).get ⟨i, h⟩ = left := by
        apply get_of_getElem? _ i h
        rw [hg, if_neg h1, if_pos rfl]
      rw [hgi, childLo_insert_lt lo _ m.key i i (Nat.le_refl i) (by omega),
        childHi_insert_self hi _ m.key i (by omega)]
      exact hlinv
    · by_cases h3 : i = j + 1
      · subst h3
        have hgi : ((cs.set j left).take (j + 1) ++
            right :: (cs.set j left).drop (j + 1)).get ⟨j + 1, h⟩ = right := by
          apply get_of_getElem? _ (j + 1) h
          rw [hg, if_neg h1, if_neg h2, if_pos rfl]
        rw [hgi, childLo_insert_succ lo _ m.key j (by omega),
          childHi_insert_succ hi _ m.key j (by omega)]
        exact hrinv
      · have hic : i - 1 < cs.length := by omega
        have hgi : ((cs.set j left).take (j + 1) ++
            right :: (cs.set j left).drop (j + 1)).get ⟨i, h⟩ =
            cs.get ⟨i - 1, hic⟩ := by
          apply get_of_getElem? _ i h
          rw [hg, if_neg h1, if_neg h2, if_neg h3, List.getElem?_eq_getElem hic,
            List.get_eq_getElem]
        rw [hgi, childLo_insert_gt lo _ m.key j i (by omega) (by omega),
          childHi_insert_gt hi _ m.key j i (by omega) (by omega)]
        exact hkids (i - 1) hic

theorem descend_attach (fuel n : Nat) (e : CbtEntry) (lo hi : Option Int)
    (ps : List CbtEntry) (cs : List CbtNode) (len j : Nat) (m : CbtEntry)
    (left right : CbtNode)
    (hn : 3 ≤ n) (hp : ps.length ≤ len) (hlen2 : len ≤ n - 2)
    (hcs : cs.length = ps.length + 1)
    (hsort : List.Sorted (· < ·) (ps.map CbtEntry.key))
    (hbtwn : ∀ k ∈ ps.map CbtEntry.key, Btwn lo hi k)
    (hkids : ∀ i (h : i < cs.length),
      NodeInv n (childLo lo (ps.map CbtEntry.key) i)
        (childHi hi (ps.map CbtEntry.key) i) (cs.get ⟨i, h⟩))
    (hbe : Btwn lo hi e.key)
    (hj_def : locateK (ps.map CbtEntry.key) e.key = j)
    (hjc : j < cs.length)
    (hsplit : bt_split_child (cs.get ⟨j, hjc⟩) n = some (some m, left, right))
    (hlinv : NodeInv n (childLo lo (ps.map CbtEntry.key) j) (some m.key) left)
    (hrinv : NodeInv n (some m.key) (childHi hi (ps.map CbtEntry.key) j) right)
    (hmb : Btwn (childLo lo (ps.map CbtEntry.key) j)
      (childHi hi (ps.map CbtEntry.key) j) m.key)
    (hll : left.len = n / 2) (hrl : right.len = n / 2)
    (hlh : heightN left ≤ heightN (cs.get ⟨j, hjc⟩))
    (hrh : heightN right ≤ heightN (cs.get ⟨j, hjc⟩))
    (hlk : ∀ k ∈ keysN left, k ∈ keysN (cs.get ⟨j, hjc⟩))
    (hrk : ∀ k ∈ keysN right, k ∈ keysN (cs.get ⟨j, hjc⟩))
    (hmk : m.key ∈ keysN (cs.get ⟨j, hjc⟩))
    (hfks : e.key ∉ ps.map CbtEntry.key)
    (hfch : e.key ∉ keysN (cs.get ⟨j, hjc⟩))
    (hbch : Btwn (childLo lo (ps.map CbtEntry.key) j)
      (childHi hi (ps.map CbtEntry.key) j) e.key)
    (hch_h : heightN (cs.get ⟨j, hjc⟩) ≤
      heightL (cs.map some ++ List.replicate (n - (ps.length + 1)) none))
    (hfuelL : heightL (cs.map some ++ List.replicate (n - (ps.length + 1)) none) ≤ fuel)
    (IH : ∀ (lo hi : Option Int) (x : CbtNode), NodeInv n lo hi x → x.len ≤ n - 2 →
      Btwn lo hi e.key → e.key ∉ keysN x → heightN x ≤ fuel →
      ∃ x', bt_insert_helper fuel n (some x) false e = some (.updated x') ∧
        NodeInv n lo hi x' ∧ heightN x' ≤ heightN x ∧
        (∀ k ∈ keysN x', k = e.key ∨ k ∈ keysN x)) :
    ∃ node', bt_insert_helper (fuel + 1) n
        (some (.mk (ps.map some ++ List.replicate (n - 1 - ps.length) none)
          (cs.map some ++ List.replicate (n - (ps.length + 1)) none) len)) false e =
        some (.updated node') ∧
      NodeInv n lo hi node' ∧
      heightN node' ≤
        heightN (.mk (ps.map some ++ List.replicate (n - 1 - ps.length) none)
          (cs.map some ++ List.replicate (n - (ps.length + 1)) none) len) ∧
      (∀ k ∈ keysN node', k = e.key ∨
        k ∈ keysN (.mk (ps.map some ++ List.replicate (n - 1 - ps.length) none)
          (cs.map some ++ List.replicate (n - (ps.length + 1)) none) len)) := by
  have hjle : j ≤ ps.length := by
    have := locateK_le (ps.map CbtEntry.key) e.key
    rw [List.length_map, hj_def] at this
    exact this
  have hgn : get_next_node_index
      (CbtNode.mk (ps.map some ++ List.replicate (n - 1 - ps.length) none)
        (cs.map some ++ List.replicate (n - (ps.length + 1)) none) len) e.key n = j := by
    rw [get_next_node_index, CbtNode.entry_mk, locateIdx_pref, hj_def]
  have hrd : (CbtNode.mk (ps.map some ++ List.replicate (n - 1 - ps.length) none)
      (cs.map some ++ List.replicate (n - (ps.length + 1)) none) len).children.getD
        j none = some (cs.get ⟨j, hjc⟩) := by
    rw [CbtNode.children_mk, prefix_getD, List.getElem?_eq_getElem hjc,
      List.get_eq_getElem]
  have heq0 := helper_split_eq fuel n _ e j (cs.get ⟨j, hjc⟩) left right m hgn hrd hsplit
  simp only [CbtNode.entry_mk, CbtNode.children_mk, CbtNode.len_mk] at heq0
  rw [set_pref cs (n - (ps.length + 1)) j left hjc] at heq0
  have hmlow : j = 0 ∨ (ps.map CbtEntry.key).getD (j - 1) 0 < m.key := by
    by_cases h0 : j = 0
    · exact Or.inl h0
    · exact Or.inr (hmb.1 _ (by rw [childLo, if_neg h0]))
  have hmhigh : j < (ps.map CbtEntry.key).length →
      m.key < (ps.map CbtEntry.key).getD j 0 := by
    intro hlt2
    exact hmb.2 _ (by rw [childHi, if_pos hlt2])
  obtain ⟨hmloc, hmfresh⟩ := locateK_eq_of_bounds (ps.map CbtEntry.key) m.key j hsort
    (by rw [List.length_map]; omega) hmlow hmhigh
  rw [nie_eq n hn ps ((cs.set j left).map some ++
      List.replicate (n - (ps.length + 1)) none) len m (by omega)] at heq0
  rw [hmloc] at heq0
  simp only [CbtNode.entry_mk, CbtNode.children_mk, CbtNode.len_mk] at heq0
  rw [slotShiftFrom_set_pref (cs.set j left) (n - (ps.length + 1)) j right
    (by rw [List.length_set]; omega) (by omega)] at heq0
  have hmapins : (ps.take j ++ m :: ps.drop j).map CbtEntry.key =
      (ps.map CbtEntry.key).take j ++ m.key :: (ps.map CbtEntry.key).drop j := by
    simp [List.map_take, List.map_drop]
  have hps' : (ps.take j ++ m :: ps.drop j).length = ps.length + 1 :=
    insert_length ps m j hjle
  have hcs' : ((cs.set j left).take (j + 1) ++ right ::
      (cs.set j left).drop (j + 1)).length = cs.length + 1 :=
    inserted_cs_length cs j left right hjc
  have hkids3 := inserted_kids n lo hi ps cs j m left right hcs hjle hkids hlinv hrinv
  have hsort3 : List.Sorted (· < ·) ((ps.take j ++ m :: ps.drop j).map CbtEntry.key) := by
    rw [hmapins]
    have := sorted_insert_locateK (ps.map CbtEntry.key) m.key hsort hmfresh
    rw [hmloc] at this
    exact this
  have hbtwn3 : ∀ k ∈ (ps.take j ++ m :: ps.drop j).map CbtEntry.key, Btwn lo hi k := by
    intro k hk
    rw [hmapins] at hk
    rcases (mem_insert_list (ps.map CbtEntry.key) m.key j k).mp hk with rfl | h2
    · exact btwn_child lo hi (ps.map CbtEntry.key) j m.key hbtwn
        (by rw [List.length_map]; omega) hmb
    · exact hbtwn k h2
  have hKnode : ∀ k, (k ∈ ps.map CbtEntry.key ∨ k ∈ keysN (cs.get ⟨j, hjc⟩)) →
      k ∈ keysN (CbtNode.mk (ps.map some ++ List.replicate (n - 1 - ps.length) none)
        (cs.map some ++ List.replicate (n - (ps.length + 1)) none) len) := by
    intro k hk
    rw [keysN_mk, keys_entry_pref]
    rcases hk with h1 | h2
    · exact List.mem_append.mpr (Or.inl h1)
    · refine List.mem_append.mpr (Or.inr ?_)
      exact (keysL_prefix_mem cs _ k).mpr
        ⟨cs.get ⟨j, hjc⟩, by rw [List.get_eq_getElem]; exact List.getElem_mem hjc, h2⟩
  have hKcs : ∀ c ∈ cs, ∀ k ∈ keysN c,
      k ∈ keysN (CbtNode.mk (ps.map some ++ List.replicate (n - 1 - ps.length) none)
        (cs.map some ++ List.replicate (n - (ps.length + 1)) none) len) := by
    intro c hc k hk
    rw [keysN_mk, keys_entry_pref]
    exact List.mem_append.mpr (Or.inr ((keysL_prefix_mem cs _ k).mpr ⟨c, hc, hk⟩))
  have hne : e.key ≠ m.key := fun h => hfch (h ▸ hmk)
  rcases lt_or_gt_of_ne hne with hlt | hgt
  · -- the entry goes to the left of the promoted key
    have hci' : locateK ((ps.take j ++ m :: ps.drop j).map CbtEntry.key) e.key = j := by
      rw [hmapins]
      apply locateK_eq _ e.key j
      · rw [insert_length _ m.key j (by rw [List.length_map]; omega), List.length_map]
        omega
      · intro i hi
        rw [getD_insert_lt _ m.key j i hi (by rw [List.length_map]; omega)]
        exact locateK_before _ e.key i (by rw [hj_def]; exact hi)
      · intro _
        rw [getD_insert_self _ m.key j (by rw [List.length_map]; omega)]
        exact hlt
    have hgn3 : get_next_node_index
        (CbtNode.mk ((ps.take j ++ m :: ps.drop j).map some ++
            List.replicate (n - 2 - ps.length) none)
          (((cs.set j left).take (j + 1) ++ right :: (cs.set j left).drop (j + 1)).map
              some ++ List.replicate (n - (ps.length + 1) - 1) none)
          (len + 1)) e.key n = j := by
      rw [get_next_node_index, CbtNode.entry_mk, locateIdx_pref, hci']
    have hrd3 : (CbtNode.mk ((ps.take j ++ m :: ps.drop j).map some ++
            List.replicate (n - 2 - ps.length) none)
          (((cs.set j left).take (j + 1) ++ right :: (cs.set j left).drop (j + 1)).map
              some ++ List.replicate (n - (ps.length + 1) - 1) none)
          (len + 1)).children.getD j none = some left := by
      rw [CbtNode.children_mk, prefix_getD, inserted_cs_getElem? cs j left right hjc j,
        if_neg (Nat.lt_irrefl j), if_pos rfl]
    obtain ⟨c', hrec, hc'inv, hc'h, hc'k⟩ := IH (childLo lo (ps.map CbtEntry.key) j)
      (some m.key) left hlinv (by rw [hll]; omega)
      ⟨hbch.1, fun b hb => by injection hb with hb2; omega⟩
      (fun hmem => hfch (hlk e.key hmem)) (by omega)
    have heqA := helperAfterSplit_updated fuel n e _ left c' j hgn3 hrd3 hrec
    rw [heqA] at heq0
    simp only [CbtNode.entry_mk, CbtNode.children_mk, CbtNode.len_mk] at heq0
    rw [set_pref ((cs.set j left).take (j + 1) ++ right ::
      (cs.set j left).drop (j + 1)) (n - (ps.length + 1) - 1) j c'
      (by rw [hcs']; omega)] at heq0
    have hc'invT : NodeInv n
        (childLo lo ((ps.take j ++ m :: ps.drop j).map CbtEntry.key) j)
        (childHi hi ((ps.take j ++ m :: ps.drop j).map CbtEntry.key) j) c' := by
      rw [hmapins, childLo_insert_lt lo _ m.key j j (Nat.le_refl j)
        (by rw [List.length_map]; omega),
        childHi_insert_self hi _ m.key j (by rw [List.length_map]; omega)]
      exact hc'inv
    obtain ⟨hinvF, hhF, hkF⟩ := rebuild_facts n lo hi (ps.take j ++ m :: ps.drop j)
      ((cs.set j left).take (j + 1) ++ right :: (cs.set j left).drop (j + 1)) (len + 1)
      j c' (by rw [hps']; omega) (by omega) (by rw [hcs', hps']; omega) hsort3 hbtwn3
      hkids3 (by rw [hcs']; omega) hc'invT
      (heightL (cs.map some ++ List.replicate (n - (ps.length + 1)) none))
      (fun c hc => by
        rcases inserted_cs_mem cs j left right c hc with h1 | h1 | h1
        · exact heightL_prefix_ge cs _ c h1
        · exact h1 ▸ (hlh.trans hch_h)
        · exact h1 ▸ (hrh.trans hch_h))
      (hc'h.trans (hlh.trans hch_h))
      (fun k => k = e.key ∨ k ∈ keysN
        (CbtNode.mk (ps.map some ++ List.replicate (n - 1 - ps.length) none)
          (cs.map some ++ List.replicate (n - (ps.length + 1)) none) len))
      (fun k hk => by
        rw [hmapins] at hk
        rcases (mem_insert_list _ m.key j k).mp hk with rfl | h2
        · exact Or.inr (hKnode m.key (Or.inr hmk))
        · exact Or.inr (hKnode k (Or.inl h2)))
      (fun c hc k hk => by
        rcases inserted_cs_mem cs j left right c hc with h1 | h1 | h1
        · exact Or.inr (hKcs c h1 k hk)
        · exact Or.inr (hKnode k (Or.inr (hlk k (h1 ▸ hk))))
        · exact Or.inr (hKnode k (Or.inr (hrk k (h1 ▸ hk)))))
      (fun k hk => by
        rcases hc'k k hk with h1 | h1
        · exact Or.inl h1
        · exact Or.inr (hKnode k (Or.inr (hlk k h1))))
    rw [show n - 2 - ps.length = n - 1 - (ps.take j ++ m :: ps.drop j).length by
        rw [hps']; omega,
      show n - (ps.length + 1) - 1 =
          n - ((ps.take j ++ m :: ps.drop j).length + 1) by rw [hps']; omega] at heq0
    refine ⟨_, heq0, hinvF, ?_, hkF⟩
    rw [heightN_mk] at hhF
    rw [heightN_mk, heightN_mk]
    exact hhF
  · -- the entry goes to the right of the promoted key
    have hci' : locateK ((ps.take j ++ m :: ps.drop j).map CbtEntry.key) e.key
        = j + 1 := by
      rw [hmapins]
      apply locateK_eq _ e.key (j + 1)
      · rw [insert_length _ m.key j (by rw [List.length_map]; omega), List.length_map]
        omega
      · intro i hi
        by_cases h2 : i < j
        · rw [getD_insert_lt _ m.key j i h2 (by rw [List.length_map]; omega)]
          exact locateK_before _ e.key i (by rw [hj_def]; exact h2)
        · have h3 : i = j := by omega
          subst h3
          rw [getD_insert_self _ m.key i (by rw [List.length_map]; omega)]
          omega
      · intro hlen3
        rw [insert_length _ m.key j (by rw [List.length_map]; omega),
          List.length_map] at hlen3
        rw [getD_insert_gt _ m.key j (j + 1) (by omega) (by rw [List.length_map]; omega)]
        simp only [Nat.add_sub_cancel]
        have hafter := locateK_after (ps.map CbtEntry.key) e.key
          (by rw [hj_def, List.length_map]; omega)
        rw [hj_def] at hafter
        exact hafter
    have hgn3 : get_next_node_index
        (CbtNode.mk ((ps.take j ++ m :: ps.drop j).map some ++
            List.replicate (n - 2 - ps.length) none)
          (((cs.set j left).take (j + 1) ++ right :: (cs.set j left).drop (j + 1)).map
              some ++ List.replicate (n - (ps.length + 1) - 1) none)
          (len + 1)) e.key n = j + 1 := by
      rw [get_next_node_index, CbtNode.entry_mk, locateIdx_pref, hci']
    have hrd3 : (CbtNode.mk ((ps.take j ++ m :: ps.drop j).map some ++
            List.replicate (n - 2 - ps.length) none)
          (((cs.set j left).take (j + 1) ++ right :: (cs.set j left).drop (j + 1)).map
              some ++ List.replicate (n - (ps.length + 1) - 1) none)
          (len + 1)).children.getD (j + 1) none = some right := by
      rw [CbtNode.children_mk, prefix_getD,
        inserted_cs_getElem? cs j left right hjc (j + 1),
        if_neg (show ¬ j + 1 < j by omega), if_neg (show ¬ j + 1 = j by omega),
        if_pos rfl]
    obtain ⟨c', hrec, hc'inv, hc'h, hc'k⟩ := IH (some m.key)
      (childHi hi (ps.map CbtEntry.key) j) right hrinv (by rw [hrl]; omega)
      ⟨fun a ha => by injection ha with ha2; omega, hbch.2⟩
      (fun hmem => hfch (hrk e.key hmem)) (by omega)
    have heqA := helperAfterSplit_updated fuel n e _ right c' (j + 1) hgn3 hrd3 hrec
    rw [heqA] at heq0
    simp only [CbtNode.entry_mk, CbtNode.children_mk, CbtNode.len_mk] at heq0
    rw [set_pref ((cs.set j left).take (j + 1) ++ right ::
      (cs.set j left).drop (j + 1)) (n - (ps.length + 1) - 1) (j + 1) c'
      (by rw [hcs']; omega)] at heq0
    have hc'invT : NodeInv n
        (childLo lo ((ps.take j ++ m :: ps.drop j).map CbtEntry.key) (j + 1))
        (childHi hi ((ps.take j ++ m :: ps.drop j).map CbtEntry.key) (j + 1)) c' := by
      rw [hmapins, childLo_insert_succ lo _ m.key j (by rw [List.length_map]; omega),
        childHi_insert_succ hi _ m.key j (by rw [List.length_map]; omega)]
      exact hc'inv
    obtain ⟨hinvF, hhF, hkF⟩ := rebuild_facts n lo hi (ps.take j ++ m :: ps.drop j)
      ((cs.set j left).take (j + 1) ++ right :: (cs.set j left).drop (j + 1)) (len + 1)
      (j + 1) c' (by rw [hps']; omega) (by omega) (by rw [hcs', hps']; omega) hsort3
      hbtwn3 hkids3 (by rw [hcs']; omega) hc'invT
      (heightL (cs.map some ++ List.replicate (n - (ps.length + 1)) none))
      (fun c hc => by
        rcases inserted_cs_mem cs j left right c hc with h1 | h1 | h1
        · exact heightL_prefix_ge cs _ c h1
        · exact h1 ▸ (hlh.trans hch_h)
        · exact h1 ▸ (hrh.trans hch_h))
      (hc'h.trans (hrh.trans hch_h))
      (fun k => k = e.key ∨ k ∈ keysN
        (CbtNode.mk (ps.map some ++ List.replicate (n - 1 - ps.length) none)
          (cs.map some ++ List.replicate (n - (ps.length + 1)) none) len))
      (fun k hk => by
        rw [hmapins] at hk
        rcases (mem_insert_list _ m.key j k).mp hk with rfl | h2
        · exact Or.inr (hKnode m.key (Or.inr hmk))
        · exact Or.inr (hKnode k (Or.inl h2)))
      (fun c hc k hk => by
        rcases inserted_cs_mem cs j left right c hc with h1 | h1 | h1
        · exact Or.inr (hKcs c h1 k hk)
        · exact Or.inr (hKnode k (Or.inr (hlk k (h1 ▸ hk))))
        · exact Or.inr (hKnode k (Or.inr (hrk k (h1 ▸ hk)))))
      (fun k hk => by
        rcases hc'k k hk with h1 | h1
        · exact Or.inl h1
        · exact Or.inr (hKnode k (Or.inr (hrk k h1))))
    rw [show n - 2 - ps.length = n - 1 - (ps.take j ++ m :: ps.drop j).length by
        rw [hps']; omega,
      show n - (ps.length + 1) - 1 =
          n - ((ps.take j ++ m :: ps.drop j).length + 1) by rw [hps']; omega] at heq0
    refine ⟨_, heq0, hinvF, ?_, hkF⟩
    rw [heightN_mk] at hhF
    rw [heightN_mk, heightN_mk]
    exact hhF

theorem descend_internal (fuel n : Nat) (e : CbtEntry) (lo hi : Option Int)
    (ps : List CbtEntry) (cs : List CbtNode) (len : Nat)
    (hn : 3 ≤ n) (hp : ps.length ≤ len) (hlen : len ≤ n - 1) (hlen2 : len ≤ n - 2)
    (hcs : cs.length = ps.length + 1)
    (hsort : List.Sorted (· < ·) (ps.map CbtEntry.key))
    (hbtwn : ∀ k ∈ ps.map CbtEntry.key, Btwn lo hi k)
    (hkids : ∀ i (h : i < cs.length),
      NodeInv n (childLo lo (ps.map CbtEntry.key) i)
        (childHi hi (ps.map CbtEntry.key) i) (cs.get ⟨i, h⟩))
    (hbe : Btwn lo hi e.key)
    (hfresh : e.key ∉ keysN
      (.mk (ps.map some ++ List.replicate (n - 1 - ps.length) none)
        (cs.map some ++ List.replicate (n - (ps.length + 1)) none) len))
    (hfuel : heightN (.mk (ps.map some ++ List.replicate (n - 1 - ps.length) none)
      (cs.map some ++ List.replicate (n - (ps.length + 1)) none) len) ≤ fuel + 1)
    (IH : ∀ (lo hi : Option Int) (x : CbtNode), NodeInv n lo hi x → x.len ≤ n - 2 →
      Btwn lo hi e.key → e.key ∉ keysN x → heightN x ≤ fuel →
      ∃ x', bt_insert_helper fuel n (some x) false e = some (.updated x') ∧
        NodeInv n lo hi x' ∧ heightN x' ≤ heightN x ∧
        (∀ k ∈ keysN x', k = e.key ∨ k ∈ keysN x)) :
    ∃ node', bt_insert_helper (fuel + 1) n
        (some (.mk (ps.map some ++ List.replicate (n - 1 - ps.length) none)
          (cs.map some ++ List.replicate (n - (ps.length + 1)) none) len)) false e =
        some (.updated node') ∧
      NodeInv n lo hi node' ∧
      heightN node' ≤
        heightN (.mk (ps.map some ++ List.replicate (n - 1 - ps.length) none)
          (cs.map some ++ List.replicate (n - (ps.length + 1)) none) len) ∧
      (∀ k ∈ keysN node', k = e.key ∨
        k ∈ keysN (.mk (ps.map some ++ List.replicate (n - 1 - ps.length) none)
          (cs.map some ++ List.replicate (n - (ps.length + 1)) none) len)) := by
  have hfks : e.key ∉ ps.map CbtEntry.key := by
    intro h
    apply hfresh
    rw [keysN_mk, keys_entry_pref]
    exact List.mem_append.mpr (Or.inl h)
  have hfuelL : heightL (cs.map some ++ List.replicate (n - (ps.length + 1)) none)
      ≤ fuel := by
    rw [heightN_mk] at hfuel
    omega
  have hjle : locateK (ps.map CbtEntry.key) e.key ≤ ps.length := by
    have := locateK_le (ps.map CbtEntry.key) e.key
    rw [List.length_map] at this
    exact this
  have hjc : locateK (ps.map CbtEntry.key) e.key < cs.length := by omega
  have hgn : get_next_node_index
      (CbtNode.mk (ps.map some ++ List.replicate (n - 1 - ps.length) none)
        (cs.map some ++ List.replicate (n - (ps.length + 1)) none) len) e.key n =
      locateK (ps.map CbtEntry.key) e.key := by
    rw [get_next_node_index, CbtNode.entry_mk, locateIdx_pref]
  have hrd : (CbtNode.mk (ps.map some ++ List.replicate (n - 1 - ps.length) none)
      (cs.map some ++ List.replicate (n - (ps.length + 1)) none) len).children.getD
        (locateK (ps.map CbtEntry.key) e.key) none =
      some (cs.get ⟨locateK (ps.map CbtEntry.key) e.key, hjc⟩) := by
    rw [CbtNode.children_mk, prefix_getD, List.getElem?_eq_getElem hjc,
      List.get_eq_getElem]
  have hcinv := hkids (locateK (ps.map CbtEntry.key) e.key) hjc
  have hchmem : cs.get ⟨locateK (ps.map CbtEntry.key) e.key, hjc⟩ ∈ cs := by
    rw [List.get_eq_getElem]
    exact List.getElem_mem hjc
  have hch_h : heightN (cs.get ⟨locateK (ps.map CbtEntry.key) e.key, hjc⟩) ≤
      heightL (cs.map some ++ List.replicate (n - (ps.length + 1)) none) :=
    heightL_prefix_ge cs _ _ hchmem
  have hbch := btwn_at_branch lo hi (ps.map CbtEntry.key) e.key hbe hfks
  have hfch : e.key ∉ keysN (cs.get ⟨locateK (ps.map CbtEntry.key) e.key, hjc⟩) := by
    intro h
    apply hfresh
    rw [keysN_mk, keys_entry_pref]
    exact List.mem_append.mpr (Or.inr ((keysL_prefix_mem cs _ e.key).mpr
      ⟨_, hchmem, h⟩))
  have hKcs : ∀ c ∈ cs, ∀ k ∈ keysN c,
      k ∈ keysN (CbtNode.mk (ps.map some ++ List.replicate (n - 1 - ps.length) none)
        (cs.map some ++ List.replicate (n - (ps.length + 1)) none) len) := by
    intro c hc k hk
    rw [keysN_mk, keys_entry_pref]
    exact List.mem_append.mpr (Or.inr ((keysL_prefix_mem cs _ k).mpr ⟨c, hc, hk⟩))
  by_cases hfull : (cs.get ⟨locateK (ps.map CbtEntry.key) e.key, hjc⟩).len = n - 1
  · rcases split_inv n hn _ _ _ hcinv hfull with
      ⟨m, left, right, hsplit, hlinv, hrinv, hmb, hll, hrl, hlh, hrh, hlk, hrk, hmk⟩ |
      ⟨left, right, hsplit, hlinv, hll, hlkeys, hlh⟩
    · exact descend_attach fuel n e lo hi ps cs len
        (locateK (ps.map CbtEntry.key) e.key) m left right hn hp hlen2 hcs hsort
        hbtwn hkids hbe rfl hjc hsplit hlinv hrinv hmb hll hrl hlh hrh hlk hrk hmk
        hfks hfch hbch hch_h hfuelL IH
    · -- phantom split: a full-by-count child with an empty median slot
      obtain ⟨c', hrec, hc'inv, hc'h, hc'k⟩ := IH
        (childLo lo (ps.map CbtEntry.key) (locateK (ps.map CbtEntry.key) e.key))
        (childHi hi (ps.map CbtEntry.key) (locateK (ps.map CbtEntry.key) e.key))
        left hlinv (by rw [hll]; omega) hbch
        (by rw [hlkeys]; exact hfch) (by omega)
      have heq := helper_phantom_eq fuel n _ e (locateK (ps.map CbtEntry.key) e.key)
        (cs.get ⟨locateK (ps.map CbtEntry.key) e.key, hjc⟩) left right c' hgn hrd
        hsplit hrec
      simp only [CbtNode.entry_mk, CbtNode.children_mk, CbtNode.len_mk] at heq
      rw [set_pref cs (n - (ps.length + 1)) (locateK (ps.map CbtEntry.key) e.key)
        c' hjc] at heq
      obtain ⟨hinvF, hhF, hkF⟩ := rebuild_facts n lo hi ps cs len
        (locateK (ps.map CbtEntry.key) e.key) c' hp hlen hcs hsort hbtwn hkids hjc
        hc'inv (heightL (cs.map some ++ List.replicate (n - (ps.length + 1)) none))
        (fun c hc => heightL_prefix_ge cs _ c hc)
        (hc'h.trans ((le_of_eq hlh).trans hch_h))
        (fun k => k = e.key ∨ k ∈ keysN
          (CbtNode.mk (ps.map some ++ List.replicate (n - 1 - ps.length) none)
            (cs.map some ++ List.replicate (n - (ps.length + 1)) none) len))
        (fun k hk => Or.inr (by
          rw [keysN_mk, keys_entry_pref]
          exact List.mem_append.mpr (Or.inl hk)))
        (fun c hc k hk => Or.inr (hKcs c hc k hk))
        (fun k hk => by
          rcases hc'k k hk with h1 | h1
          · exact Or.inl h1
          · exact Or.inr (hKcs _ hchmem k (hlkeys ▸ h1)))
      refine ⟨_, heq, hinvF, ?_, hkF⟩
      rw [heightN_mk] at hhF
      rw [heightN_mk, heightN_mk]
      exact hhF
  · -- child not full: plain descent
    have hsplitn : bt_split_child
        (cs.get ⟨locateK (ps.map CbtEntry.key) e.key, hjc⟩) n = none :=
      split_not_full _ n hfull
    obtain ⟨c', hrec, hc'inv, hc'h, hc'k⟩ := IH
      (childLo lo (ps.map CbtEntry.key) (locateK (ps.map CbtEntry.key) e.key))
      (childHi hi (ps.map CbtEntry.key) (locateK (ps.map CbtEntry.key) e.key))
      (cs.get ⟨locateK (ps.map CbtEntry.key) e.key, hjc⟩) hcinv
      (by have := nodeinv_len hcinv; omega) hbch hfch (by omega)
    have heq := helper_notfull_eq fuel n _ e (locateK (ps.map CbtEntry.key) e.key)
      (cs.get ⟨locateK (ps.map CbtEntry.key) e.key, hjc⟩) c' hgn hrd hsplitn hrec
    simp only [CbtNode.entry_mk, CbtNode.children_mk, CbtNode.len_mk] at heq
    rw [set_pref cs (n - (ps.length + 1)) (locateK (ps.map CbtEntry.key) e.key)
      c' hjc] at heq
    obtain ⟨hinvF, hhF, hkF⟩ := rebuild_facts n lo hi ps cs len
      (locateK (ps.map CbtEntry.key) e.key) c' hp hlen hcs hsort hbtwn hkids hjc
      hc'inv (heightL (cs.map some ++ List.replicate (n - (ps.length + 1)) none))
      (fun c hc => heightL_prefix_ge cs _ c hc) (hc'h.trans hch_h)
      (fun k => k = e.key ∨ k ∈ keysN
        (CbtNode.mk (ps.map some ++ List.replicate (n - 1 - ps.length) none)
          (cs.map some ++ List.replicate (n - (ps.length + 1)) none) len))
      (fun k hk => Or.inr (by
        rw [keysN_mk, keys_entry_pref]
        exact List.mem_append.mpr (Or.inl hk)))
      (fun c hc k hk => Or.inr (hKcs c hc k hk))
      (fun k hk => by
        rcases hc'k k hk with h1 | h1
        · exact Or.inl h1
        · exact Or.inr (hKcs _ hchmem k h1))
    refine ⟨_, heq, hinvF, ?_, hkF⟩
    rw [heightN_mk] at hhF
    rw [heightN_mk, heightN_mk]
    exact hhF

/-- Main preservation lemma for the descent: on a subtree satisfying the
node invariant whose count field leaves room for one more entry, a
non-root call of `bt_insert_helper` with a fresh in-range key succeeds,
mutates the subtree in place, preserves the invariant and the height bound,
and adds exactly the new key. -/
theorem descend_ok (fuel : Nat) : ∀ (n : Nat) (e : CbtEntry) (lo hi : Option Int)
    (node : CbtNode), 3 ≤ n → NodeInv n lo hi node → node.len ≤ n - 2 →
    Btwn lo hi e.key → e.key ∉ keysN node → heightN node ≤ fuel →
    ∃ node', bt_insert_helper fuel n (some node) false e = some (.updated node') ∧
      NodeInv n lo hi node' ∧ heightN node' ≤ heightN node ∧
      (∀ k ∈ keysN node', k = e.key ∨ k ∈ keysN node) := by
  induction fuel with
  | zero =>
      intro n e lo hi node _ _ _ _ _ hfuel
      have := heightN_pos node
      omega
  | succ fuel ih =>
      intro n e lo hi node hn hinv hlen2 hbe hfresh hfuel
      cases hinv with
      | leaf lo hi ps len hp hlen hsort hbtwn =>
          rw [CbtNode.len_mk] at hlen2
          rw [keysN_mk, keys_entry_pref, keysL_replicate, List.append_nil] at hfresh
          have hjle : locateK (ps.map CbtEntry.key) e.key ≤ ps.length := by
            have := locateK_le (ps.map CbtEntry.key) e.key
            rw [List.length_map] at this
            exact this
          have hgn : get_next_node_index
              (CbtNode.mk (ps.map some ++ List.replicate (n - 1 - ps.length) none)
                (List.replicate n none) len) e.key n =
              locateK (ps.map CbtEntry.key) e.key := by
            rw [get_next_node_index, CbtNode.entry_mk, locateIdx_pref]
          have hrd : (CbtNode.mk (ps.map some ++
              List.replicate (n - 1 - ps.length) none)
              (List.replicate n none) len).children.getD
                (locateK (ps.map CbtEntry.key) e.key) none = none := by
            rw [CbtNode.children_mk, getD_replicate]
          have heq := helper_leaf_eq fuel n _ e (locateK (ps.map CbtEntry.key) e.key)
            hgn hrd
          rw [nie_eq n hn ps (List.replicate n none) len e (by omega)] at heq
          simp only [slotShiftFrom_replicate] at heq
          have hmapins : (ps.take (locateK (ps.map CbtEntry.key) e.key) ++
              e :: ps.drop (locateK (ps.map CbtEntry.key) e.key)).map CbtEntry.key =
              (ps.map CbtEntry.key).take (locateK (ps.map CbtEntry.key) e.key) ++
              e.key :: (ps.map CbtEntry.key).drop
                (locateK (ps.map CbtEntry.key) e.key) := by
            simp [List.map_take, List.map_drop]
          have hps' : (ps.take (locateK (ps.map CbtEntry.key) e.key) ++
              e :: ps.drop (locateK (ps.map CbtEntry.key) e.key)).length =
              ps.length + 1 := insert_length ps e _ hjle
          refine ⟨_, heq, ?_, ?_, ?_⟩
          · rw [show n - 2 - ps.length =
              n - 1 - (ps.take (locateK (ps.map CbtEntry.key) e.key) ++
                e :: ps.drop (locateK (ps.map CbtEntry.key) e.key)).length by
                rw [hps']; omega]
            refine NodeInv.leaf lo hi _ (len + 1) (by rw [hps']; omega) (by omega)
              ?_ ?_
            · rw [hmapins]
              exact sorted_insert_locateK (ps.map CbtEntry.key) e.key hsort hfresh
            · intro k hk
              rw [hmapins] at hk
              rcases (mem_insert_list (ps.map CbtEntry.key) e.key _ k).mp hk with
                rfl | h2
              · exact hbe
              · exact hbtwn k h2
          · rw [heightN_mk, heightN_mk]
          · intro k hk
            rw [keysN_mk, keys_entry_pref, keysL_replicate, List.append_nil,
              hmapins] at hk
            rcases (mem_insert_list (ps.map CbtEntry.key) e.key _ k).mp hk with
              rfl | h2
            · exact Or.inl rfl
            · refine Or.inr ?_
              rw [keysN_mk, keys_entry_pref, keysL_replicate, List.append_nil]
              exact h2
      | internal lo hi ps cs len hp hlen hcs hsort hbtwn hkids =>
          rw [CbtNode.len_mk] at hlen2
          exact descend_internal fuel n e lo hi ps cs len hn hp hlen hlen2 hcs hsort
            hbtwn hkids hbe hfresh hfuel
            (fun lo hi x hinv hl hb hf hh => ih n e lo hi x hn hinv hl hb hf hh)

theorem split_full_root_none (root : CbtNode) (n : Nat)
    (h : bt_split_child root n = none) : split_full_root root n = (root, false) := by
  simp only [split_full_root, h]

theorem split_full_root_phantom (root : CbtNode) (n : Nat) (left right : CbtNode)
    (h : bt_split_child root n = some (none, left, right)) :
    split_full_root root n = (left, false) := by
  simp only [split_full_root, h]

theorem split_full_root_real (root : CbtNode) (n : Nat) (m : CbtEntry)
    (left right : CbtNode) (h : bt_split_child root n = some (some m, left, right)) :
    split_full_root root n =
      (⟨(node_insert_entry (bt_create_node n) m true n).1.entry,
        ((node_insert_entry (bt_create_node n) m true n).1.children.set 0
          (some left)).set 1 (some right),
        (node_insert_entry (bt_create_node n) m true n).1.len⟩, true) := by
  simp only [split_full_root, h]

theorem helper_root_restart (fuel n : Nat) (root nr : CbtNode) (e : CbtEntry)
    (x : CbtNode)
    (h : split_full_root root n = (nr, true))
    (hrec : bt_insert_helper fuel n (some nr) true e = some (.updated x)) :
    bt_insert_helper (fuel + 1) n (some root) true e = some (.newRoot x false) := by
  simp only [bt_insert_helper, h, hrec, eq_self_iff_true, and_self, if_true]

theorem helper_root_nofsplit (fuel n : Nat) (root root' : CbtNode) (e : CbtEntry)
    (h : split_full_root root n = (root', false)) :
    bt_insert_helper (fuel + 1) n (some root) true e =
      bt_insert_helper (fuel + 1) n (some root') false e := by
  conv_rhs => rw [helper_descend_eq]
  simp only [bt_insert_helper, h, eq_self_iff_true, and_self, if_true, true_and,
    Bool.false_eq_true, false_and, if_false, and_false]
  rfl

theorem locateIdx_replicate (k : Nat) (key : Int) :
    locateIdx (List.replicate k none) key = 0 := by
  cases k with
  | zero => rfl
  | succ k => rw [List.replicate_succ, locateIdx_cons_none]

theorem nie_empty (n : Nat) (hn : 3 ≤ n) (m : CbtEntry) :
    node_insert_entry (bt_create_node n) m true n =
      (.mk (some m :: List.replicate (n - 2) none) (List.replicate n none) 1, 1) := by
  have h1 : slotInsertAt (List.replicate (n - 1) (none : Option CbtEntry)) 0 (some m) =
      some m :: List.replicate (n - 2) none := by
    rw [slotInsertAt]
    simp only [List.take_zero, List.drop_zero, List.nil_append, List.length_replicate]
    rw [show n - 1 = (n - 2) + 1 by omega, List.take_succ_cons, List.take_replicate,
      Nat.min_eq_left (Nat.le_succ _)]
  rw [node_insert_entry]
  simp only [bt_create_node, CbtNode.entry_mk, CbtNode.children_mk, CbtNode.len_mk,
    locateIdx_replicate, slotShiftFrom_replicate, h1, Nat.zero_add, ite_self]

theorem set01_replicate (n : Nat) (hn : 2 ≤ n) (a b : Option CbtNode) :
    ((List.replicate n (none : Option CbtNode)).set 0 a).set 1 b =
      a :: b :: List.replicate (n - 2) none := by
  obtain ⟨k, rfl⟩ : ∃ k, n = k + 2 := ⟨n - 2, by omega⟩
  rw [show k + 2 = (k + 1) + 1 from rfl, List.replicate_succ, List.replicate_succ]
  simp [List.set_cons_zero, List.set_cons_succ]

theorem fresh_root_inv (n : Nat) (hn : 3 ≤ n) (m : CbtEntry) (left right : CbtNode)
    (hlinv : NodeInv n none (some m.key) left)
    (hrinv : NodeInv n (some m.key) none right) :
    NodeInv n none none (.mk (some m :: List.replicate (n - 2) none)
      (some left :: some right :: List.replicate (n - 2) none) 1) := by
  have h1 : (some m :: List.replicate (n - 2) (none : Option CbtEntry)) =
      ([m] : List CbtEntry).map some ++
        List.replicate (n - 1 - ([m] : List CbtEntry).length) none := by
    simp only [List.map_cons, List.map_nil, List.cons_append, List.nil_append,
      List.length_cons, List.length_nil]
    congr 2
  have h2 : (some left :: some right ::
      List.replicate (n - 2) (none : Option CbtNode)) =
      ([left, right] : List CbtNode).map some ++
        List.replicate (n - (([m] : List CbtEntry).length + 1)) none := by
    simp only [List.map_cons, List.map_nil, List.cons_append, List.nil_append,
      List.length_cons, List.length_nil]
  rw [h1, h2]
  refine NodeInv.internal none none [m] [left, right] 1 (by simp) (by omega) (by simp)
    (by simp) ?_ ?_
  · intro k _
    exact ⟨fun a ha => Option.noConfusion ha, fun b hb => Option.noConfusion hb⟩
  · intro i h
    simp only [List.length_cons, List.length_nil] at h
    rcases i with _ | _ | i
    · simpa [childLo, childHi] using hlinv
    · simpa [childLo, childHi] using hrinv
    · omega

theorem fresh_root_height_le (n : Nat) (m : CbtEntry) (left right : CbtNode)
    (X : Nat) (hl : heightN left ≤ X) (hr : heightN right ≤ X) :
    heightN (.mk (some m :: List.replicate (n - 2) none)
      (some left :: some right :: List.replicate (n - 2) none) 1) ≤ X + 1 := by
  rw [heightN_mk, heightL_cons_some, heightL_cons_some, heightL_replicate]
  exact Nat.succ_le_succ
    (Nat.max_le.mpr ⟨hl, Nat.max_le.mpr ⟨hr, Nat.zero_le X⟩⟩)

theorem fresh_root_keys (n : Nat) (m : CbtEntry) (left right : CbtNode) (k : Int) :
    k ∈ keysN (.mk (some m :: List.replicate (n - 2) none)
      (some left :: some right :: List.replicate (n - 2) none) 1) ↔
      k = m.key ∨ k ∈ keysN left ∨ k ∈ keysN right := by
  rw [keysN_mk, keysL_cons_some, keysL_cons_some, keysL_replicate, List.append_nil]
  simp [List.filterMap_cons, List.filterMap_replicate, or_assoc]

theorem fresh_root_len (n : Nat) (m : CbtEntry) (left right : CbtNode) :
    (CbtNode.mk (some m :: List.replicate (n - 2) none)
      (some left :: some right :: List.replicate (n - 2) none) 1).len = 1 := rfl

theorem split_root_not_full_again (root : CbtNode) (n : Nat) (nr : CbtNode)
    (hn : 3 ≤ n) (h : split_full_root root n = (nr, true)) :
    is_full_node nr n = false := by
  cases hsp : bt_split_child root n with
  | none =>
      rw [split_full_root_none root n hsp] at h
      simp at h
  | some p =>
      obtain ⟨mo, l, r⟩ := p
      cases mo with
      | none =>
          rw [split_full_root_phantom root n l r hsp] at h
          simp at h
      | some m =>
          rw [split_full_root_real root n m l r hsp] at h
          have h1 : nr = ⟨(node_insert_entry (bt_create_node n) m true n).1.entry,
              ((node_insert_entry (bt_create_node n) m true n).1.children.set 0
                (some l)).set 1 (some r),
              (node_insert_entry (bt_create_node n) m true n).1.len⟩ := by
            have := congrArg Prod.fst h
            exact this.symm
          rw [h1, is_full_node, nie_empty n hn m]
          simp only [CbtNode.len_mk]
          rw [beq_eq_false_iff_ne]
          omega

theorem btwn_none (k : Int) : Btwn none none k :=
  ⟨fun _ ha => Option.noConfusion ha, fun _ hb => Option.noConfusion hb⟩

theorem root_call_ok (n : Nat) (e : CbtEntry) (r : CbtNode) (fuel : Nat) (hn : 3 ≤ n)
    (hinv : NodeInv n none none r) (hfresh : e.key ∉ keysN r)
    (hfuel : heightN r + 1 ≤ fuel) :
    ∃ x, (bt_insert_helper (fuel + 1) n (some r) true e = some (.updated x) ∨
          bt_insert_helper (fuel + 1) n (some r) true e = some (.newRoot x false)) ∧
      NodeInv n none none x ∧
      (∀ k ∈ keysN x, k = e.key ∨ k ∈ keysN r) ∧
      heightN x ≤ heightN r + 1 ∧
      (r.len ≠ n - 1 →
        bt_insert_helper (fuel + 1) n (some r) true e = some (.updated x) ∧
        heightN x ≤ heightN r) := by
  by_cases hfull : r.len = n - 1
  · rcases split_inv n hn none none r hinv hfull with
      ⟨m, left, right, hsplit, hlinv, hrinv, _, hll, hrl, hlh, hrh, hlk, hrk, hmk⟩ |
      ⟨left, right, hsplit, hlinv, hll, hlkeys, hlh⟩
    · -- the root splits for real and a fresh root is installed
      have hsfr := split_full_root_real r n m left right hsplit
      rw [nie_empty n hn m] at hsfr
      simp only [CbtNode.entry_mk, CbtNode.children_mk, CbtNode.len_mk] at hsfr
      rw [set01_replicate n (by omega) (some left) (some right)] at hsfr
      have hnrinv := fresh_root_inv n hn m left right hlinv hrinv
      obtain ⟨f2, rfl⟩ : ∃ f2, fuel = f2 + 1 :=
        ⟨fuel - 1, by have := heightN_pos r; omega⟩
      have hnof := helper_root_nofsplit f2 n
        (CbtNode.mk (some m :: List.replicate (n - 2) none)
          (some left :: some right :: List.replicate (n - 2) none) 1)
        (CbtNode.mk (some m :: List.replicate (n - 2) none)
          (some left :: some right :: List.replicate (n - 2) none) 1) e
        (split_full_root_none _ n (split_not_full _ n (by rw [fresh_root_len]; omega)))
      obtain ⟨x, hrec, hxinv, hxh, hxk⟩ := descend_ok (f2 + 1) n e none none
        (CbtNode.mk (some m :: List.replicate (n - 2) none)
          (some left :: some right :: List.replicate (n - 2) none) 1)
        hn hnrinv (by rw [fresh_root_len]; omega) (btwn_none e.key)
        (fun h => by
          rcases (fresh_root_keys n m left right e.key).mp h with h2 | h2 | h2
          · exact hfresh (by rw [h2]; exact hmk)
          · exact hfresh (hlk _ h2)
          · exact hfresh (hrk _ h2))
        (by
          have := fresh_root_height_le n m left right (heightN r) hlh hrh
          omega)
      have hrestart := helper_root_restart (f2 + 1) n r _ e x hsfr
        (by rw [hnof]; exact hrec)
      refine ⟨x, Or.inr hrestart, hxinv, ?_, ?_, fun hne => absurd hfull hne⟩
      · intro k hk
        rcases hxk k hk with h1 | h1
        · exact Or.inl h1
        · rcases (fresh_root_keys n m left right k).mp h1 with h2 | h2 | h2
          · exact Or.inr (by rw [h2]; exact hmk)
          · exact Or.inr (hlk k h2)
          · exact Or.inr (hrk k h2)
      · have := fresh_root_height_le n m left right (heightN r) hlh hrh
        omega
    · -- full-by-count root with empty median slot: mutated in place, no split
      have hsfr := split_full_root_phantom r n left right hsplit
      have hnof := helper_root_nofsplit fuel n r left e hsfr
      obtain ⟨x, hrec, hxinv, hxh, hxk⟩ := descend_ok (fuel + 1) n e none none left
        hn hlinv (by rw [hll]; omega) (btwn_none e.key)
        (by rw [hlkeys]; exact hfresh) (by omega)
      refine ⟨x, Or.inl (by rw [hnof]; exact hrec), hxinv, ?_, by omega,
        fun hne => absurd hfull hne⟩
      intro k hk
      rcases hxk k hk with h1 | h1
      · exact Or.inl h1
      · exact Or.inr (hlkeys ▸ h1)
  · -- the root is not full: no split, plain in-place insertion
    have hsfr := split_full_root_none r n (split_not_full r n hfull)
    have hnof := helper_root_nofsplit fuel n r r e hsfr
    obtain ⟨x, hrec, hxinv, hxh, hxk⟩ := descend_ok (fuel + 1) n e none none r hn
      hinv (by have := nodeinv_len hinv; omega) (btwn_none e.key) hfresh (by omega)
    exact ⟨x, Or.inl (by rw [hnof]; exact hrec), hxinv, hxk, by omega,
      fun _ => ⟨by rw [hnof]; exact hrec, hxh⟩⟩

theorem cbt_insert_empty (t : Cranbtree) (e : CbtEntry) (hroot : t.root = none)
    (hn : 3 ≤ t.n) :
    cbt_insert t e = { t with
      root := some (.mk (some e :: List.replicate (t.n - 2) none)
        (List.replicate t.n none) 1),
      max_key := e.key, min_key := e.key } := by
  have hf : insertFuel t = 3 := by
    simp only [insertFuel, treeHeight, hroot]
  simp only [cbt_insert, hf, hroot, bt_insert_helper, nie_empty t.n hn e,
    eq_self_iff_true, if_true]

theorem cbt_insert_root (t : Cranbtree) (e : CbtEntry) (r : CbtNode)
    (hroot : t.root = some r) (hn : 3 ≤ t.n)
    (hinv : NodeInv t.n none none r) (hfresh : e.key ∉ keysN r) :
    ∃ x, cbt_insert t e = { t with root := some x } ∧
      NodeInv t.n none none x ∧
      (∀ k ∈ keysN x, k = e.key ∨ k ∈ keysN r) ∧
      heightN x ≤ heightN r + 1 ∧
      (r.len ≠ t.n - 1 → heightN x ≤ heightN r) := by
  have hf : insertFuel t = (heightN r + 2) + 1 := by
    simp only [insertFuel, treeHeight, hroot]
  obtain ⟨x, hcase, hxinv, hxk, hxh, hnf⟩ := root_call_ok t.n e r (heightN r + 2) hn
    hinv hfresh (by omega)
  refine ⟨x, ?_, hxinv, hxk, hxh, fun hne => (hnf hne).2⟩
  rcases hcase with hc | hc
  · simp only [cbt_insert, hf, hroot, hc]
  · simp only [cbt_insert, hf, hroot, hc, Bool.false_eq_true, if_false]

theorem nodesL_replicate (k : Nat) : nodesL (List.replicate k none) = [] := by
  induction k with
  | zero => rfl
  | succ k ih => rw [List.replicate_succ, nodesL_cons_none, ih]

theorem nodesL_prefix_mem (cs : List CbtNode) (r : Nat) (y : CbtNode) :
    y ∈ nodesL (cs.map some ++ List.replicate r none) ↔ ∃ c ∈ cs, y ∈ nodesN c := by
  induction cs with
  | nil => simp [nodesL_replicate]
  | cons c rest ih =>
      simp only [List.map_cons, List.cons_append, nodesL_cons_some, List.mem_append, ih]
      simp

theorem keysUnder_mk_none (E : List (Option CbtEntry)) (C : List (Option CbtNode))
    (len i : Nat) (h : C.getD i none = none) :
    keysUnder (.mk E C len) i = [] := by
  simp only [keysUnder, CbtNode.children_mk, h]

theorem keysUnder_mk_some (E : List (Option CbtEntry)) (C : List (Option CbtNode))
    (len i : Nat) (c : CbtNode) (h : C.getD i none = some c) :
    keysUnder (.mk E C len) i = keysN c := by
  simp only [keysUnder, CbtNode.children_mk, h]

theorem filterMap_id_pref (cs : List CbtNode) (r : Nat) :
    (cs.map some ++ List.replicate r none).filterMap id = cs := by
  induction cs with
  | nil => simp [List.filterMap_replicate]
  | cons c rest ih => simp [List.filterMap_cons, ih]

theorem nodeinv_claim {n : Nat} {lo hi : Option Int} {x : CbtNode}
    (hinv : NodeInv n lo hi x) : ∀ y ∈ nodesN x, nodeClaimOk n y := by
  induction hinv with
  | leaf lo hi ps len hp hlen hsort hbtwn =>
      intro y hy
      rw [nodesN_mk, nodesL_replicate] at hy
      rcases List.mem_cons.mp hy with rfl | h2
      · refine ⟨?_, ?_, ?_, ?_⟩
        · rw [entriesOf_pref]
          omega
        · intro hne
          exfalso
          apply hne
          rw [CbtNode.children_mk]
          simp [List.filterMap_replicate]
        · rw [entriesOf_pref]
          exact hsort
        · intro i _
          constructor
          · intro k hk
            rw [keysUnder_mk_none _ _ _ _ (getD_replicate n i)] at hk
            cases hk
          · intro k hk
            rw [keysUnder_mk_none _ _ _ _ (getD_replicate n (i + 1))] at hk
            cases hk
      · cases h2
  | internal lo hi ps cs len hp hlen hcs hsort hbtwn hkids ih =>
      intro y hy
      rw [nodesN_mk] at hy
      rcases List.mem_cons.mp hy with rfl | h2
      · refine ⟨?_, ?_, ?_, ?_⟩
        · rw [entriesOf_pref]
          omega
        · intro _
          rw [CbtNode.children_mk, entriesOf_pref, filterMap_id_pref]
          omega
        · rw [entriesOf_pref]
          exact hsort
        · intro i hi
          rw [entriesOf_pref] at hi
          have hic : i < cs.length := by omega
          have hic1 : i + 1 < cs.length := by omega
          have hku1 : keysUnder (CbtNode.mk
              (ps.map some ++ List.replicate (n - 1 - ps.length) none)
              (cs.map some ++ List.replicate (n - (ps.length + 1)) none) len) i =
              keysN (cs.get ⟨i, hic⟩) :=
            keysUnder_mk_some _ _ _ _ _
              (by rw [prefix_getD, List.getElem?_eq_getElem hic, List.get_eq_getElem])
          have hku2 : keysUnder (CbtNode.mk
              (ps.map some ++ List.replicate (n - 1 - ps.length) none)
              (cs.map some ++ List.replicate (n - (ps.length + 1)) none) len)
              (i + 1) = keysN (cs.get ⟨i + 1, hic1⟩) :=
            keysUnder_mk_some _ _ _ _ _
              (by rw [prefix_getD, List.getElem?_eq_getElem hic1, List.get_eq_getElem])
          rw [entriesOf_pref, hku1, hku2]
          constructor
          · intro k hk
            have hb := keys_btwn (hkids i hic) k hk
            exact hb.2 _ (by rw [childHi, if_pos (by rw [List.length_map]; omega)])
          · intro k hk
            have hb := keys_btwn (hkids (i + 1) hic1) k hk
            have h1 := hb.1 ((ps.map CbtEntry.key).getD i 0) (by
              rw [childLo, if_neg (show ¬ i + 1 = 0 by omega), Nat.add_sub_cancel])
            exact le_of_lt h1
      · obtain ⟨c, hc, hyc⟩ := (nodesL_prefix_mem cs _ y).mp h2
        obtain ⟨⟨i, hi⟩, rfl⟩ := List.mem_iff_get.mp hc
        exact ih i hi y hyc

theorem singleton_leaf_inv (n : Nat) (hn : 3 ≤ n) (e : CbtEntry) :
    NodeInv n none none (.mk (some e :: List.replicate (n - 2) none)
      (List.replicate n none) 1) := by
  have h1 : (some e :: List.replicate (n - 2) (none : Option CbtEntry)) =
      ([e] : List CbtEntry).map some ++
        List.replicate (n - 1 - ([e] : List CbtEntry).length) none := by
    simp only [List.map_cons, List.map_nil, List.cons_append, List.nil_append,
      List.length_cons, List.length_nil]
    congr 2
  rw [h1]
  exact NodeInv.leaf none none [e] 1 (by simp) (by omega) (by simp)
    (fun k _ => btwn_none k)

theorem singleton_leaf_keys (n : Nat) (e : CbtEntry) (k : Int) :
    k ∈ keysN (.mk (some e :: List.replicate (n - 2) none)
      (List.replicate n none) 1) ↔ k = e.key := by
  rw [keysN_mk, keysL_replicate, List.append_nil]
  simp [List.filterMap_cons, List.filterMap_replicate]

theorem insertList_inv (n : Nat) (hn : 3 ≤ n) :
    ∀ (es : List CbtEntry) (t : Cranbtree), t.n = n → treeInvariant t →
    (∀ k ∈ treeKeys t, ∀ f ∈ es, k ≠ f.key) →
    List.Pairwise (fun a b => CbtEntry.key a ≠ CbtEntry.key b) es →
    treeInvariant (insertList t es) ∧ (insertList t es).n = n ∧
    (∀ k ∈ treeKeys (insertList t es), k ∈ treeKeys t ∨ ∃ f ∈ es, k = f.key) := by
  intro es
  induction es with
  | nil =>
      intro t h1 h2 _ _
      exact ⟨h2, h1, fun k hk => Or.inl hk⟩
  | cons e rest ih =>
      intro t htn hinv hfks hdist
      have hstep_eq : insertList t (e :: rest) = insertList (cbt_insert t e) rest :=
        rfl
      rw [hstep_eq]
      have hn' : 3 ≤ t.n := by omega
      have hd1 : ∀ f ∈ rest, e.key ≠ f.key := List.pairwise_cons.mp hdist |>.1
      have hd2 : List.Pairwise (fun a b => CbtEntry.key a ≠ CbtEntry.key b) rest :=
        List.pairwise_cons.mp hdist |>.2
      cases hroot : t.root with
      | none =>
          have hstep := cbt_insert_empty t e hroot hn'
          have h1 : (cbt_insert t e).n = n := by rw [hstep]; exact htn
          have h2 : treeInvariant (cbt_insert t e) := by
            rw [hstep]
            simp only [treeInvariant]
            exact singleton_leaf_inv t.n hn' e
          have h3 : ∀ k ∈ treeKeys (cbt_insert t e), k = e.key := by
            intro k hk
            rw [hstep] at hk
            simp only [treeKeys] at hk
            exact (singleton_leaf_keys t.n e k).mp hk
          obtain ⟨ha, hb, hc⟩ := ih (cbt_insert t e) h1 h2
            (fun k hk f hf => by rw [h3 k hk]; exact hd1 f hf) hd2
          refine ⟨ha, hb, ?_⟩
          intro k hk
          rcases hc k hk with h4 | ⟨f, hf, rfl⟩
          · exact Or.inr ⟨e, List.mem_cons_self e rest, h3 k h4⟩
          · exact Or.inr ⟨f, List.mem_cons_of_mem e hf, rfl⟩
      | some r =>
          have hinvr : NodeInv t.n none none r := by
            have h0 := hinv
            simp only [treeInvariant, hroot] at h0
            exact h0
          have hfr : e.key ∉ keysN r := by
            intro h
            have hmem : e.key ∈ treeKeys t := by
              simp only [treeKeys, hroot]
              exact h
            exact hfks e.key hmem e (List.mem_cons_self e rest) rfl
          obtain ⟨x, hstep, hxinv, hxk, _, _⟩ :=
            cbt_insert_root t e r hroot hn' hinvr hfr
          have h1 : (cbt_insert t e).n = n := by rw [hstep]; exact htn
          have h2 : treeInvariant (cbt_insert t e) := by
            rw [hstep]
            simp only [treeInvariant]
            exact hxinv
          have h3 : ∀ k ∈ treeKeys (cbt_insert t e), k = e.key ∨ k ∈ treeKeys t := by
            intro k hk
            rw [hstep] at hk
            simp only [treeKeys] at hk
            rcases hxk k hk with h4 | h4
            · exact Or.inl h4
            · refine Or.inr ?_
              simp only [treeKeys, hroot]
              exact h4
          obtain ⟨ha, hb, hc⟩ := ih (cbt_insert t e) h1 h2
            (fun k hk f hf => by
              rcases h3 k hk with rfl | h5
              · exact hd1 f hf
              · exact hfks k h5 f (List.mem_cons_of_mem e hf)) hd2
          refine ⟨ha, hb, ?_⟩
          intro k hk
          rcases hc k hk with h4 | ⟨f, hf, rfl⟩
          · rcases h3 k h4 with rfl | h5
            · exact Or.inr ⟨e, List.mem_cons_self e rest, rfl⟩
            · exact Or.inl h5
          · exact Or.inr ⟨f, List.mem_cons_of_mem e hf, rfl⟩

theorem split_phantom_median (node : CbtNode) (n : Nat) (hn : 3 ≤ n)
    (l r : CbtNode) (he : node.entry.length = n - 1) (hc : node.children.length = n)
    (hfull : node.len = n - 1) (h : bt_split_child node n = some (none, l, r)) :
    node.entry.getD ((n + 1) / 2 - 1) none = none := by
  rw [bt_split_child_char node n hn hfull he hc] at h
  simp only [Option.some.injEq, Prod.mk.injEq] at h
  exact h.1

theorem split_full_exact_real (n : Nat) (hn : 3 ≤ n) (lo hi : Option Int)
    (r : CbtNode) (hinv : NodeInv n lo hi r) (hplen : r.len = n - 1)
    (hpe : (entriesOf r).length = n - 1) :
    ∃ m left right, bt_split_child r n = some (some m, left, right) ∧
      NodeInv n lo (some m.key) left ∧ NodeInv n (some m.key) hi right ∧
      Btwn lo hi m.key ∧ left.len = n / 2 ∧ right.len = n / 2 ∧
      heightN left ≤ heightN r ∧ heightN right ≤ heightN r ∧
      (∀ k ∈ keysN left, k ∈ keysN r) ∧ (∀ k ∈ keysN right, k ∈ keysN r) ∧
      m.key ∈ keysN r := by
  rcases split_inv n hn lo hi r hinv hplen with h | ⟨l2, r2, hsplit, _, _, _, _⟩
  · exact h
  · exfalso
    cases hinv with
    | leaf lo hi ps len hp hlen hsort hbtwn =>
        rw [entriesOf_pref] at hpe
        have hmed := split_phantom_median _ n hn l2 r2
          (by
            rw [CbtNode.entry_mk, List.length_append, List.length_map,
              List.length_replicate]
            omega)
          (by rw [CbtNode.children_mk, List.length_replicate])
          (by simpa using hplen) hsplit
        rw [CbtNode.entry_mk, prefix_getD,
          List.getElem?_eq_getElem (show (n + 1) / 2 - 1 < ps.length by omega)]
          at hmed
        exact Option.noConfusion hmed
    | internal lo hi ps cs len hp hlen hcs hsort hbtwn hkids =>
        rw [entriesOf_pref] at hpe
        have hmed := split_phantom_median _ n hn l2 r2
          (by
            rw [CbtNode.entry_mk, List.length_append, List.length_map,
              List.length_replicate]
            omega)
          (by
            rw [CbtNode.children_mk, List.length_append, List.length_map,
              List.length_replicate]
            omega)
          (by simpa using hplen) hsplit
        rw [CbtNode.entry_mk, prefix_getD,
          List.getElem?_eq_getElem (show (n + 1) / 2 - 1 < ps.length by omega)]
          at hmed
        exact Option.noConfusion hmed

/-- C7: When insert reaches the root of an invariant tree and the root is
full (its `n - 1` entry slots all populated and its count field `n - 1`),
the engine splits the root and installs a brand-new root holding only the
promoted entry, with `children[0]` the old node (left half) and
`children[1]` the new right node, assigns `tree.root` to this new root and
restarts the insertion against it (the final root is the restarted
insertion's in-place result on the new root); when the root is not full,
no new root is created — the root is updated in place — and the tree's
height does not grow: the full-root split is the only way the height can
grow. -/
theorem root_growth (t : Cranbtree) (e : CbtEntry) (r : CbtNode)
    (hroot : t.root = some r) (hn : 3 ≤ t.n) (hinv : treeInvariant t)
    (hfresh : e.key ∉ treeKeys t) :
    ((entriesOf r).length = t.n - 1 ∧ r.len = t.n - 1 →
      ∃ m left right x,
        bt_split_child r t.n = some (some m, left, right) ∧
        split_full_root r t.n =
          (.mk (some m :: List.replicate (t.n - 2) none)
            (some left :: some right :: List.replicate (t.n - 2) none) 1, true) ∧
        bt_insert_helper (treeHeight t + 2) t.n
          (some (.mk (some m :: List.replicate (t.n - 2) none)
            (some left :: some right :: List.replicate (t.n - 2) none) 1)) true e =
          some (.updated x) ∧
        bt_insert_helper (insertFuel t) t.n t.root true e = some (.newRoot x false) ∧
        cbt_insert t e = { t with root := some x }) ∧
    (r.len ≠ t.n - 1 →
      ∃ x, bt_insert_helper (insertFuel t) t.n t.root true e = some (.updated x) ∧
        cbt_insert t e = { t with root := some x } ∧
        treeHeight (cbt_insert t e) ≤ treeHeight t) := by
  have hinvr : NodeInv t.n none none r := by
    have h0 := hinv
    simp only [treeInvariant, hroot] at h0
    exact h0
  have hfr : e.key ∉ keysN r := by
    have h0 := hfresh
    simp only [treeKeys, hroot] at h0
    exact h0
  have hth : treeHeight t = heightN r := by simp only [treeHeight, hroot]
  have hf : insertFuel t = (heightN r + 2) + 1 := by
    simp only [insertFuel, treeHeight, hroot]
  constructor
  · rintro ⟨hpe, hplen⟩
    obtain ⟨m, left, right, hsplit, hlinv, hrinv, _, hll, hrl, hlh, hrh, hlk, hrk,
      hmk⟩ := split_full_exact_real t.n hn none none r hinvr hplen hpe
    have hsfr := split_full_root_real r t.n m left right hsplit
    rw [nie_empty t.n hn m] at hsfr
    simp only [CbtNode.entry_mk, CbtNode.children_mk, CbtNode.len_mk] at hsfr
    rw [set01_replicate t.n (by omega) (some left) (some right)] at hsfr
    have hnrinv := fresh_root_inv t.n hn m left right hlinv hrinv
    have hnof := helper_root_nofsplit (heightN r + 1) t.n
      (CbtNode.mk (some m :: List.replicate (t.n - 2) none)
        (some left :: some right :: List.replicate (t.n - 2) none) 1)
      (CbtNode.mk (some m :: List.replicate (t.n - 2) none)
        (some left :: some right :: List.replicate (t.n - 2) none) 1) e
      (split_full_root_none _ t.n
        (split_not_full _ t.n (by rw [fresh_root_len]; omega)))
    obtain ⟨x, hrec, hxinv, hxh, hxk⟩ := descend_ok (heightN r + 2) t.n e none none
      (CbtNode.mk (some m :: List.replicate (t.n - 2) none)
        (some left :: some right :: List.replicate (t.n - 2) none) 1)
      hn hnrinv (by rw [fresh_root_len]; omega) (btwn_none e.key)
      (fun h => by
        rcases (fresh_root_keys t.n m left right e.key).mp h with h2 | h2 | h2
        · exact hfr (by rw [h2]; exact hmk)
        · exact hfr (hlk _ h2)
        · exact hfr (hrk _ h2))
      (by
        have := fresh_root_height_le t.n m left right (heightN r) hlh hrh
        omega)
    have hadd : heightN r + 2 = (heightN r + 1) + 1 := rfl
    have hrestart := helper_root_restart (heightN r + 2) t.n r _ e x hsfr
      (by rw [hadd, hnof]; exact hrec)
    refine ⟨m, left, right, x, hsplit, hsfr, ?_, ?_, ?_⟩
    · rw [hth, hadd, hnof]
      exact hrec
    · rw [hf, hroot]
      exact hrestart
    · simp only [cbt_insert, hf, hroot, hrestart, Bool.false_eq_true, if_false]
  · intro hne
    obtain ⟨x, _, hxinv, hxk, hxh, hnf⟩ := root_call_ok t.n e r (heightN r + 2) hn
      hinvr hfr (by omega)
    obtain ⟨hupd, hxh2⟩ := hnf hne
    have hstep : cbt_insert t e = { t with root := some x } := by
      simp only [cbt_insert, hf, hroot, hupd]
    refine ⟨x, by rw [hf, hroot]; exact hupd, hstep, ?_⟩
    rw [hstep, hth]
    simp only [treeHeight]
    exact hxh2

/-- C1: For every sequence of inserted keys starting from an empty tree of
order `n ≥ 3` (keys pairwise distinct, per the spec's data-model
assumption that keys are unique), after each call to insert every node of
the tree satisfies the four per-node conditions: entry count within
`[0, n-1]`; an internal node has exactly `count + 1` non-absent child
slots; entries strictly ascending by key; and for every entry index `i`
all keys under `children[i]` are smaller than `entries[i].key` while all
keys under `children[i+1]` are at least it. -/
theorem insert_invariants (n : Nat) (es : List CbtEntry) (hn : 3 ≤ n)
    (hdist : List.Pairwise (fun a b => CbtEntry.key a ≠ CbtEntry.key b) es) :
    ∀ i, ∀ x ∈ allNodesT (insertList (cbt_create n) (es.take i)),
      nodeClaimOk n x := by
  intro i x hx
  obtain ⟨hinv, hni, _⟩ := insertList_inv n hn (es.take i) (cbt_create n) rfl
    (by exact trivial)
    (by intro k hk; simp [treeKeys, cbt_create] at hk)
    (hdist.take)
  cases hroot : (insertList (cbt_create n) (es.take i)).root with
  | none =>
      simp only [allNodesT, hroot] at hx
      cases hx
  | some r =>
      have hr : NodeInv n none none r := by
        have h0 := hinv
        simp only [treeInvariant, hroot] at h0
        rw [hni] at h0
        exact h0
      simp only [allNodesT, hroot] at hx
      exact nodeinv_claim hr x hx

theorem insert_invariants_witness :
    List.Pairwise (fun a b => CbtEntry.key a ≠ CbtEntry.key b)
      ([⟨10, 0⟩, ⟨20, 0⟩, ⟨30, 0⟩, ⟨40, 0⟩] : List CbtEntry) ∧
    ∀ x ∈ allNodesT (insertList (cbt_create 3)
      (([⟨10, 0⟩, ⟨20, 0⟩, ⟨30, 0⟩, ⟨40, 0⟩] : List CbtEntry).take 4)),
      nodeClaimOk 3 x :=
  ⟨by decide, insert_invariants 3 [⟨10, 0⟩, ⟨20, 0⟩, ⟨30, 0⟩, ⟨40, 0⟩]
    (by decide) (by decide) 4⟩

/-- C9: On a tree satisfying the structural invariant (order `n ≥ 3`), for
a fresh key, the fueled insertion helper terminates within fuel
`treeHeight + 3` — the recursion is bounded by the tree height — and the
root-growth restart can happen at most once per insertion, because any
root freshly built by a successful root split holds a single entry and is
therefore not full. -/
theorem insert_terminates (t : Cranbtree) (e : CbtEntry) (hn : 3 ≤ t.n)
    (hinv : treeInvariant t) (hfresh : e.key ∉ treeKeys t) :
    (∃ res, bt_insert_helper (insertFuel t) t.n t.root true e = some res) ∧
    (∀ r nr, split_full_root r t.n = (nr, true) →
      is_full_node nr t.n = false) := by
  refine ⟨?_, fun r nr h => split_root_not_full_again r t.n nr hn h⟩
  cases hroot : t.root with
  | none =>
      have hf : insertFuel t = 3 := by simp only [insertFuel, treeHeight, hroot]
      rw [hf]
      exact ⟨_, rfl⟩
  | some r =>
      have hinvr : NodeInv t.n none none r := by
        have h0 := hinv
        simp only [treeInvariant, hroot] at h0
        exact h0
      have hfr : e.key ∉ keysN r := by
        have h0 := hfresh
        simp only [treeKeys, hroot] at h0
        exact h0
      have hf : insertFuel t = (heightN r + 2) + 1 := by
        simp only [insertFuel, treeHeight, hroot]
      obtain ⟨x, hcase, _⟩ := root_call_ok t.n e r (heightN r + 2) hn hinvr hfr
        (by omega)
      rw [hf]
      rcases hcase with hc | hc
      · exact ⟨_, hc⟩
      · exact ⟨_, hc⟩

theorem insert_terminates_witness :
    treeInvariant (cbt_create 3) ∧
    ((⟨1, 0⟩ : CbtEntry).key ∉ treeKeys (cbt_create 3)) ∧
    (∃ res, bt_insert_helper (insertFuel (cbt_create 3)) (cbt_create 3).n
      (cbt_create 3).root true ⟨1, 0⟩ = some res) ∧
    (∀ r nr, split_full_root r (cbt_create 3).n = (nr, true) →
      is_full_node nr (cbt_create 3).n = false) :=
  ⟨by exact True.intro, by decide,
    (insert_terminates (cbt_create 3) ⟨1, 0⟩ (by decide) (by exact True.intro)
      (by decide)).1,
    (insert_terminates (cbt_create 3) ⟨1, 0⟩ (by decide) (by exact True.intro)
      (by decide)).2⟩

/-- C8: The tree's `min_key` and `max_key` fields are assigned only by the
very first insertion into an empty tree, where both are set to the
inserted entry's key; an insertion into a nonempty invariant tree with a
fresh key leaves both fields unchanged, no matter how the new key compares
to them. -/
theorem minmax_frame (t : Cranbtree) (e : CbtEntry) (hn : 3 ≤ t.n)
    (hinv : treeInvariant t) (hfresh : e.key ∉ treeKeys t) :
    (t.root = none →
      (cbt_insert t e).min_key = e.key ∧ (cbt_insert t e).max_key = e.key) ∧
    (t.root ≠ none →
      (cbt_insert t e).min_key = t.min_key ∧
      (cbt_insert t e).max_key = t.max_key) := by
  constructor
  · intro hroot
    rw [cbt_insert_empty t e hroot hn]
    exact ⟨rfl, rfl⟩
  · intro hroot
    cases hr : t.root with
    | none => exact absurd hr hroot
    | some r =>
        have hinvr : NodeInv t.n none none r := by
          have h0 := hinv
          simp only [treeInvariant, hr] at h0
          exact h0
        have hfr : e.key ∉ keysN r := by
          have h0 := hfresh
          simp only [treeKeys, hr] at h0
          exact h0
        obtain ⟨x, hstep, _⟩ := cbt_insert_root t e r hr hn hinvr hfr
        rw [hstep]
        exact ⟨rfl, rfl⟩

theorem minmax_frame_witness :
    treeInvariant (cbt_insert (cbt_create 3) ⟨5, 0⟩) ∧
    ((⟨1, 0⟩ : CbtEntry).key ∉ treeKeys (cbt_insert (cbt_create 3) ⟨5, 0⟩)) ∧
    (((cbt_insert (cbt_create 3) ⟨5, 0⟩).root = none →
        (cbt_insert (cbt_insert (cbt_create 3) ⟨5, 0⟩) ⟨1, 0⟩).min_key =
          (⟨1, 0⟩ : CbtEntry).key ∧
        (cbt_insert (cbt_insert (cbt_create 3) ⟨5, 0⟩) ⟨1, 0⟩).max_key =
          (⟨1, 0⟩ : CbtEntry).key) ∧
     ((cbt_insert (cbt_create 3) ⟨5, 0⟩).root ≠ none →
        (cbt_insert (cbt_insert (cbt_create 3) ⟨5, 0⟩) ⟨1, 0⟩).min_key =
          (cbt_insert (cbt_create 3) ⟨5, 0⟩).min_key ∧
        (cbt_insert (cbt_insert (cbt_create 3) ⟨5, 0⟩) ⟨1, 0⟩).max_key =
          (cbt_insert (cbt_create 3) ⟨5, 0⟩).max_key)) :=
  ⟨by exact singleton_leaf_inv 3 (by omega) ⟨5, 0⟩, by decide,
    minmax_frame (cbt_insert (cbt_create 3) ⟨5, 0⟩) ⟨1, 0⟩ (by decide)
      (by exact singleton_leaf_inv 3 (by omega) ⟨5, 0⟩) (by decide)⟩

/-- C2: counterexample to the contract sentence of `insert_sorted`
("returns the index at which the entry landed"): inserting key 5 into an
empty order-3 node lands the entry at index 0, but the value the engine
relies on — pinned by §4.3(d) and the caller at insert.c line 91, which
stores the new right half at `children[returned]`, the slot immediately
after the landing index — is one past the landing index; the primitive
modelled from that behavior and the literal contract disagree. -/
theorem insert_sorted_return_cex :
    locateIdx (bt_create_node 3).entry 5 = 0 ∧
    (node_insert_entry (bt_create_node 3) ⟨5, 0⟩ true 3).2 ≠
      (insert_sorted_contract (bt_create_node 3) ⟨5, 0⟩ true 3).2 :=
  ⟨rfl, by decide⟩

/-- C2 (amended): during insert, when the child selected for descent is
full and its split promotes an entry, the engine splits the child, inserts
the promoted entry into the current node via the sorted-insert primitive —
whose returned value is one past the index at which the entry landed, not
the landing index itself — stores the new right half into the child slot
at that returned value, which is exactly the slot immediately after the
landing index, and then continues through `helperAfterSplit`, which
recomputes the child index with `get_next_node_index` against the current
node's updated entries before descending. -/
theorem split_attach_recompute (fuel n : Nat) (e : CbtEntry) (node child : CbtNode)
    (ci : Nat) (m : CbtEntry) (left right : CbtNode)
    (hci : get_next_node_index node e.key n = ci)
    (hread : node.children.getD ci none = some child)
    (hsplit : bt_split_child child n = some (some m, left, right))
    (hlt : locateIdx node.entry m.key + 1 < node.children.length) :
    ∃ root1 ins root3,
      root1 = (⟨node.entry, node.children.set ci (some left), node.len⟩ : CbtNode) ∧
      ins = node_insert_entry root1 m true n ∧
      ins.2 = (insert_sorted_contract root1 m true n).2 + 1 ∧
      root3 = (⟨ins.1.entry, ins.1.children.set ins.2 (some right),
        ins.1.len⟩ : CbtNode) ∧
      root3.children.getD ins.2 none = some right ∧
      bt_insert_helper (fuel + 1) n (some node) false e =
        helperAfterSplit fuel n e root3 := by
  refine ⟨_, _, _, rfl, rfl, rfl, rfl, ?_, ?_⟩
  · have hb : (node_insert_entry (⟨node.entry, node.children.set ci (some left),
        node.len⟩ : CbtNode) m true n).2 <
        (node_insert_entry (⟨node.entry, node.children.set ci (some left),
          node.len⟩ : CbtNode) m true n).1.children.length := by
      show locateIdx node.entry m.key + 1 <
        (slotShiftFrom (node.children.set ci (some left))
          (locateIdx node.entry m.key + 1)).length
      rw [slotShiftFrom_length, List.length_set]
      exact hlt
    rw [CbtNode.children_mk, getD_set', if_pos ⟨rfl, hb⟩]
  · exact helper_split_eq fuel n node e ci child left right m hci hread hsplit

theorem split_attach_recompute_witness :
    ∃ root1 ins root3,
      ins = node_insert_entry root1 (⟨10, 0⟩ : CbtEntry) true 3 ∧
      ins.2 = (insert_sorted_contract root1 (⟨10, 0⟩ : CbtEntry) true 3).2 + 1 ∧
      root3.children.getD ins.2 none =
        some (CbtNode.mk [none, none] [none, none, none] 1) ∧
      bt_insert_helper 3 3
        (some (CbtNode.mk [some ⟨20, 0⟩, none]
          [some (CbtNode.mk [some ⟨1, 0⟩, some ⟨10, 0⟩] [none, none, none] 2),
           none, none] 1)) false ⟨5, 0⟩ = helperAfterSplit 2 3 ⟨5, 0⟩ root3 := by
  obtain ⟨root1, ins, root3, _, h2, h3, _, h5, h6⟩ :=
    split_attach_recompute 2 3 ⟨5, 0⟩
      (CbtNode.mk [some ⟨20, 0⟩, none]
        [some (CbtNode.mk [some ⟨1, 0⟩, some ⟨10, 0⟩] [none, none, none] 2),
         none, none] 1)
      (CbtNode.mk [some ⟨1, 0⟩, some ⟨10, 0⟩] [none, none, none] 2) 0 ⟨10, 0⟩
      (CbtNode.mk [some ⟨1, 0⟩, none] [none, none, none] 1)
      (CbtNode.mk [none, none] [none, none, none] 1)
      rfl rfl rfl (by decide)
  exact ⟨root1, ins, root3, h2, h3, h5, h6⟩

theorem root_growth_witness :
    (insertList (cbt_create 3) [⟨10, 0⟩, ⟨20, 0⟩]).root =
      some (CbtNode.mk [some ⟨10, 0⟩, some ⟨20, 0⟩] [none, none, none] 2) ∧
    ((⟨15, 0⟩ : CbtEntry).key ∉
      treeKeys (insertList (cbt_create 3) [⟨10, 0⟩, ⟨20, 0⟩])) ∧
    ∃ m left right x,
      bt_split_child (CbtNode.mk [some ⟨10, 0⟩, some ⟨20, 0⟩] [none, none, none] 2)
        (insertList (cbt_create 3) [⟨10, 0⟩, ⟨20, 0⟩]).n =
        some (some m, left, right) ∧
      cbt_insert (insertList (cbt_create 3) [⟨10, 0⟩, ⟨20, 0⟩]) ⟨15, 0⟩ =
        { insertList (cbt_create 3) [⟨10, 0⟩, ⟨20, 0⟩] with root := some x } := by
  refine ⟨rfl, by decide, ?_⟩
  obtain ⟨h1, _⟩ := root_growth (insertList (cbt_create 3) [⟨10, 0⟩, ⟨20, 0⟩])
    ⟨15, 0⟩ (CbtNode.mk [some ⟨10, 0⟩, some ⟨20, 0⟩] [none, none, none] 2) rfl
    (by decide)
    (by
      show NodeInv 3 none none
        (CbtNode.mk [some ⟨10, 0⟩, some ⟨20, 0⟩] [none, none, none] 2)
      exact NodeInv.leaf none none [⟨10, 0⟩, ⟨20, 0⟩] 2 (by decide) (by decide)
        (by decide) (fun k _ => btwn_none k))
    (by decide)
  obtain ⟨m, left, right, x, hs, _, _, _, hc⟩ := h1 (by decide)
  exact ⟨m, left, right, x, hs, hc⟩

end Cranberry
